import Mathlib

/-!
Verification of the calldata encode-and-decompose engine of
`solidity-calldata-visualization`.

The decomposer (`buildFlatBreakdown`, `parseDynamicData`, `padTo32Bytes`),
the canonical-signature computation (`getCanonicalSignatureForParams`), the
signature-name matching of `encodeFunctionCall`, and the caller-side value
coercion (`processValues` in `app/page.tsx`) are embedded from the source.
The byte-level parameter encoding is performed in the source by the external
`viem` library (`encodeAbiParameters`); it is modelled from the spec (§4.3).

Representation notes:
* JavaScript strings holding hex data are modelled as `List Char` of hex
  digits; the `0x` prefix that the source attaches for display is dropped.
* `parseInt(s, 16)` is modelled on strings of hex digits (where it equals
  big-endian digit accumulation); on strings starting with a non-hex-digit
  JavaScript returns `NaN`, which is outside the modelled domain (every
  theorem below only parses slices made of hex digits).
* Recursive engine functions take an explicit fuel argument (structural
  recursion on the fuel, returning `none` when it runs out); fuel only ever
  bounds the recursion depth and never alters the computed value.
-/

set_option maxRecDepth 100000
set_option maxHeartbeats 1600000

namespace CalldataViz

/-- Hex digit character for a value in `[0, 15]` (lower case, as produced by
the JS hex rendering used throughout the source). -/
def hexDigitChar (n : Nat) : Char :=
  if n < 10 then Char.ofNat (48 + n) else Char.ofNat (87 + n)

/-- Numeric value of a hex digit character (inverse of `hexDigitChar` on
digits `0`-`9`, `a`-`f`). -/
def hexVal (c : Char) : Nat :=
  if c.toNat ≤ 57 then c.toNat - 48 else c.toNat - 87

/-- Is this character a hex digit (`0`-`9` or `a`-`f`)? -/
def isHexDigitB (c : Char) : Bool :=
  (48 ≤ c.toNat && c.toNat ≤ 57) || (97 ≤ c.toNat && c.toNat ≤ 102)

/-- Fixed-width big-endian hex rendering of a natural number: exactly `len`
hex digits, most significant first. -/
def natToHex : Nat → Nat → List Char
  | _, 0 => []
  | v, len + 1 => natToHex (v / 16) len ++ [hexDigitChar (v % 16)]

/-- Big-endian value of a list of hex digits. -/
def parseHexDigits : List Char → Nat
  | [] => 0
  | c :: cs => hexVal c * 16 ^ cs.length + parseHexDigits cs

/-- Model of JavaScript `parseInt(s, 16)` on its hex-digit domain: the value
of the longest hex-digit prefix (JS returns `NaN` when that prefix is empty;
all uses below parse nonempty all-hex slices). -/
def parseIntHex (cs : List Char) : Nat :=
  parseHexDigits (cs.takeWhile isHexDigitB)

/-- Two hex digits of one byte value. -/
def byteToHex (b : Nat) : List Char := natToHex b 2

/-- Hex rendering of a byte list. -/
def bytesToHex (bs : List Nat) : List Char := (bs.map byteToHex).flatten

/-- Model of JavaScript `s.substring(a, b)`: indices are clamped to the
string length and swapped when out of order. -/
def jsSubstring (s : List Char) (a b : Nat) : List Char :=
  let a' := min a s.length
  let b' := min b s.length
  (s.drop (min a' b')).take (max a' b' - min a' b')

/-- Model of JavaScript `s.padStart(64, '0')`. -/
def padStart64 (s : List Char) : List Char :=
  List.replicate (64 - s.length) '0' ++ s

/-- Model of JavaScript `s.padEnd(64, '0')`. -/
def padEnd64 (s : List Char) : List Char :=
  s ++ List.replicate (64 - s.length) '0'

/-- Model of `s.padEnd(Math.ceil(s.length / 64) * 64, '0')`: zero-pad on the
right up to the next multiple of 64 hex characters (32 bytes). -/
def padEndToWord (s : List Char) : List Char :=
  s ++ List.replicate ((s.length + 63) / 64 * 64 - s.length) '0'

theorem natToHex_length (v len : Nat) : (natToHex v len).length = len := by
  induction len generalizing v with
  | zero => rfl
  | succ n ih => simp [natToHex, ih]

theorem natToHex_zero (len : Nat) : natToHex 0 len = List.replicate len '0' := by
  induction len with
  | zero => rfl
  | succ n ih =>
      simp [natToHex, ih, hexDigitChar, List.replicate_succ]
      exact (List.replicate_succ' n '0').symm

theorem parseHexDigits_append (a b : List Char) :
    parseHexDigits (a ++ b) = parseHexDigits a * 16 ^ b.length + parseHexDigits b := by
  induction a with
  | nil => simp [parseHexDigits]
  | cons c cs ih =>
      show hexVal c * 16 ^ (cs ++ b).length + parseHexDigits (cs ++ b) = _
      rw [List.length_append, ih, pow_add, parseHexDigits]
      ring

theorem hexVal_hexDigitChar {n : Nat} (h : n < 16) : hexVal (hexDigitChar n) = n := by
  interval_cases n <;> rfl

theorem isHexDigitB_hexDigitChar {n : Nat} (h : n < 16) :
    isHexDigitB (hexDigitChar n) = true := by
  interval_cases n <;> rfl

theorem parseHexDigits_natToHex {v len : Nat} (h : v < 16 ^ len) :
    parseHexDigits (natToHex v len) = v := by
  induction len generalizing v with
  | zero =>
      simp only [pow_zero, Nat.lt_one_iff] at h
      simp [h, natToHex, parseHexDigits]
  | succ n ih =>
      have hdiv : v / 16 < 16 ^ n := by
        exact Nat.div_lt_of_lt_mul (by rw [pow_succ] at h; omega)
      rw [natToHex, parseHexDigits_append, ih hdiv]
      simp [parseHexDigits, hexVal_hexDigitChar (Nat.mod_lt v (by norm_num))]
      omega

theorem natToHex_forall_hex (v len : Nat) :
    ∀ c ∈ natToHex v len, isHexDigitB c = true := by
  induction len generalizing v with
  | zero => intro c hc; simp [natToHex] at hc
  | succ n ih =>
      intro c hc
      rw [natToHex] at hc
      rcases List.mem_append.mp hc with h | h
      · exact ih _ c h
      · simp only [List.mem_singleton] at h
        subst h
        exact isHexDigitB_hexDigitChar (Nat.mod_lt v (by norm_num))

theorem parseIntHex_natToHex {v len : Nat} (h : v < 16 ^ len) :
    parseIntHex (natToHex v len) = v := by
  unfold parseIntHex
  rw [List.takeWhile_eq_self_iff.mpr (natToHex_forall_hex v len)]
  exact parseHexDigits_natToHex h

/-- Splitting a fixed-width hex rendering into high and low digit blocks. -/
theorem natToHex_add (v a b : Nat) :
    natToHex v (a + b) = natToHex (v / 16 ^ b) a ++ natToHex (v % 16 ^ b) b := by
  induction b generalizing v with
  | zero => simp [natToHex]
  | succ n ih =>
      have h1 : v / 16 / 16 ^ n = v / 16 ^ (n + 1) := by
        rw [Nat.div_div_eq_div_mul, pow_succ']
      have h2 : v / 16 % 16 ^ n = v % 16 ^ (n + 1) / 16 := by
        rw [pow_succ', Nat.mod_mul_right_div_self]
      have h3 : v % 16 ^ (n + 1) % 16 = v % 16 := by
        exact Nat.mod_mod_of_dvd v (dvd_pow_self 16 (Nat.succ_ne_zero n))
      calc natToHex v (a + (n + 1))
          = natToHex (v / 16) (a + n) ++ [hexDigitChar (v % 16)] := rfl
        _ = natToHex (v / 16 / 16 ^ n) a ++ natToHex (v / 16 % 16 ^ n) n
              ++ [hexDigitChar (v % 16)] := by rw [ih, List.append_assoc]
        _ = natToHex (v / 16 ^ (n + 1)) a ++ (natToHex (v % 16 ^ (n + 1) / 16) n
              ++ [hexDigitChar (v % 16 ^ (n + 1) % 16)]) := by
                rw [h1, h2, h3]; simp
        _ = _ := rfl

/-- A value below `16 ^ m` rendered at width `len ≥ m` is zero-padded on the
left down to its `m` low digits. -/
theorem natToHex_pad {v m len : Nat} (hm : m ≤ len) (hv : v < 16 ^ m) :
    natToHex v len = List.replicate (len - m) '0' ++ natToHex v m := by
  have h := natToHex_add v (len - m) m
  rw [Nat.sub_add_cancel hm] at h
  rw [h, Nat.div_eq_of_lt hv, Nat.mod_eq_of_lt hv, natToHex_zero]

theorem parseHexDigits_replicate_zero (k : Nat) :
    parseHexDigits (List.replicate k '0') = 0 := by
  induction k with
  | zero => rfl
  | succ n ih => simp [List.replicate_succ, parseHexDigits, ih, hexVal]

theorem bytesToHex_length (bs : List Nat) : (bytesToHex bs).length = 2 * bs.length := by
  induction bs with
  | nil => rfl
  | cons b rest ih =>
      simp [bytesToHex, byteToHex, natToHex_length] at ih ⊢
      omega

theorem jsSubstring_eq_drop_take {s : List Char} {a b : Nat}
    (hab : a ≤ b) (hb : b ≤ s.length) :
    jsSubstring s a b = (s.drop a).take (b - a) := by
  unfold jsSubstring
  have ha' : min a s.length = a := min_eq_left (le_trans hab hb)
  have hb' : min b s.length = b := min_eq_left hb
  simp only [ha', hb', min_eq_left hab, max_eq_right hab]

/-- Model of JavaScript `s.endsWith(suffix)`. -/
def endsWithCl (s suf : List Char) : Bool :=
  if suf.length ≤ s.length then s.drop (s.length - suf.length) == suf else false

/-- Model of JavaScript `s.startsWith(pre)`. -/
def startsWithCl (s pre : List Char) : Bool :=
  s.take pre.length == pre

/-- Decimal digit character. -/
def decDigitChar (n : Nat) : Char := Char.ofNat (48 + n % 10)

/-- Decimal rendering of a natural number (auxiliary, fueled on the digit
count; the wrapper `decRepr` always supplies enough fuel). -/
def decReprAux : Nat → Nat → List Char
  | 0, _ => []
  | f + 1, n => if n < 10 then [decDigitChar n] else decReprAux f (n / 10) ++ [decDigitChar (n % 10)]

/-- Decimal rendering of a natural number, as JavaScript template literals
produce for a nonnegative integer. -/
def decRepr (n : Nat) : List Char := decReprAux (n + 1) n

/-- ABI parameter shape as produced by viem's `parseAbiParameters`: a type
string, an optional argument name, and optional tuple components (present on
`tuple` and `tuple[]`-style types). -/
inductive AbiParam where
  | mk (ty : List Char) (nameStr : Option (List Char)) (components : Option (List AbiParam))

def AbiParam.ty : AbiParam → List Char
  | .mk t _ _ => t

def AbiParam.nameStr : AbiParam → Option (List Char)
  | .mk _ n _ => n

def AbiParam.components : AbiParam → Option (List AbiParam)
  | .mk _ _ c => c

mutual
/-- Source `isDynamic` (calldata-encoder, current version): a parameter is
dynamic if its type ends in `[]`, is `string` or `bytes`, or is a composite
with some dynamic component. -/
def isDynamicP : AbiParam → Bool
  | .mk t _ c =>
    if endsWithCl t ("[]".data) || t == ("string".data) || t == ("bytes".data) then true
    else
      match c with
      | some cs => anyDynamicP cs
      | none => false

/-- `components.some(isDynamic)` of the source. -/
def anyDynamicP : List AbiParam → Bool
  | [] => false
  | p :: ps => isDynamicP p || anyDynamicP ps
end

/-- Source `padTo32Bytes`: numeric types and addresses pad on the left,
fixed-size `bytesN` (not array types) pad on the right, anything else is
returned unchanged. -/
def padTo32Bytes (hex : List Char) (ty : List Char) : List Char :=
  if startsWithCl ty ("uint".data) || startsWithCl ty ("int".data) || ty == ("address".data) then
    padStart64 hex
  else if startsWithCl ty ("bytes".data) && !endsWithCl ty ("]".data) then
    padEnd64 hex
  else
    hex

mutual
/-- Source `getCanonicalSignatureForParams`, per-parameter part: `tuple`
renders as its parenthesized component list, `tuple[]` the same with a `[]`
suffix, every other type as its bare type token. -/
def canonicalOfParam : AbiParam → List Char
  | .mk t _ c =>
    match c with
    | some cs =>
      if t == ("tuple".data) then '(' :: (canonicalOfParams cs ++ [')'])
      else if t == ("tuple[]".data) then '(' :: (canonicalOfParams cs ++ (')' :: "[]".data))
      else t
    | none => t

/-- Comma-join of `canonicalOfParam` over a parameter list (source `.join(',')`). -/
def canonicalOfParams : List AbiParam → List Char
  | [] => []
  | [p] => canonicalOfParam p
  | p :: ps => canonicalOfParam p ++ ',' :: canonicalOfParams ps
end

/-- Source canonical signature: `funcName(canonicalParams)`. -/
def canonicalSignature (funcName : List Char) (params : List AbiParam) : List Char :=
  funcName ++ '(' :: (canonicalOfParams params ++ [')'])

/-- Source selector computation, with the fixed 256-bit hash abstracted as a
function argument: hex rendering of the first 4 bytes of the digest of the
canonical signature (the source's `keccak256(...).slice(0, 10)` keeps
`0x` + 8 hex digits; the model drops the `0x` prefix). -/
def selectorOf (hash : List Char → List Nat) (sig : List Char) : List Char :=
  bytesToHex ((hash sig).take 4)

mutual
/-- Recursive erasure of all argument names from a parameter tree (two
signature strings "differing only in argument names" parse to
name-erasure-equal parameter lists). -/
def eraseName : AbiParam → AbiParam
  | .mk t _ c =>
    .mk t none
      (match c with
       | some cs => some (eraseNames cs)
       | none => none)

/-- `eraseName` mapped over a parameter list. -/
def eraseNames : List AbiParam → List AbiParam
  | [] => []
  | p :: ps => eraseName p :: eraseNames ps
end

/-- Source `param.name || param${i}` (an empty name string is falsy in JS
and also falls back to the positional name). -/
def paramNameOf (p : AbiParam) (i : Nat) : List Char :=
  match p.nameStr with
  | some n => if n.isEmpty then ("param".data) ++ decRepr i else n
  | none => ("param".data) ++ decRepr i

/-- A recorded dynamic item of the decomposer's first pass: the parameter,
its display name and the offset parsed from its head slot. -/
structure DynItem where
  param : AbiParam
  dname : List Char
  offset : Nat

/-- Head-slot consumption of one parameter in the decomposer's first pass:
64 hex chars normally, `components.length * 64` for an inlined static tuple. -/
def headAdvance (p : AbiParam) : Nat :=
  if isDynamicP p then 64
  else
    match p with
    | .mk t _ (some cs) => if t == ("tuple".data) then cs.length * 64 else 64
    | .mk _ _ none => 64

/-- The dynamic items recorded by the decomposer's first pass (the source
collects them in the same loop that emits head parts; the model splits the
loop in two, advancing the cursor identically in both). -/
def collectDynItems : List AbiParam → List Char → Nat → Nat → List DynItem
  | [], _, _, _ => []
  | p :: ps, hex, cursor, i =>
    if isDynamicP p then
      { param := p, dname := paramNameOf p i,
        offset := parseIntHex (jsSubstring hex cursor (cursor + 64)) }
        :: collectDynItems ps hex (cursor + 64) (i + 1)
    else
      collectDynItems ps hex (cursor + headAdvance p) (i + 1)

/-- Stable insertion into an offset-ascending list (an element inserted from
the left of the original list goes before equal offsets, matching the stable
JS `Array.prototype.sort` with comparator `(a, b) => a.offset - b.offset`). -/
def insertByOffset (x : DynItem) : List DynItem → List DynItem
  | [] => [x]
  | y :: ys => if y.offset < x.offset then y :: insertByOffset x ys else x :: y :: ys

/-- Stable ascending sort by offset (source `dynamicItems.sort(...)`). -/
def sortByOffset : List DynItem → List DynItem
  | [] => []
  | x :: xs => insertByOffset x (sortByOffset xs)

/-- The hex-character window of each dynamic item after sorting: from its
own doubled offset to the next item's, or to the end for the last item. -/
def windowBounds : List DynItem → Nat → List (DynItem × Nat × Nat)
  | [], _ => []
  | [it], endPos => [(it, it.offset * 2, endPos)]
  | it :: it2 :: rest, endPos =>
      (it, it.offset * 2, it2.offset * 2) :: windowBounds (it2 :: rest) endPos

/-- Source `CalldataPart`: display name, declared type, hex value (the `0x`
display prefix is dropped; the tail wrapper's literal `(see components)`
placeholder is kept as its character list), optional description, optional
child parts. -/
inductive CalldataPart where
  | mk (nameStr : List Char) (ty : List Char) (value : List Char)
       (description : Option (List Char)) (components : Option (List CalldataPart))

def CalldataPart.nameStr : CalldataPart → List Char
  | .mk n _ _ _ _ => n

def CalldataPart.ty : CalldataPart → List Char
  | .mk _ t _ _ _ => t

def CalldataPart.value : CalldataPart → List Char
  | .mk _ _ v _ _ => v

def CalldataPart.components : CalldataPart → Option (List CalldataPart)
  | .mk _ _ _ _ c => c

/-- The simple-static head part of the decomposer's first pass. -/
def simpleStaticPart (pname t slot : List Char) : CalldataPart :=
  CalldataPart.mk (pname ++ (" (".data) ++ (t ++ [')'])) ("bytes32".data)
    (padTo32Bytes slot t) none none

mutual
/-- Source `parseDynamicData`: breakdown of the window of one dynamic item.
Array types read a length word and then `count` raw 32-byte words (one per
element, no recursion into element content); `string`/`bytes` read a length
word and the zero-padded data; composite (`components`) types run the full
head/tail breakdown on the window; anything else is returned raw. -/
def parseDynamicDataF : Nat → AbiParam → List Char → Option (List CalldataPart)
  | 0, _, _ => none
  | fuel + 1, p, dataHex =>
    if endsWithCl p.ty ("[]".data) then
      let elementType := p.ty.take (p.ty.length - 2)
      let count := parseIntHex (jsSubstring dataHex 0 64)
      let lengthPart := CalldataPart.mk ("length".data) ("uint256".data)
        (jsSubstring dataHex 0 64) (some (decRepr count)) none
      let itemsDataHex := dataHex.drop 64
      let elems := (List.range count).map (fun i =>
        CalldataPart.mk ('[' :: (decRepr i ++ [']'])) elementType
          (padTo32Bytes (jsSubstring itemsDataHex (64 * i) (64 * i + 64)) elementType)
          none none)
      some (lengthPart :: elems)
    else if p.ty == ("string".data) || p.ty == ("bytes".data) then
      let len := parseIntHex (jsSubstring dataHex 0 64)
      let dataPart := jsSubstring dataHex 64 (64 + len * 2)
      some [CalldataPart.mk ("length".data) ("uint256".data)
              (jsSubstring dataHex 0 64) (some (decRepr len)) none,
            CalldataPart.mk ("value".data)
              (if p.ty == ("string".data) then "utf8".data else "hex".data)
              (padEndToWord dataPart)
              (some (("Original data: 0x".data) ++ dataPart)) none]
    else
      match p.components with
      | some cs => do
          let nested ← buildFlatBreakdownF fuel cs dataHex
          pure (nested.1 ++ nested.2)
      | none =>
          some [CalldataPart.mk ("data".data) ("bytes".data) dataHex
                  (some ("Raw dynamic data".data)) none]

/-- First pass of source `buildFlatBreakdown`: one head part per parameter,
advancing the cursor by one 32-byte slot, except inlined static tuples which
consume `components.length` slots and get a nested breakdown. -/
def headPassF : Nat → List AbiParam → List Char → Nat → Nat → Option (List CalldataPart)
  | 0, _, _, _, _ => none
  | _ + 1, [], _, _, _ => some []
  | fuel + 1, p :: ps, hex, cursor, i =>
    let pname := paramNameOf p i
    if isDynamicP p then
      let headSlotHex := jsSubstring hex cursor (cursor + 64)
      let off := parseIntHex headSlotHex
      do
        let rest ← headPassF fuel ps hex (cursor + 64) (i + 1)
        pure (CalldataPart.mk (pname ++ (" (".data) ++ (p.ty ++ [')'])) ("bytes32".data)
          headSlotHex (some (("Offset to data at byte ".data) ++ decRepr off)) none :: rest)
    else
      match p with
      | .mk t _ (some cs) =>
        if t == ("tuple".data) then
          let tupleDataLength := cs.length * 64
          let staticTupleData := jsSubstring hex cursor (cursor + tupleDataLength)
          do
            let nested ← buildFlatBreakdownF fuel cs staticTupleData
            let rest ← headPassF fuel ps hex (cursor + tupleDataLength) (i + 1)
            pure (CalldataPart.mk (pname ++ (" (".data) ++ (t ++ [')'])) ("tuple".data)
              staticTupleData none (some (nested.1 ++ nested.2)) :: rest)
        else do
          let rest ← headPassF fuel ps hex (cursor + 64) (i + 1)
          pure (simpleStaticPart pname t (jsSubstring hex cursor (cursor + 64)) :: rest)
      | .mk t _ none => do
          let rest ← headPassF fuel ps hex (cursor + 64) (i + 1)
          pure (simpleStaticPart pname t (jsSubstring hex cursor (cursor + 64)) :: rest)

/-- Second pass of source `buildFlatBreakdown`: one tail part per dynamic
item in offset order, whose children are the `parseDynamicData` breakdown of
the item's window. -/
def tailPassF : Nat → List (DynItem × Nat × Nat) → List Char → Option (List CalldataPart)
  | 0, _, _ => none
  | _ + 1, [], _ => some []
  | fuel + 1, (it, s, e) :: rest, hex => do
      let comps ← parseDynamicDataF fuel it.param (jsSubstring hex s e)
      let restParts ← tailPassF fuel rest hex
      pure (CalldataPart.mk (("Tail for ".data) ++ it.dname) it.param.ty
        ("(see components)".data)
        (some (("Data located at byte ".data) ++ decRepr it.offset))
        (some comps) :: restParts)

/-- Source `buildFlatBreakdown`: head parts, then tail parts over the
offset-sorted dynamic items with their windows. -/
def buildFlatBreakdownF : Nat → List AbiParam → List Char →
    Option (List CalldataPart × List CalldataPart)
  | 0, _, _ => none
  | fuel + 1, params, hex => do
      let headParts ← headPassF fuel params hex 0 0
      let tailParts ← tailPassF fuel
        (windowBounds (sortByOffset (collectDynItems params hex 0 0)) hex.length) hex
      pure (headParts, tailParts)
end

/-- Re-assembly of a breakdown tree: concatenation of leaf hex values in
order (a part with children contributes its children's leaves; a leaf
contributes its own hex value). -/
def partsHexF : Nat → List CalldataPart → Option (List Char)
  | 0, _ => none
  | _ + 1, [] => some []
  | fuel + 1, p :: ps => do
      let h ← match p with
        | .mk _ _ _ _ (some cs) => partsHexF fuel cs
        | .mk _ _ v _ none => some v
      let rest ← partsHexF fuel ps
      pure (h ++ rest)

/-!
Spec-modelled encoder. The source delegates byte-level parameter encoding to
the external `viem` library (`encodeAbiParameters`), which is not part of
this repository; the definitions below are modelled from the spec, §3
(Type/Value Nodes) and §4.3 (head/tail layout, padding rules, offsets).
-/

/-- Modelled from the spec: a Type Node (§3). `bits ∈ {8, 16, ..., 256}` for
integer kinds and `n ∈ [1, 32]` for FixedBytes are enforced at encode time. -/
inductive TypeNode where
  | uintT (bits : Nat)
  | intT (bits : Nat)
  | boolT
  | addressT
  | fixedBytesT (n : Nat)
  | dynBytesT
  | textT
  | arrayT (elem : TypeNode)
  | recordT (fields : List (List Char × TypeNode))

/-- Modelled from the spec: a Value Node (§3) — a leaf (numeric, boolean or
byte-string literal) or an ordered list for arrays/records. Text values are
carried as their UTF-8 bytes. -/
inductive ValueNode where
  | numV (v : Int)
  | boolV (b : Bool)
  | bytesV (bs : List Nat)
  | listV (vs : List ValueNode)

mutual
/-- Modelled from the spec (§3): a Type Node is dynamic iff it is
DynamicBytes, Text, an Array, or a Record with at least one dynamic field. -/
def isDynamicT : TypeNode → Bool
  | .dynBytesT => true
  | .textT => true
  | .arrayT _ => true
  | .recordT fs => anyDynField fs
  | _ => false

/-- Does some field of a record have a dynamic type? -/
def anyDynField : List (List Char × TypeNode) → Bool
  | [] => false
  | (_, t) :: rest => isDynamicT t || anyDynField rest
end

/-- The canonical type token of a Type Node, as viem renders parameter
types (`tuple`/`tuple[]` shapes carry their components separately). -/
def typeString : TypeNode → List Char
  | .uintT bits => ("uint".data) ++ decRepr bits
  | .intT bits => ("int".data) ++ decRepr bits
  | .boolT => "bool".data
  | .addressT => "address".data
  | .fixedBytesT n => ("bytes".data) ++ decRepr n
  | .dynBytesT => "bytes".data
  | .textT => "string".data
  | .arrayT e => typeString e ++ "[]".data
  | .recordT _ => "tuple".data

mutual
/-- The `components` of the viem-shaped parameter of a Type Node: records
expose their fields, arrays propagate their element's components. -/
def componentsOf : TypeNode → Option (List AbiParam)
  | .arrayT e => componentsOf e
  | .recordT fs => some (fieldsToParams fs)
  | _ => none

/-- Record fields as viem-shaped parameters (field names kept for display). -/
def fieldsToParams : List (List Char × TypeNode) → List AbiParam
  | [] => []
  | (n, t) :: rest => AbiParam.mk (typeString t) (some n) (componentsOf t) :: fieldsToParams rest
end

/-- The viem-shaped parameter of a Type Node (top-level, unnamed). -/
def toAbiParam (t : TypeNode) : AbiParam :=
  AbiParam.mk (typeString t) none (componentsOf t)

/-- Spec §3: integer widths are whole bytes in `[8, 256]`. -/
def validBits (bits : Nat) : Bool :=
  bits % 8 == 0 && 8 ≤ bits && bits ≤ 256

/-- Modelled from the spec (§4.3 scalar padding rules): the single head word
of a static scalar. Unsigned/signed integers, booleans and addresses are
zero-extended on the left (negative signed values are two's-complement
encoded over 256 bits); FixedBytes(n) is zero-padded on the right. `none`
models the `TypeMismatch`/`NumericOverflow` failures. -/
def scalarWord : TypeNode → ValueNode → Option (List Char)
  | .uintT bits, .numV v =>
      if validBits bits ∧ 0 ≤ v ∧ v < ((2 ^ bits : Nat) : Int) then
        some (natToHex v.toNat 64)
      else none
  | .intT bits, .numV v =>
      if validBits bits ∧ -(((2 ^ (bits - 1) : Nat) : Int)) ≤ v ∧ v < ((2 ^ (bits - 1) : Nat) : Int) then
        some (natToHex ((v % ((2 ^ 256 : Nat) : Int)).toNat) 64)
      else none
  | .boolT, .boolV b => some (natToHex (cond b 1 0) 64)
  | .addressT, .numV v =>
      if 0 ≤ v ∧ v < ((2 ^ 160 : Nat) : Int) then some (natToHex v.toNat 64) else none
  | .fixedBytesT n, .bytesV bs =>
      if 1 ≤ n ∧ n ≤ 32 ∧ bs.length = n ∧ bs.all (· < 256) then
        some (bytesToHex bs ++ List.replicate (64 - 2 * n) '0')
      else none
  | _, _ => none

/-- Head/tail assembly of one encoding level (spec §4.3, modelled as the
spec's design note suggests: items are computed first, then assembled in one
pass). Each item is `(isDynamic, hex)`: a static item contributes its hex
inline to the head, a dynamic item contributes an offset word to the head
and its block to the tail; `off` is the running tail cursor in bytes. -/
def assembleGo : List (Bool × List Char) → Nat → List Char × List Char
  | [], _ => ([], [])
  | (true, block) :: rest, off =>
      let r := assembleGo rest (off + block.length / 2)
      (natToHex off 64 ++ r.1, block ++ r.2)
  | (false, hx) :: rest, off =>
      let r := assembleGo rest off
      (hx ++ r.1, r.2)

/-- Total head size in bytes of an item list (the initial tail cursor). -/
def headBytesOf (items : List (Bool × List Char)) : Nat :=
  (items.map (fun it => if it.1 then 32 else it.2.length / 2)).sum

/-- Head words in declaration order followed by tail blocks in declaration
order (spec §4.3 final layout, selector excluded). -/
def assemble (items : List (Bool × List Char)) : List Char :=
  let r := assembleGo items (headBytesOf items)
  r.1 ++ r.2

mutual
/-- Modelled from the spec (§4.3): inline encoding of a static Type Node —
a scalar's padded word, or a static record's fields encoded with the same
self-similar rule (their level has no dynamic item, so this is the plain
concatenation of the fields' inline words). -/
def encodeStaticF : Nat → TypeNode → ValueNode → Option (List Char)
  | 0, _, _ => none
  | fuel + 1, .recordT fs, .listV vs =>
      if fs.length = vs.length then
        encodeParamsF fuel (List.zip (fs.map Prod.snd) vs)
      else none
  | _ + 1, t, v => scalarWord t v

/-- Modelled from the spec (§4.3): the tail block of a dynamic Type Node —
length word plus zero-padded raw bytes for Text/DynamicBytes, count word
plus self-similarly encoded elements for an Array, and the full head/tail
rule over the fields for a dynamic Record. -/
def encodeTailF : Nat → TypeNode → ValueNode → Option (List Char)
  | 0, _, _ => none
  | _ + 1, .textT, .bytesV bs =>
      if bs.all (· < 256) then
        some (natToHex bs.length 64 ++ padEndToWord (bytesToHex bs))
      else none
  | _ + 1, .dynBytesT, .bytesV bs =>
      if bs.all (· < 256) then
        some (natToHex bs.length 64 ++ padEndToWord (bytesToHex bs))
      else none
  | fuel + 1, .arrayT e, .listV vs => do
      let body ← encodeParamsF fuel (vs.map (fun v => (e, v)))
      pure (natToHex vs.length 64 ++ body)
  | fuel + 1, .recordT fs, .listV vs =>
      if fs.length = vs.length then
        encodeParamsF fuel (List.zip (fs.map Prod.snd) vs)
      else none
  | _, _, _ => none

/-- One `(isDynamic, hex)` item per Type/Value pair of a level. -/
def encodeItemsF : Nat → List (TypeNode × ValueNode) → Option (List (Bool × List Char))
  | 0, _ => none
  | _ + 1, [] => some []
  | fuel + 1, (t, v) :: rest => do
      let item ←
        if isDynamicT t then (encodeTailF fuel t v).map (fun b => (true, b))
        else (encodeStaticF fuel t v).map (fun h => (false, h))
      let restItems ← encodeItemsF fuel rest
      pure (item :: restItems)

/-- Modelled from the spec (§4.3): the encoded byte string (as hex, selector
excluded) of one parameter-list level. -/
def encodeParamsF : Nat → List (TypeNode × ValueNode) → Option (List Char)
  | 0, _ => none
  | fuel + 1, tvs => (encodeItemsF fuel tvs).map assemble
end

/-- Does `s` contain `sub` as a contiguous substring (JS `String.includes`)? -/
def containsCl (s sub : List Char) : Bool :=
  startsWithCl s sub ||
    match s with
    | [] => false
    | _ :: rest => containsCl rest sub

/-- JavaScript whitespace (the subset relevant to the modelled inputs). -/
def isJsWs (c : Char) : Bool :=
  c == ' ' || c == '\t' || c == '\n' || c == '\r' || c == '\x0b' || c == '\x0c'

/-- A character matched by the JS regex `.` (anything but a line terminator). -/
def isJsDot (c : Char) : Bool :=
  !(c == '\n' || c == '\r')

/-- Model of JavaScript `s.trim()`. -/
def jsTrim (s : List Char) : List Char :=
  ((s.dropWhile isJsWs).reverse.dropWhile isJsWs).reverse

/-- Does the regex fragment `\s*\(` match a prefix of the list? -/
def wsThenParen : List Char → Bool
  | [] => false
  | c :: cs => c == '(' || (isJsWs c && wsThenParen cs)

/-- Does the source's function-name regex `^(.*)\s*\(` match the list? At
each position the `.*` either stops (and `\s*\(` must match there) or
consumes one more non-terminator character. -/
def dotStarWsParen : List Char → Bool
  | [] => false
  | c :: cs => wsThenParen (c :: cs) || (isJsDot c && dotStarWsParen cs)

/-- Source `encodeFunctionCall`, step 1: trim the input and throw
`Invalid function signature` when the name regex does not match. Only the
parse outcome is modelled here (the parameter parsing itself is done in the
source by viem's `parseAbiParameters`). -/
def signatureNameCheck (input : List Char) : Except (List Char) Unit :=
  if dotStarWsParen (jsTrim input) then Except.ok ()
  else Except.error ("Invalid function signature".data)

/-- A JavaScript value as handled by `processValues` in `app/page.tsx`:
a string, a nested array, a bigint, or a boolean. -/
inductive JsValue where
  | strV (s : List Char)
  | arrV (vs : List JsValue)
  | intV (v : Int)
  | boolJ (b : Bool)

/-- Decimal digit? -/
def isDecDigitB (c : Char) : Bool :=
  48 ≤ c.toNat && c.toNat ≤ 57

/-- Hex digit including upper case (as accepted by JS `BigInt("0x...")`). -/
def isHexDigitAnyB (c : Char) : Bool :=
  isDecDigitB c || (97 ≤ c.toNat && c.toNat ≤ 102) || (65 ≤ c.toNat && c.toNat ≤ 70)

/-- Value of a hex digit, upper or lower case. -/
def hexValAny (c : Char) : Nat :=
  if c.toNat ≤ 57 then c.toNat - 48 else if c.toNat ≤ 70 then c.toNat - 55 else c.toNat - 87

/-- All-digit string value in a given base, `none` when empty or containing
a non-digit (one fully-consumed digit run, as JS `BigInt` requires). -/
def baseDigitsVal (isD : Char → Bool) (val : Char → Nat) (base : Nat) (cs : List Char) : Option Nat :=
  if cs ≠ [] ∧ cs.all isD then some (cs.foldl (fun a c => base * a + val c) 0) else none

/-- Model of JavaScript `BigInt(string)`: trimmed; empty means 0; an
optional sign is allowed for decimal; `0x`/`0X`, `0o`/`0O`, `0b`/`0B`
prefix a hex/octal/binary digit run; anything else throws (`none`). -/
def jsBigInt? (s : List Char) : Option Int :=
  match jsTrim s with
  | [] => some 0
  | '-' :: ds => (baseDigitsVal isDecDigitB (fun c => c.toNat - 48) 10 ds).map (fun n => -(n : Int))
  | '+' :: ds => (baseDigitsVal isDecDigitB (fun c => c.toNat - 48) 10 ds).map (fun n => (n : Int))
  | '0' :: 'x' :: ds => (baseDigitsVal isHexDigitAnyB hexValAny 16 ds).map (fun n => (n : Int))
  | '0' :: 'X' :: ds => (baseDigitsVal isHexDigitAnyB hexValAny 16 ds).map (fun n => (n : Int))
  | '0' :: 'o' :: ds => (baseDigitsVal (fun c => 48 ≤ c.toNat && c.toNat ≤ 55) (fun c => c.toNat - 48) 8 ds).map (fun n => (n : Int))
  | '0' :: 'O' :: ds => (baseDigitsVal (fun c => 48 ≤ c.toNat && c.toNat ≤ 55) (fun c => c.toNat - 48) 8 ds).map (fun n => (n : Int))
  | '0' :: 'b' :: ds => (baseDigitsVal (fun c => 48 ≤ c.toNat && c.toNat ≤ 49) (fun c => c.toNat - 48) 2 ds).map (fun n => (n : Int))
  | '0' :: 'B' :: ds => (baseDigitsVal (fun c => 48 ≤ c.toNat && c.toNat ≤ 49) (fun c => c.toNat - 48) 2 ds).map (fun n => (n : Int))
  | ds => (baseDigitsVal isDecDigitB (fun c => c.toNat - 48) 10 ds).map (fun n => (n : Int))

/-- Source `processValues` numeric-kind test: `type.includes('uint') ||
type.includes('int')`. -/
def typeIsNumericKind (ty : List Char) : Bool :=
  containsCl ty ("uint".data) || containsCl ty ("int".data)

/-- ASCII lower-casing (model of `toLowerCase` on the relevant inputs). -/
def lowerAscii (s : List Char) : List Char :=
  s.map (fun c => if 65 ≤ c.toNat ∧ c.toNat ≤ 90 then Char.ofNat (c.toNat + 32) else c)

/-- The JS coercion `(val as Value[]) || []` followed by `.map`: arrays map
normally, falsy values give the empty list, any other truthy value would
make `.map` throw (modelled as `none`). -/
def jsAsValueList : JsValue → Option (List JsValue)
  | .arrV a => some a
  | .strV [] => some []
  | .strV (_ :: _) => none
  | .intV v => if v = 0 then some [] else none
  | .boolJ b => if b then none else some []

/-- Source `processValues` (`app/page.tsx`): recursively processes values
against parameters, converting numeric-kind strings with `BigInt(val)` and
defaulting to `BigInt(0)` when that throws, converting `bool` strings by
lower-case comparison with `"true"`, and passing everything else through.
`none` models an uncaught JS exception (indexing past `params`, or calling
a string method on a non-string). The numeric branch coerces non-string
leaves the way JS `BigInt` does on the UI's possible inputs. -/
def processValuesF : Nat → List AbiParam → List JsValue → Option (List JsValue)
  | 0, _, _ => none
  | _ + 1, _, [] => some []
  | _ + 1, [], _ :: _ => none
  | fuel + 1, p :: ps, v :: vs => do
      let v' ←
        match p with
        | .mk _ _ (some cs) => do
            let a ← jsAsValueList v
            let r ← processValuesF fuel cs a
            pure (JsValue.arrV r)
        | .mk ty _ none =>
            if typeIsNumericKind ty then
              match v with
              | .strV s => some (JsValue.intV ((jsBigInt? s).getD 0))
              | .intV i => some (.intV i)
              | .boolJ b => some (.intV (cond b 1 0))
              | .arrV _ => some (.intV 0)
            else if ty == ("bool".data) then
              match v with
              | .strV s => some (.boolJ (lowerAscii s == ("true".data)))
              | _ => none
            else some v
      let rest ← processValuesF fuel ps vs
      pure (v' :: rest)

theorem wsThenParen_mem : ∀ {cs : List Char}, wsThenParen cs = true → '(' ∈ cs := by
  intro cs h
  induction cs with
  | nil => simp [wsThenParen] at h
  | cons c rest ih =>
      rw [wsThenParen, Bool.or_eq_true] at h
      rcases h with h | h
      · have : c = '(' := by simpa using h
        simp [this]
      · rw [Bool.and_eq_true] at h
        exact List.mem_cons_of_mem _ (ih h.2)

theorem dotStarWsParen_mem : ∀ {cs : List Char}, dotStarWsParen cs = true → '(' ∈ cs := by
  intro cs h
  induction cs with
  | nil => simp [dotStarWsParen] at h
  | cons c rest ih =>
      rw [dotStarWsParen, Bool.or_eq_true] at h
      rcases h with h | h
      · exact wsThenParen_mem h
      · rw [Bool.and_eq_true] at h
        exact List.mem_cons_of_mem _ (ih h.2)

theorem jsTrim_mem {s : List Char} {c : Char} (h : c ∈ jsTrim s) : c ∈ s := by
  unfold jsTrim at h
  rw [List.mem_reverse] at h
  have h1 := (List.dropWhile_sublist (l := (s.dropWhile isJsWs).reverse) (p := isJsWs)).mem h
  rw [List.mem_reverse] at h1
  exact (List.dropWhile_sublist (l := s) (p := isJsWs)).mem h1

/-- C9: for every input string containing no opening parenthesis, the
signature-name regex of `encodeFunctionCall` fails to match and the function
throws `Invalid function signature` instead of returning a result. -/
theorem c9_no_paren_malformed (s : List Char) (h : '(' ∉ s) :
    signatureNameCheck s = Except.error ("Invalid function signature".data) := by
  unfold signatureNameCheck
  rw [if_neg]
  intro hmatch
  exact h (jsTrim_mem (dotStarWsParen_mem hmatch))

/-- Witness for C9 at the concrete paren-free input `transfer`. -/
theorem c9_no_paren_malformed_witness :
    '(' ∉ ("transfer".data) ∧
      signatureNameCheck ("transfer".data) =
        Except.error ("Invalid function signature".data) :=
  ⟨by decide, c9_no_paren_malformed _ (by decide)⟩

theorem headPassF_length : ∀ {fuel : Nat} {params : List AbiParam} {hex : List Char}
    {cursor i : Nat} {parts : List CalldataPart},
    headPassF fuel params hex cursor i = some parts → parts.length = params.length := by
  intro fuel
  induction fuel with
  | zero => intro _ _ _ _ _ h; exact absurd h (by simp [headPassF])
  | succ fuel ih =>
      intro params hex cursor i parts h
      cases params with
      | nil =>
          rw [headPassF] at h
          cases h
          rfl
      | cons p ps =>
          obtain ⟨t, nm, comps⟩ := p
          simp only [headPassF] at h
          split at h
          · cases hrest : headPassF fuel ps hex (cursor + 64) (i + 1) with
            | none => rw [hrest] at h; cases h
            | some rest =>
                rw [hrest] at h
                cases h
                simp [ih hrest]
          · cases comps with
            | none =>
                simp only at h
                cases hrest : headPassF fuel ps hex (cursor + 64) (i + 1) with
                | none => rw [hrest] at h; cases h
                | some rest =>
                    rw [hrest] at h
                    cases h
                    simp [ih hrest]
            | some cs =>
                simp only at h
                split at h
                · cases hb : buildFlatBreakdownF fuel cs
                      (jsSubstring hex cursor (cursor + cs.length * 64)) with
                  | none => rw [hb] at h; cases h
                  | some nested =>
                      rw [hb] at h
                      cases hrest : headPassF fuel ps hex (cursor + cs.length * 64) (i + 1) with
                      | none => rw [hrest] at h; cases h
                      | some rest =>
                          rw [hrest] at h
                          cases h
                          simp [ih hrest]
                · cases hrest : headPassF fuel ps hex (cursor + 64) (i + 1) with
                  | none => rw [hrest] at h; cases h
                  | some rest =>
                      rw [hrest] at h
                      cases h
                      simp [ih hrest]

theorem collectDynItems_length : ∀ (params : List AbiParam) (hex : List Char) (cursor i : Nat),
    (collectDynItems params hex cursor i).length = params.countP (fun p => isDynamicP p) := by
  intro params
  induction params with
  | nil => intro hex cursor i; rfl
  | cons p ps ih =>
      intro hex cursor i
      rw [collectDynItems]
      by_cases hd : isDynamicP p
      · simp [hd, ih, List.countP_cons]
      · simp [hd, ih, List.countP_cons]

theorem insertByOffset_length (x : DynItem) :
    ∀ l : List DynItem, (insertByOffset x l).length = l.length + 1 := by
  intro l
  induction l with
  | nil => rfl
  | cons y ys ih =>
      rw [insertByOffset]
      by_cases hc : y.offset < x.offset
      · simp [hc, ih]
      · simp [hc]

theorem sortByOffset_length : ∀ l : List DynItem, (sortByOffset l).length = l.length := by
  intro l
  induction l with
  | nil => rfl
  | cons x xs ih => rw [sortByOffset, insertByOffset_length, ih]; rfl

theorem windowBounds_length : ∀ (l : List DynItem) (e : Nat), (windowBounds l e).length = l.length := by
  intro l
  induction l with
  | nil => intro e; rfl
  | cons it rest ih =>
      intro e
      cases rest with
      | nil => rfl
      | cons it2 r2 =>
          rw [windowBounds]
          simp [ih]

theorem tailPassF_length : ∀ {fuel : Nat} {bounds : List (DynItem × Nat × Nat)}
    {hex : List Char} {parts : List CalldataPart},
    tailPassF fuel bounds hex = some parts → parts.length = bounds.length := by
  intro fuel
  induction fuel with
  | zero => intro _ _ _ h; exact absurd h (by simp [tailPassF])
  | succ fuel ih =>
      intro bounds hex parts h
      cases bounds with
      | nil =>
          rw [tailPassF] at h
          cases h
          rfl
      | cons w rest =>
          obtain ⟨it, s, e⟩ := w
          simp only [tailPassF] at h
          cases hc : parseDynamicDataF fuel it.param (jsSubstring hex s e) with
          | none => rw [hc] at h; cases h
          | some comps =>
              rw [hc] at h
              cases hrest : tailPassF fuel rest hex with
              | none => rw [hrest] at h; cases h
              | some restParts =>
                  rw [hrest] at h
                  cases h
                  simp [ih hrest]

/-- C10: at every recursion level, `buildFlatBreakdown` emits exactly one
head part per parameter (a static tuple yields a single head part holding
its fields as child components) and exactly one tail part per dynamic
parameter: `headParts.length` equals the parameter count and
`tailParts.length` equals the number of dynamic parameters at that level. -/
theorem c10_one_part_per_param (fuel : Nat) (params : List AbiParam) (hex : List Char)
    (r : List CalldataPart × List CalldataPart)
    (h : buildFlatBreakdownF fuel params hex = some r) :
    r.1.length = params.length ∧
      r.2.length = params.countP (fun p => isDynamicP p) := by
  cases fuel with
  | zero => exact absurd h (by simp [buildFlatBreakdownF])
  | succ fuel =>
      simp only [buildFlatBreakdownF] at h
      cases hh : headPassF fuel params hex 0 0 with
      | none => rw [hh] at h; cases h
      | some headParts =>
          rw [hh] at h
          cases ht : tailPassF fuel
              (windowBounds (sortByOffset (collectDynItems params hex 0 0)) hex.length) hex with
          | none => rw [ht] at h; cases h
          | some tailParts =>
              rw [ht] at h
              cases h
              refine ⟨headPassF_length hh, ?_⟩
              rw [tailPassF_length ht, windowBounds_length, sortByOffset_length,
                collectDynItems_length]

/-- Witness for C10: one static and one dynamic parameter over a 2-word
byte-window give 2 head parts and 1 tail part. -/
theorem c10_one_part_per_param_witness :
    (buildFlatBreakdownF 6 [AbiParam.mk ("uint256".data) none none,
        AbiParam.mk ("string".data) none none] (List.replicate 128 '0')).map
      (fun r => (r.1.length, r.2.length)) = some (2, 1) := by
  cases hr : buildFlatBreakdownF 6 [AbiParam.mk ("uint256".data) none none,
      AbiParam.mk ("string".data) none none] (List.replicate 128 '0') with
  | none =>
      have hs : (buildFlatBreakdownF 6 [AbiParam.mk ("uint256".data) none none,
          AbiParam.mk ("string".data) none none] (List.replicate 128 '0')).isSome = true := by rfl
      rw [hr] at hs
      cases hs
  | some r =>
      have hc := c10_one_part_per_param 6 _ _ r hr
      simp only [Option.map_some']
      rw [hc.1, hc.2]
      rfl

mutual
theorem canonicalOfParam_erase : ∀ p : AbiParam,
    canonicalOfParam (eraseName p) = canonicalOfParam p
  | .mk t nm c => by
      cases c with
      | none => rfl
      | some cs =>
          simp only [eraseName, canonicalOfParam]
          rw [canonicalOfParams_erase cs]

theorem canonicalOfParams_erase : ∀ ps : List AbiParam,
    canonicalOfParams (eraseNames ps) = canonicalOfParams ps
  | [] => rfl
  | [p] => by
      simp only [eraseNames, canonicalOfParams]
      rw [canonicalOfParam_erase p]
  | p :: p2 :: ps => by
      have h2 := canonicalOfParams_erase (p2 :: ps)
      simp only [eraseNames, canonicalOfParams] at h2 ⊢
      rw [canonicalOfParam_erase p, h2]
end

/-- C2: the canonical signature reads only the type structure, never the
argument names, so two inputs parsing to the same function name and
name-erasure-equal parameter lists get the same canonical signature and the
same selector for any fixed hash; equal canonical signatures trivially give
equal selectors, and the selector is 8 hex digits whenever the digest has at
least 4 bytes. -/
theorem c2_selector_name_independent (hash : List Char → List Nat) (funcName : List Char)
    (ps₁ ps₂ : List AbiParam) (h : eraseNames ps₁ = eraseNames ps₂) :
    canonicalSignature funcName ps₁ = canonicalSignature funcName ps₂ ∧
      selectorOf hash (canonicalSignature funcName ps₁) =
        selectorOf hash (canonicalSignature funcName ps₂) ∧
      (4 ≤ (hash (canonicalSignature funcName ps₁)).length →
        (selectorOf hash (canonicalSignature funcName ps₁)).length = 8) := by
  have hc : canonicalOfParams ps₁ = canonicalOfParams ps₂ := by
    rw [← canonicalOfParams_erase ps₁, ← canonicalOfParams_erase ps₂, h]
  have hsig : canonicalSignature funcName ps₁ = canonicalSignature funcName ps₂ := by
    unfold canonicalSignature
    rw [hc]
  refine ⟨hsig, by rw [hsig], ?_⟩
  intro hlen
  unfold selectorOf
  rw [bytesToHex_length, List.length_take]
  omega

/-- Witness for C2: `uint256 from` versus `uint256 dst` give the same
selector under a concrete digest function. -/
theorem c2_selector_name_independent_witness :
    selectorOf (fun _ => [17, 34, 51, 68, 85])
        (canonicalSignature ("transfer".data)
          [AbiParam.mk ("uint256".data) (some ("from".data)) none]) =
      selectorOf (fun _ => [17, 34, 51, 68, 85])
        (canonicalSignature ("transfer".data)
          [AbiParam.mk ("uint256".data) (some ("dst".data)) none]) :=
  (c2_selector_name_independent (fun _ => [17, 34, 51, 68, 85]) ("transfer".data)
    [AbiParam.mk ("uint256".data) (some ("from".data)) none]
    [AbiParam.mk ("uint256".data) (some ("dst".data)) none] (by rfl)).2.1

/-- Counterexample to C7 as stated: supplying the non-numeric literal `abc`
for a `uint256` parameter does not fail with any `InvalidScalar` error — the
caller's `processValues` silently coerces it to `BigInt(0)` (its `catch`
branch) and the encoder then produces the 32-byte zero word, exactly the
silent coercion the claim rules out. -/
theorem c7_counterexample :
    jsBigInt? ("abc".data) = none ∧
      processValuesF 3 [AbiParam.mk ("uint256".data) none none] [JsValue.strV ("abc".data)]
        = some [JsValue.intV 0] ∧
      encodeParamsF 3 [(TypeNode.uintT 256, ValueNode.numV 0)] = some (List.replicate 64 '0') :=
  ⟨by decide, by rfl, by decide⟩

/-- C7 corrected: for every numeric-kind parameter supplied with a
non-numeric literal, the pipeline does not fail: `processValues` coerces the
value to `BigInt(0)` before the encoder runs, and the encoder happily
produces a byte string (the zero word) for the coerced zero. -/
theorem c7_nonnumeric_coerces_to_zero (fuel : Nat) (ty : List Char) (nm : Option (List Char))
    (s : List Char) (hty : typeIsNumericKind ty = true) (hs : jsBigInt? s = none) :
    processValuesF (fuel + 2) [AbiParam.mk ty nm none] [JsValue.strV s]
        = some [JsValue.intV 0] ∧
      encodeParamsF 3 [(TypeNode.uintT 256, ValueNode.numV 0)] = some (List.replicate 64 '0') := by
  constructor
  · simp [processValuesF, hty, hs]
  · decide

/-- Witness for C7's corrected claim at `uint256` and literal `abc`. -/
theorem c7_nonnumeric_coerces_to_zero_witness :
    typeIsNumericKind ("uint256".data) = true ∧ jsBigInt? ("abc".data) = none ∧
      processValuesF 2 [AbiParam.mk ("uint256".data) none none] [JsValue.strV ("abc".data)]
        = some [JsValue.intV 0] :=
  ⟨by decide, by decide,
   (c7_nonnumeric_coerces_to_zero 0 ("uint256".data) none ("abc".data)
     (by decide) (by decide)).1⟩

/-- Modelled from the spec's words (§4.4 step 4, Array case), for comparison
with the source's `parseDynamicData`: read the element count from the first
word; if the element type is dynamic, recursively run the whole head/tail
procedure on `(repeat(elementType, count), remaining window)`; if static,
read `count` consecutive words (or `count × field-count` words for a
static-Record element) directly, one part per element. -/
def parseArraySpecF (fuel : Nat) (p : AbiParam) (dataHex : List Char) :
    Option (List CalldataPart) :=
  let elemTy := p.ty.take (p.ty.length - 2)
  let elemParam := AbiParam.mk elemTy none p.components
  let count := parseIntHex (jsSubstring dataHex 0 64)
  let lengthPart := CalldataPart.mk ("length".data) ("uint256".data)
    (jsSubstring dataHex 0 64) (some (decRepr count)) none
  let rest := dataHex.drop 64
  if isDynamicP elemParam then do
    let nested ← buildFlatBreakdownF fuel (List.replicate count elemParam) rest
    pure (lengthPart :: (nested.1 ++ nested.2))
  else
    let fieldMul :=
      match elemParam with
      | .mk t _ (some cs) => if t == ("tuple".data) then cs.length else 1
      | .mk _ _ none => 1
    some (lengthPart :: (List.range count).map (fun i =>
      CalldataPart.mk ('[' :: (decRepr i ++ [']'])) elemTy
        (jsSubstring rest (64 * fieldMul * i) (64 * fieldMul * (i + 1))) none none))

/-- The encoded tail window of a `string[]` holding `["hi"]`: count word,
one offset word, then the element's length word and padded data. -/
def c3Window : List Char :=
  (encodeTailF 10 (TypeNode.arrayT TypeNode.textT)
    (ValueNode.listV [ValueNode.bytesV [104, 105]])).getD []

/-- Counterexample to C3 as stated: on the window of a `string[]` element
the source's `parseDynamicData` emits 2 parts (the length word plus one raw
32-byte word per element — here the element's offset word), whereas the
claimed recursive head/tail run on `(repeat(string, 1), remaining window)`
emits 3 (length, offset head part, tail part). The decomposer never recurses
for dynamic element types. -/
theorem c3_counterexample :
    (parseDynamicDataF 10 (AbiParam.mk ("string[]".data) none none) c3Window).map
        List.length = some 2 ∧
      (parseArraySpecF 10 (AbiParam.mk ("string[]".data) none none) c3Window).map
        List.length = some 3 :=
  ⟨by rfl, by rfl⟩

/-- C3 corrected: in the decomposer's tail parsing of every array-typed
item, the element count is read from the first 32-byte word of the window,
and then exactly `count` consecutive 32-byte words of the remaining window
are read directly as the element parts — one single word per element
regardless of whether the element type is dynamic or a multi-word static
record; no recursive head/tail decomposition is performed. -/
theorem c3_array_reads_flat_words (fuel : Nat) (p : AbiParam) (dataHex : List Char)
    (parts : List CalldataPart)
    (harr : endsWithCl p.ty ("[]".data) = true)
    (h : parseDynamicDataF (fuel + 1) p dataHex = some parts) :
    parts.length = parseIntHex (jsSubstring dataHex 0 64) + 1 ∧
      parts[0]? = some (CalldataPart.mk ("length".data) ("uint256".data)
        (jsSubstring dataHex 0 64)
        (some (decRepr (parseIntHex (jsSubstring dataHex 0 64)))) none) ∧
      ∀ i : Nat, i < parseIntHex (jsSubstring dataHex 0 64) →
        parts[i + 1]? = some (CalldataPart.mk ('[' :: (decRepr i ++ [']']))
          (p.ty.take (p.ty.length - 2))
          (padTo32Bytes (jsSubstring (dataHex.drop 64) (64 * i) (64 * i + 64))
            (p.ty.take (p.ty.length - 2))) none none) := by
  simp only [parseDynamicDataF, harr, if_true] at h
  cases h
  refine ⟨by simp, by simp, ?_⟩
  intro i hi
  simp only [List.getElem?_cons_succ, List.getElem?_map, List.getElem?_range hi,
    Option.map_some']

/-- Witness for C3's corrected claim on a concrete `uint256[]` window
holding `[7]`. -/
theorem c3_array_reads_flat_words_witness :
    (parseDynamicDataF 10 (AbiParam.mk ("uint256[]".data) none none)
        (natToHex 1 64 ++ natToHex 7 64)).map List.length = some 2 := by
  cases hr : parseDynamicDataF 10 (AbiParam.mk ("uint256[]".data) none none)
      (natToHex 1 64 ++ natToHex 7 64) with
  | none =>
      have hs : (parseDynamicDataF 10 (AbiParam.mk ("uint256[]".data) none none)
          (natToHex 1 64 ++ natToHex 7 64)).isSome = true := by rfl
      rw [hr] at hs
      cases hs
  | some parts =>
      have hc := c3_array_reads_flat_words 9 _ _ parts (by decide) hr
      simp only [Option.map_some']
      rw [hc.1]
      rfl

/-- Number of bytes needed for a natural number (0 for 0), fueled. -/
def byteLenAux : Nat → Nat → Nat
  | 0, _ => 0
  | f + 1, v => if v = 0 then 0 else byteLenAux f (v / 256) + 1

/-- Number of bytes in the minimal big-endian representation of `v`. -/
def byteLen (v : Nat) : Nat := byteLenAux (v + 1) v

theorem byteLenAux_lt : ∀ (f v : Nat), v ≤ f → v < 256 ^ byteLenAux f v := by
  intro f
  induction f with
  | zero =>
      intro v hv
      interval_cases v
      simp [byteLenAux]
  | succ f ih =>
      intro v hv
      rw [byteLenAux]
      by_cases h0 : v = 0
      · simp [h0]
      · rw [if_neg h0]
        have hdiv : v / 256 ≤ f := by
          have : v / 256 < v := Nat.div_lt_self (Nat.pos_of_ne_zero h0) (by norm_num)
          omega
        have := ih (v / 256) hdiv
        rw [pow_succ]
        have h256 : v < 256 * (v / 256) + 256 := by
          have h1 := Nat.div_add_mod v 256
          have h2 := Nat.mod_lt v (show 0 < 256 by norm_num)
          omega
        calc v < 256 * (v / 256) + 256 := h256
          _ ≤ 256 ^ byteLenAux f (v / 256) * 256 := by
              have : v / 256 + 1 ≤ 256 ^ byteLenAux f (v / 256) := this
              nlinarith
          _ = _ := rfl

theorem byteLen_lt (v : Nat) : v < 256 ^ byteLen v :=
  byteLenAux_lt (v + 1) v (by omega)

theorem byteLenAux_le : ∀ (f v k : Nat), v ≤ f → v < 256 ^ k → byteLenAux f v ≤ k := by
  intro f
  induction f with
  | zero => intro v k _ _; simp [byteLenAux]
  | succ f ih =>
      intro v k hv hk
      rw [byteLenAux]
      by_cases h0 : v = 0
      · simp [h0]
      · rw [if_neg h0]
        cases k with
        | zero =>
            simp only [pow_zero, Nat.lt_one_iff] at hk
            exact absurd hk h0
        | succ k =>
            have hdiv : v / 256 ≤ f := by
              have : v / 256 < v := Nat.div_lt_self (Nat.pos_of_ne_zero h0) (by norm_num)
              omega
            have hdk : v / 256 < 256 ^ k := by
              rw [pow_succ'] at hk
              exact Nat.div_lt_of_lt_mul hk
            have := ih (v / 256) k hdiv hdk
            omega

theorem byteLen_le {v k : Nat} (h : v < 256 ^ k) : byteLen v ≤ k :=
  byteLenAux_le (v + 1) v k (by omega) h

/-- The zero-left-padded word of a value of at most 32 bytes. -/
theorem natToHex64_zero_pad {v : Nat} (h : v < 2 ^ 256) :
    natToHex v 64 = List.replicate (64 - 2 * byteLen v) '0' ++ natToHex v (2 * byteLen v) := by
  have hbl : byteLen v ≤ 32 := byteLen_le (by calc v < 2 ^ 256 := h
                                                _ = 256 ^ 32 := by norm_num)
  refine natToHex_pad (by omega) ?_
  calc v < 256 ^ byteLen v := byteLen_lt v
    _ = 16 ^ (2 * byteLen v) := by rw [pow_mul]; norm_num

/-- Counterexample to C6 as stated: the claim's zero-left-padding covers
"every … signed integer … value", but the signed value −1 (one value byte)
encodes as 32 `0xff` bytes — its word begins with `ff`, not the `00` the
claim's padding rule would put there (two's-complement sign extension, not
zero padding). -/
theorem c6_counterexample :
    (scalarWord (TypeNode.intT 8) (ValueNode.numV (-1))).map (List.take 2)
        = some ['f', 'f'] ∧ (['f', 'f'] : List Char) ≠ ['0', '0'] :=
  ⟨by decide, by decide⟩

/-- C6 corrected: head words of unsigned integers, booleans, addresses and
non-negative signed values are zero-left-padded to 32 bytes (value
right-aligned at byte granularity); negative signed values are
two's-complement encoded over 256 bits (so `int8 −1` is 32 `0xff` bytes);
`FixedBytes(n)` words are zero-right-padded (value left-aligned); `uint8`
value 1 gives 31 zero bytes then `01`, and `bytes4 0xAABBCCDD` gives
`aabbccdd` then 28 zero bytes. The source's own `padTo32Bytes` pads the same
directions: left for `uint*`/`int*`/`address`, right for `bytes*` not
ending in `]`. -/
theorem scalarWord_uint8_one :
    scalarWord (TypeNode.uintT 8) (ValueNode.numV 1)
      = some (List.replicate 62 '0' ++ ['0', '1']) := by decide

theorem scalarWord_bytes4_concrete :
    scalarWord (TypeNode.fixedBytesT 4) (ValueNode.bytesV [170, 187, 204, 221])
      = some (("aabbccdd".data) ++ List.replicate 56 '0') := by decide

theorem scalarWord_int8_neg_one :
    scalarWord (TypeNode.intT 8) (ValueNode.numV (-1)) = some (List.replicate 64 'f') := by
  decide

theorem scalarWord_uint_pad (bits : Nat) (v : Int) (w : List Char)
    (h : scalarWord (TypeNode.uintT bits) (ValueNode.numV v) = some w) :
    w = List.replicate (64 - 2 * byteLen v.toNat) '0'
      ++ natToHex v.toNat (2 * byteLen v.toNat) := by
  simp only [scalarWord] at h
  by_cases hc : validBits bits ∧ 0 ≤ v ∧ v < ((2 ^ bits : Nat) : Int)
  · rw [if_pos hc] at h
    obtain ⟨hb, hv0, hvlt⟩ := hc
    have hw : natToHex v.toNat 64 = w := Option.some.inj h
    subst hw
    refine natToHex64_zero_pad ?_
    have hb' : bits ≤ 256 := by
      simp only [validBits, Bool.and_eq_true, decide_eq_true_eq, beq_iff_eq] at hb
      exact_mod_cast hb.2
    have hlt : v < ((2 ^ 256 : Nat) : Int) := by
      calc v < ((2 ^ bits : Nat) : Int) := hvlt
        _ ≤ ((2 ^ 256 : Nat) : Int) := by
            exact_mod_cast Nat.pow_le_pow_right (by norm_num) hb'
    omega
  · rw [if_neg hc] at h
    cases h

theorem scalarWord_int_nonneg_pad (bits : Nat) (v : Int) (w : List Char) (hv0 : 0 ≤ v)
    (h : scalarWord (TypeNode.intT bits) (ValueNode.numV v) = some w) :
    w = List.replicate (64 - 2 * byteLen v.toNat) '0'
      ++ natToHex v.toNat (2 * byteLen v.toNat) := by
  simp only [scalarWord] at h
  by_cases hc : validBits bits ∧ -(((2 ^ (bits - 1) : Nat) : Int)) ≤ v
      ∧ v < ((2 ^ (bits - 1) : Nat) : Int)
  · rw [if_pos hc] at h
    obtain ⟨hb, hlo, hhi⟩ := hc
    have hw : natToHex ((v % ((2 ^ 256 : Nat) : Int)).toNat) 64 = w := Option.some.inj h
    subst hw
    have hb' : bits - 1 ≤ 255 := by
      simp only [validBits, Bool.and_eq_true, decide_eq_true_eq, beq_iff_eq] at hb
      omega
    have hlt : v < ((2 ^ 256 : Nat) : Int) := by
      calc v < ((2 ^ (bits - 1) : Nat) : Int) := hhi
        _ ≤ ((2 ^ 256 : Nat) : Int) := by
            exact_mod_cast Nat.pow_le_pow_right (by norm_num) (by omega)
    have hmod : v % ((2 ^ 256 : Nat) : Int) = v := Int.emod_eq_of_lt hv0 hlt
    rw [hmod]
    refine natToHex64_zero_pad ?_
    omega
  · rw [if_neg hc] at h
    cases h

theorem scalarWord_address_pad (v : Int) (w : List Char)
    (h : scalarWord TypeNode.addressT (ValueNode.numV v) = some w) :
    w = List.replicate (64 - 2 * byteLen v.toNat) '0'
      ++ natToHex v.toNat (2 * byteLen v.toNat) := by
  simp only [scalarWord] at h
  by_cases hc : 0 ≤ v ∧ v < ((2 ^ 160 : Nat) : Int)
  · rw [if_pos hc] at h
    have hw : natToHex v.toNat 64 = w := Option.some.inj h
    subst hw
    refine natToHex64_zero_pad ?_
    have hlt : v < ((2 ^ 160 : Nat) : Int) := hc.2
    have h2 : (2 ^ 160 : Nat) ≤ 2 ^ 256 := Nat.pow_le_pow_right (by norm_num) (by norm_num)
    omega
  · rw [if_neg hc] at h
    cases h

theorem scalarWord_bool_pad (b : Bool) (w : List Char)
    (h : scalarWord TypeNode.boolT (ValueNode.boolV b) = some w) :
    w = List.replicate 62 '0' ++ natToHex (cond b 1 0) 2 := by
  simp only [scalarWord] at h
  have hw : natToHex (cond b 1 0) 64 = w := Option.some.inj h
  subst hw
  cases b
  · decide
  · decide

theorem scalarWord_fixedBytes_pad (n : Nat) (bs : List Nat) (w : List Char)
    (h : scalarWord (TypeNode.fixedBytesT n) (ValueNode.bytesV bs) = some w) :
    w = bytesToHex bs ++ List.replicate (64 - 2 * n) '0' := by
  simp only [scalarWord] at h
  by_cases hc : 1 ≤ n ∧ n ≤ 32 ∧ bs.length = n ∧ bs.all (fun b => decide (b < 256))
  · rw [if_pos hc] at h
    exact (Option.some.inj h).symm
  · rw [if_neg hc] at h
    cases h

theorem c6_padding_directions :
    (∀ (bits : Nat) (v : Int) (w : List Char),
      scalarWord (TypeNode.uintT bits) (ValueNode.numV v) = some w →
      w = List.replicate (64 - 2 * byteLen v.toNat) '0' ++ natToHex v.toNat (2 * byteLen v.toNat)) ∧
    (∀ (bits : Nat) (v : Int) (w : List Char), 0 ≤ v →
      scalarWord (TypeNode.intT bits) (ValueNode.numV v) = some w →
      w = List.replicate (64 - 2 * byteLen v.toNat) '0' ++ natToHex v.toNat (2 * byteLen v.toNat)) ∧
    (∀ (b : Bool) (w : List Char), scalarWord TypeNode.boolT (ValueNode.boolV b) = some w →
      w = List.replicate 62 '0' ++ natToHex (cond b 1 0) 2) ∧
    (∀ (v : Int) (w : List Char), scalarWord TypeNode.addressT (ValueNode.numV v) = some w →
      w = List.replicate (64 - 2 * byteLen v.toNat) '0' ++ natToHex v.toNat (2 * byteLen v.toNat)) ∧
    (∀ (n : Nat) (bs : List Nat) (w : List Char),
      scalarWord (TypeNode.fixedBytesT n) (ValueNode.bytesV bs) = some w →
      w = bytesToHex bs ++ List.replicate (64 - 2 * n) '0') ∧
    scalarWord (TypeNode.uintT 8) (ValueNode.numV 1)
      = some (List.replicate 62 '0' ++ ['0', '1']) ∧
    scalarWord (TypeNode.fixedBytesT 4) (ValueNode.bytesV [170, 187, 204, 221])
      = some (("aabbccdd".data) ++ List.replicate 56 '0') ∧
    scalarWord (TypeNode.intT 8) (ValueNode.numV (-1)) = some (List.replicate 64 'f') ∧
    (∀ (h ty : List Char),
      (startsWithCl ty ("uint".data) || startsWithCl ty ("int".data)
        || ty == ("address".data)) = true →
      padTo32Bytes h ty = List.replicate (64 - h.length) '0' ++ h) ∧
    (∀ (h ty : List Char),
      (startsWithCl ty ("uint".data) || startsWithCl ty ("int".data)
        || ty == ("address".data)) = false →
      (startsWithCl ty ("bytes".data) && !endsWithCl ty ("]".data)) = true →
      padTo32Bytes h ty = h ++ List.replicate (64 - h.length) '0') := by
  refine ⟨scalarWord_uint_pad, fun bits v w hv0 h => scalarWord_int_nonneg_pad bits v w hv0 h,
    scalarWord_bool_pad, scalarWord_address_pad, scalarWord_fixedBytes_pad,
    scalarWord_uint8_one, scalarWord_bytes4_concrete, scalarWord_int8_neg_one, ?_, ?_⟩
  · intro h ty hcond
    unfold padTo32Bytes
    rw [if_pos hcond]
    rfl
  · intro h ty hc1 hc2
    unfold padTo32Bytes
    rw [if_neg (by simp [hc1]), if_pos hc2]
    rfl

/-- Witness for C6 at `uint8` value 1. -/
theorem c6_padding_directions_witness :
    natToHex 1 64 = List.replicate (64 - 2 * byteLen 1) '0' ++ natToHex 1 (2 * byteLen 1) :=
  c6_padding_directions.1 8 1 (natToHex 1 64) (by decide)

theorem insertByOffset_perm (x : DynItem) (l : List DynItem) :
    (insertByOffset x l).Perm (x :: l) := by
  induction l with
  | nil => exact List.Perm.refl _
  | cons y ys ih =>
      rw [insertByOffset]
      by_cases hc : y.offset < x.offset
      · rw [if_pos hc]
        exact (ih.cons y).trans (List.Perm.swap x y ys)
      · rw [if_neg hc]

theorem sortByOffset_perm (l : List DynItem) : (sortByOffset l).Perm l := by
  induction l with
  | nil => exact List.Perm.refl _
  | cons x xs ih =>
      rw [sortByOffset]
      exact (insertByOffset_perm x (sortByOffset xs)).trans (ih.cons x)

theorem mem_insertByOffset {a x : DynItem} {l : List DynItem} :
    a ∈ insertByOffset x l ↔ a = x ∨ a ∈ l := by
  induction l with
  | nil => simp [insertByOffset]
  | cons y ys ih =>
      rw [insertByOffset]
      by_cases hc : y.offset < x.offset
      · rw [if_pos hc]
        simp only [List.mem_cons, ih]
        tauto
      · rw [if_neg hc]
        simp only [List.mem_cons]

theorem insertByOffset_pairwise {x : DynItem} {l : List DynItem}
    (hl : l.Pairwise (fun a b => a.offset ≤ b.offset)) :
    (insertByOffset x l).Pairwise (fun a b => a.offset ≤ b.offset) := by
  induction l with
  | nil => simp [insertByOffset]
  | cons y ys ih =>
      rw [List.pairwise_cons] at hl
      rw [insertByOffset]
      by_cases hc : y.offset < x.offset
      · rw [if_pos hc]
        rw [List.pairwise_cons]
        refine ⟨?_, ih hl.2⟩
        intro a ha
        rcases mem_insertByOffset.mp ha with rfl | ha
        · omega
        · exact hl.1 a ha
      · rw [if_neg hc]
        rw [List.pairwise_cons]
        refine ⟨?_, List.pairwise_cons.mpr hl⟩
        intro a ha
        rcases List.mem_cons.mp ha with rfl | ha
        · omega
        · have := hl.1 a ha
          omega

theorem sortByOffset_pairwise (l : List DynItem) :
    (sortByOffset l).Pairwise (fun a b => a.offset ≤ b.offset) := by
  induction l with
  | nil => simp [sortByOffset]
  | cons x xs ih =>
      rw [sortByOffset]
      exact insertByOffset_pairwise ih

/-- Insertion into an ascending list of naturals (the key view of
`insertByOffset`). -/
def insertNat (x : Nat) : List Nat → List Nat
  | [] => [x]
  | y :: ys => if y < x then y :: insertNat x ys else x :: y :: ys

/-- Insertion sort of naturals (the key view of `sortByOffset`). -/
def sortNatList : List Nat → List Nat
  | [] => []
  | x :: xs => insertNat x (sortNatList xs)

theorem map_offset_insertByOffset (x : DynItem) (l : List DynItem) :
    (insertByOffset x l).map DynItem.offset = insertNat x.offset (l.map DynItem.offset) := by
  induction l with
  | nil => rfl
  | cons y ys ih =>
      simp only [List.map_cons]
      rw [insertByOffset, insertNat]
      by_cases hc : y.offset < x.offset
      · rw [if_pos hc, if_pos hc]
        simp [ih]
      · rw [if_neg hc, if_neg hc]
        simp

theorem map_offset_sortByOffset (l : List DynItem) :
    (sortByOffset l).map DynItem.offset = sortNatList (l.map DynItem.offset) := by
  induction l with
  | nil => rfl
  | cons x xs ih =>
      simp only [List.map_cons]
      rw [sortByOffset, sortNatList, map_offset_insertByOffset, ih]

theorem insertNat_perm (x : Nat) (l : List Nat) : (insertNat x l).Perm (x :: l) := by
  induction l with
  | nil => exact List.Perm.refl _
  | cons y ys ih =>
      rw [insertNat]
      by_cases hc : y < x
      · rw [if_pos hc]
        exact (ih.cons y).trans (List.Perm.swap x y ys)
      · rw [if_neg hc]

theorem sortNatList_perm (l : List Nat) : (sortNatList l).Perm l := by
  induction l with
  | nil => exact List.Perm.refl _
  | cons x xs ih =>
      rw [sortNatList]
      exact (insertNat_perm x (sortNatList xs)).trans (ih.cons x)

theorem mem_insertNat {a x : Nat} {l : List Nat} :
    a ∈ insertNat x l ↔ a = x ∨ a ∈ l := by
  induction l with
  | nil => simp [insertNat]
  | cons y ys ih =>
      rw [insertNat]
      by_cases hc : y < x
      · rw [if_pos hc]
        simp only [List.mem_cons, ih]
        tauto
      · rw [if_neg hc]
        simp only [List.mem_cons]

theorem insertNat_pairwise {x : Nat} {l : List Nat} (hl : l.Pairwise (· ≤ ·)) :
    (insertNat x l).Pairwise (· ≤ ·) := by
  induction l with
  | nil => simp [insertNat]
  | cons y ys ih =>
      rw [List.pairwise_cons] at hl
      rw [insertNat]
      by_cases hc : y < x
      · rw [if_pos hc]
        rw [List.pairwise_cons]
        refine ⟨?_, ih hl.2⟩
        intro a ha
        rcases mem_insertNat.mp ha with rfl | ha
        · omega
        · exact hl.1 a ha
      · rw [if_neg hc]
        rw [List.pairwise_cons]
        refine ⟨?_, List.pairwise_cons.mpr hl⟩
        intro a ha
        rcases List.mem_cons.mp ha with rfl | ha
        · omega
        · have := hl.1 a ha
          omega

theorem sortNatList_pairwise (l : List Nat) : (sortNatList l).Pairwise (· ≤ ·) := by
  induction l with
  | nil => simp [sortNatList]
  | cons x xs ih =>
      rw [sortNatList]
      exact insertNat_pairwise ih

/-- Two permutation-equal key lists sort to the same list: the window layout
only depends on the multiset of offsets. -/
theorem sortNatList_eq_of_perm {l₁ l₂ : List Nat} (h : l₁.Perm l₂) :
    sortNatList l₁ = sortNatList l₂ := by
  refine List.eq_of_perm_of_sorted ?_ (sortNatList_pairwise l₁) (sortNatList_pairwise l₂)
  exact ((sortNatList_perm l₁).trans h).trans (sortNatList_perm l₂).symm

/-- The `(start, end)` bounds of the tail windows, as a function of the
sorted offsets alone. -/
def boundsOfOffsets : List Nat → Nat → List (Nat × Nat)
  | [], _ => []
  | [o], e => [(o * 2, e)]
  | o :: o2 :: rest, e => (o * 2, o2 * 2) :: boundsOfOffsets (o2 :: rest) e

theorem windowBounds_proj (l : List DynItem) (e : Nat) :
    (windowBounds l e).map (fun w => (w.2.1, w.2.2)) =
      boundsOfOffsets (l.map DynItem.offset) e := by
  induction l with
  | nil => rfl
  | cons it rest ih =>
      cases rest with
      | nil => rfl
      | cons it2 r2 =>
          rw [windowBounds]
          simp only [List.map_cons, boundsOfOffsets]
          rw [ih]
          simp [boundsOfOffsets]

theorem mem_windowBounds {w : DynItem × Nat × Nat} :
    ∀ {l : List DynItem} {e : Nat}, w ∈ windowBounds l e →
      w.1 ∈ l ∧ w.2.1 = w.1.offset * 2 := by
  intro l
  induction l with
  | nil => intro e hw; simp [windowBounds] at hw
  | cons it rest ih =>
      intro e hw
      cases rest with
      | nil =>
          simp only [windowBounds, List.mem_singleton] at hw
          subst hw
          exact ⟨List.mem_singleton_self it, rfl⟩
      | cons it2 r2 =>
          rw [windowBounds] at hw
          rcases List.mem_cons.mp hw with rfl | hw
          · exact ⟨List.mem_cons_self it _, rfl⟩
          · have := ih hw
            exact ⟨List.mem_cons_of_mem it this.1, this.2⟩

theorem windowBounds_contiguous :
    ∀ (l : List DynItem) (e : Nat) (k : Nat) (w1 w2 : DynItem × Nat × Nat),
      (windowBounds l e)[k]? = some w1 → (windowBounds l e)[k + 1]? = some w2 →
      w1.2.2 = w2.2.1 := by
  intro l
  induction l with
  | nil => intro e k w1 w2 h1 _; simp [windowBounds] at h1
  | cons it rest ih =>
      intro e k w1 w2 h1 h2
      cases rest with
      | nil =>
          cases k with
          | zero => simp [windowBounds] at h2
          | succ k => simp [windowBounds] at h1
      | cons it2 r2 =>
          rw [windowBounds] at h1 h2
          cases k with
          | zero =>
              simp only [List.getElem?_cons_zero, Option.some.injEq] at h1
              simp only [List.getElem?_cons_succ] at h2
              subst h1
              have hmem : w2 ∈ windowBounds (it2 :: r2) e := by
                exact List.getElem?_mem h2
              have hw2 := mem_windowBounds hmem
              cases r2 with
              | nil =>
                  simp only [windowBounds, List.getElem?_cons_zero, Option.some.injEq] at h2
                  subst h2
                  rfl
              | cons it3 r3 =>
                  rw [windowBounds] at h2
                  simp only [List.getElem?_cons_zero, Option.some.injEq] at h2
                  subst h2
                  rfl
          | succ k =>
              simp only [List.getElem?_cons_succ] at h1 h2
              exact ih e k w1 w2 h1 h2

theorem windowBounds_start_le_end {l : List DynItem} {e : Nat}
    (hs : l.Pairwise (fun a b => a.offset ≤ b.offset))
    (he : ∀ it ∈ l, it.offset * 2 ≤ e) :
    ∀ w ∈ windowBounds l e, w.2.1 ≤ w.2.2 := by
  induction l with
  | nil => intro w hw; simp [windowBounds] at hw
  | cons it rest ih =>
      intro w hw
      cases rest with
      | nil =>
          simp only [windowBounds, List.mem_singleton] at hw
          subst hw
          exact he it (List.mem_singleton_self it)
      | cons it2 r2 =>
          rw [windowBounds] at hw
          rw [List.pairwise_cons] at hs
          rcases List.mem_cons.mp hw with rfl | hw
          · have := hs.1 it2 (List.mem_cons_self it2 r2)
            simpa using Nat.mul_le_mul_right 2 this
          · exact ih hs.2 (fun a ha => he a (List.mem_cons_of_mem it ha)) w hw

theorem windowBounds_nonoverlap {l : List DynItem} {e : Nat}
    (hs : l.Pairwise (fun a b => a.offset ≤ b.offset)) :
    (windowBounds l e).Pairwise (fun w1 w2 => w1.2.2 ≤ w2.2.1) := by
  induction l with
  | nil => simp [windowBounds]
  | cons it rest ih =>
      cases rest with
      | nil => simp [windowBounds]
      | cons it2 r2 =>
          rw [List.pairwise_cons] at hs
          rw [windowBounds, List.pairwise_cons]
          refine ⟨?_, ih hs.2⟩
          intro w hw
          have hmem := mem_windowBounds hw
          have h1 : it2.offset ≤ w.1.offset := by
            rcases List.mem_cons.mp hmem.1 with rfl | hmm
            · omega
            · rw [List.pairwise_cons] at hs
              exact (hs.2).1 w.1 hmm
          rw [hmem.2]
          simpa using Nat.mul_le_mul_right 2 h1

/-- The tail windows of the decomposer at one level: the offset-sorted
dynamic items with their `[start, end)` hex bounds (this is exactly the
composition `buildFlatBreakdown` uses for its tail pass). -/
def dynWindows (params : List AbiParam) (hex : List Char) : List (DynItem × Nat × Nat) :=
  windowBounds (sortByOffset (collectDynItems params hex 0 0)) hex.length

/-- C5: with at least two dynamic parameters, the decomposer sorts the
recorded dynamic items by ascending offset before tail parsing and assigns
each item the window from its own doubled offset to the next item's (or the
end of the byte-window for the last); the resulting windows are contiguous,
well-formed and non-overlapping, their bounds depend only on the multiset of
offsets (so they are independent of declaration order), and the tail pass
emits exactly one part per window. -/
theorem c5_sorted_contiguous_windows (params : List AbiParam) (hex : List Char)
    (h2 : 2 ≤ (collectDynItems params hex 0 0).length)
    (hin : ∀ it ∈ collectDynItems params hex 0 0, it.offset * 2 ≤ hex.length) :
    (sortByOffset (collectDynItems params hex 0 0)).Perm (collectDynItems params hex 0 0) ∧
    (sortByOffset (collectDynItems params hex 0 0)).Pairwise
      (fun a b => a.offset ≤ b.offset) ∧
    (∀ w ∈ dynWindows params hex, w.2.1 = w.1.offset * 2) ∧
    (∀ (k : Nat) (w1 w2 : DynItem × Nat × Nat),
      (dynWindows params hex)[k]? = some w1 → (dynWindows params hex)[k + 1]? = some w2 →
      w1.2.2 = w2.2.1) ∧
    (∀ w ∈ dynWindows params hex, w.2.1 ≤ w.2.2) ∧
    (dynWindows params hex).Pairwise (fun w1 w2 => w1.2.2 ≤ w2.2.1) ∧
    (∀ items2 : List DynItem, items2.Perm (collectDynItems params hex 0 0) →
      (windowBounds (sortByOffset items2) hex.length).map (fun w => (w.2.1, w.2.2)) =
        (dynWindows params hex).map (fun w => (w.2.1, w.2.2))) ∧
    (∀ (fuel : Nat) (r : List CalldataPart × List CalldataPart),
      buildFlatBreakdownF fuel params hex = some r →
      r.2.length = (dynWindows params hex).length) := by
  have hperm := sortByOffset_perm (collectDynItems params hex 0 0)
  have hsorted := sortByOffset_pairwise (collectDynItems params hex 0 0)
  have hin' : ∀ it ∈ sortByOffset (collectDynItems params hex 0 0),
      it.offset * 2 ≤ hex.length := fun it hit => hin it (hperm.mem_iff.mp hit)
  refine ⟨hperm, hsorted, ?_, ?_, ?_, ?_, ?_, ?_⟩
  · intro w hw
    exact (mem_windowBounds hw).2
  · intro k w1 w2 h1 h2'
    exact windowBounds_contiguous _ _ k w1 w2 h1 h2'
  · exact windowBounds_start_le_end hsorted hin'
  · exact windowBounds_nonoverlap hsorted
  · intro items2 hpi
    unfold dynWindows
    rw [windowBounds_proj, windowBounds_proj, map_offset_sortByOffset,
      map_offset_sortByOffset]
    rw [sortNatList_eq_of_perm (hpi.map DynItem.offset)]
  · intro fuel r h
    cases fuel with
    | zero => exact absurd h (by simp [buildFlatBreakdownF])
    | succ fuel =>
        simp only [buildFlatBreakdownF] at h
        cases hh : headPassF fuel params hex 0 0 with
        | none => rw [hh] at h; cases h
        | some headParts =>
            rw [hh] at h
            cases ht : tailPassF fuel
                (windowBounds (sortByOffset (collectDynItems params hex 0 0)) hex.length)
                hex with
            | none => rw [ht] at h; cases h
            | some tailParts =>
                rw [ht] at h
                cases h
                exact tailPassF_length ht

/-- Witness for C5: two dynamic `string` parameters whose head words carry
offsets 64 and 128. -/
theorem c5_sorted_contiguous_windows_witness :
    2 ≤ (collectDynItems [AbiParam.mk ("string".data) none none,
        AbiParam.mk ("string".data) none none]
        (natToHex 64 64 ++ natToHex 128 64 ++ List.replicate 128 '0') 0 0).length ∧
      (sortByOffset (collectDynItems [AbiParam.mk ("string".data) none none,
          AbiParam.mk ("string".data) none none]
          (natToHex 64 64 ++ natToHex 128 64 ++ List.replicate 128 '0') 0 0)).Pairwise
        (fun a b => a.offset ≤ b.offset) := by
  constructor
  · decide
  · exact (c5_sorted_contiguous_windows _ _ (by decide) (by decide)).2.1

/-- Two dynamic `string` parameters whose head words carry the decreasing
offsets 96 and 64: the layout the claim says must signal `CorruptLayout`. -/
def c8ps : List AbiParam :=
  [AbiParam.mk ("string".data) (some ("a".data)) none,
   AbiParam.mk ("string".data) (some ("b".data)) none]

/-- Byte-window with decreasing dynamic offsets (96 then 64). -/
def c8hex : List Char := natToHex 96 64 ++ natToHex 64 64 ++ List.replicate 128 '0'

/-- Counterexample to C8 as stated: on a byte-window whose dynamic offsets
decrease (96 for the first parameter, 64 for the second), `buildFlatBreakdown`
signals nothing — it sorts the items, produces all 2 head parts and all 2
tail parts (the second-declared parameter's tail first), and returns
normally; no `CorruptLayout` error exists anywhere in the code. -/
theorem c8_counterexample :
    (buildFlatBreakdownF 8 c8ps c8hex).map
        (fun r => (r.1.length, r.2.length, r.2.map CalldataPart.nameStr)) =
      some (2, 2, [("Tail for b".data), ("Tail for a".data)]) := by rfl

/-- C8 corrected: the decomposer performs no offset validation at all.
Decreasing or overlapping offsets are silently reordered by the sort,
offsets beyond the byte-window yield empty content windows (JavaScript
`substring` clamps its arguments), and decomposition always emits one head
part per parameter and one tail part per dynamic item — no `CorruptLayout`
error and no halting. -/
theorem c8_no_corrupt_layout (fuel : Nat) (params : List AbiParam) (hex : List Char)
    (r : List CalldataPart × List CalldataPart)
    (h : buildFlatBreakdownF fuel params hex = some r)
    (hbad : ∃ it ∈ collectDynItems params hex 0 0, hex.length < it.offset * 2) :
    r.1.length = params.length ∧
      r.2.length = (collectDynItems params hex 0 0).length ∧
      (∀ s e : Nat, hex.length ≤ s → s ≤ e → jsSubstring hex s e = []) := by
  cases fuel with
  | zero => exact absurd h (by simp [buildFlatBreakdownF])
  | succ fuel =>
      simp only [buildFlatBreakdownF] at h
      cases hh : headPassF fuel params hex 0 0 with
      | none => rw [hh] at h; cases h
      | some headParts =>
          rw [hh] at h
          cases ht : tailPassF fuel
              (windowBounds (sortByOffset (collectDynItems params hex 0 0)) hex.length)
              hex with
          | none => rw [ht] at h; cases h
          | some tailParts =>
              rw [ht] at h
              cases h
              refine ⟨headPassF_length hh, ?_, ?_⟩
              · rw [tailPassF_length ht, windowBounds_length, sortByOffset_length]
              · intro s e hs hse
                unfold jsSubstring
                have h1 : min s hex.length = hex.length := min_eq_right hs
                have h2 : min e hex.length = hex.length := min_eq_right (le_trans hs hse)
                rw [h1, h2]
                simp

/-- Witness for C8's corrected claim: first parameter's offset far beyond
the byte-window; the decomposer still returns one tail part per item. -/
theorem c8_no_corrupt_layout_witness :
    (buildFlatBreakdownF 8 c8ps (natToHex 4096 64 ++ natToHex 64 64)).map
        (fun r => (r.1.length, r.2.length)) = some (2, 2) := by
  cases hr : buildFlatBreakdownF 8 c8ps (natToHex 4096 64 ++ natToHex 64 64) with
  | none =>
      have hs : (buildFlatBreakdownF 8 c8ps (natToHex 4096 64 ++ natToHex 64 64)).isSome
          = true := by rfl
      rw [hr] at hs
      cases hs
  | some r =>
      have hmem : DynItem.mk (AbiParam.mk ("string".data) (some ("a".data)) none)
          ("a".data) 4096 ∈
          collectDynItems c8ps (natToHex 4096 64 ++ natToHex 64 64) 0 0 := by
        rw [show collectDynItems c8ps (natToHex 4096 64 ++ natToHex 64 64) 0 0 =
          [DynItem.mk (AbiParam.mk ("string".data) (some ("a".data)) none) ("a".data) 4096,
           DynItem.mk (AbiParam.mk ("string".data) (some ("b".data)) none) ("b".data) 64]
          from rfl]
        exact List.mem_cons_self _ _
      have hc := c8_no_corrupt_layout 8 c8ps _ r hr
        ⟨DynItem.mk (AbiParam.mk ("string".data) (some ("a".data)) none) ("a".data) 4096,
         hmem, by decide⟩
      simp only [Option.map_some']
      rw [hc.1, hc.2.1]
      rfl

/-!
Round-trip machinery for the amended C1 (and C4). `goodT` carves out the
type shapes on which the decomposer's simplifications (flat array words,
`fieldCount` slots per static tuple) coincide with the encoding layout.
-/

/-- A static scalar occupying exactly one 32-byte head word. -/
def isSingleWordT : TypeNode → Bool
  | .uintT _ => true
  | .intT _ => true
  | .boolT => true
  | .addressT => true
  | .fixedBytesT _ => true
  | _ => false

/-- All record fields are single-word scalars. -/
def allSingleWordFields (fs : List (List Char × TypeNode)) : Bool :=
  fs.all (fun f => isSingleWordT f.2)

mutual
/-- Type shapes the decomposer handles faithfully: arrays only of
single-word scalar elements, and static records only with single-word
scalar fields (dynamic records may nest any good fields). -/
def goodT : TypeNode → Bool
  | .arrayT e => isSingleWordT e
  | .recordT fs => goodFields fs && (anyDynField fs || allSingleWordFields fs)
  | _ => true

/-- Every field type is good. -/
def goodFields : List (List Char × TypeNode) → Bool
  | [] => true
  | (_, t) :: rest => goodT t && goodFields rest
end

/-- Every parameter type of a level is good. -/
def goodTVs (tvs : List (TypeNode × ValueNode)) : Bool :=
  tvs.all (fun tv => goodT tv.1)

/-- Inline head size (hex chars) of a good static Type Node. -/
def staticSizeT : TypeNode → Nat
  | .recordT fs => 64 * fs.length
  | _ => 64

/-- The viem-shaped parameter `p` describes the Type Node `t` (names are
irrelevant to the decomposer's control flow). -/
def paramMatches (p : AbiParam) (t : TypeNode) : Prop :=
  p.ty = typeString t ∧ p.components = componentsOf t

/-- The per-item head words of `assembleGo`: a 32-byte offset word for each
dynamic item, the inline hex for each static item. -/
def headWordsList : List (Bool × List Char) → Nat → List (List Char)
  | [], _ => []
  | (true, b) :: rest, off => natToHex off 64 :: headWordsList rest (off + b.length / 2)
  | (false, hx) :: rest, off => hx :: headWordsList rest off

/-- The tail blocks of an item list, in declaration order. -/
def blocksOf : List (Bool × List Char) → List (List Char)
  | [] => []
  | (true, b) :: rest => b :: blocksOf rest
  | (false, _) :: rest => blocksOf rest

/-- Offset/block pairs of the dynamic items, with the running tail cursor. -/
def dynPairsOf : List (Bool × List Char) → Nat → List (Nat × List Char)
  | [], _ => []
  | (true, b) :: rest, off => (off, b) :: dynPairsOf rest (off + b.length / 2)
  | (false, _) :: rest, off => dynPairsOf rest off

/-- The offsets of the dynamic items alone. -/
def offsetsOfItems (items : List (Bool × List Char)) (off : Nat) : List Nat :=
  (dynPairsOf items off).map Prod.fst

/-- The offset/block pairs tile the byte-window from hex position `pos` on:
each block starts at twice its byte offset and they are contiguous. -/
def contiguousPairs : List (Nat × List Char) → Nat → Prop
  | [], _ => True
  | (o, b) :: rest, pos => o * 2 = pos ∧ contiguousPairs rest (pos + b.length)

/-- What the encoder guarantees about one emitted item. -/
def itemOk : TypeNode × ValueNode → Bool × List Char → Prop := fun tv it =>
  it.1 = isDynamicT tv.1 ∧
    (if isDynamicT tv.1 then
      (∃ g, encodeTailF g tv.1 tv.2 = some it.2) ∧ it.2.length % 64 = 0 ∧ 64 ≤ it.2.length
    else
      (∃ g, encodeStaticF g tv.1 tv.2 = some it.2) ∧ it.2.length = staticSizeT tv.1)

/-- What tail parsing needs to know about one recorded dynamic item and its
offset/block pair. -/
def dynReady (d : DynItem) (ob : Nat × List Char) : Prop :=
  d.offset = ob.1 ∧ ob.2.length % 64 = 0 ∧ 64 ≤ ob.2.length ∧ ob.2.length < 2 ^ 256 ∧
    ∃ t v g, paramMatches d.param t ∧ goodT t = true ∧ isDynamicT t = true ∧
      encodeTailF g t v = some ob.2

theorem decReprAux_digits : ∀ (f n : Nat), ∀ c ∈ decReprAux f n,
    48 ≤ c.toNat ∧ c.toNat ≤ 57 := by
  intro f
  induction f with
  | zero => intro n c hc; simp [decReprAux] at hc
  | succ f ih =>
      intro n c hc
      rw [decReprAux] at hc
      by_cases h10 : n < 10
      · rw [if_pos h10] at hc
        simp only [List.mem_singleton] at hc
        subst hc
        unfold decDigitChar
        have hv : 48 + n % 10 < 55296 := by omega
        unfold Char.ofNat
        split
        · show 48 ≤ 48 + n % 10 ∧ 48 + n % 10 ≤ 57
          omega
        · rename_i hval
          exact absurd (Or.inl (by omega)) hval
      · rw [if_neg h10] at hc
        rcases List.mem_append.mp hc with hc | hc
        · exact ih _ c hc
        · simp only [List.mem_singleton] at hc
          subst hc
          unfold decDigitChar
          unfold Char.ofNat
          split
          · show 48 ≤ 48 + n % 10 % 10 ∧ 48 + n % 10 % 10 ≤ 57
            omega
          · rename_i hval
            exact absurd (Or.inl (by omega)) hval

theorem decRepr_digits (n : Nat) : ∀ c ∈ decRepr n, 48 ≤ c.toNat ∧ c.toNat ≤ 57 :=
  decReprAux_digits (n + 1) n

theorem decRepr_ne_nil (n : Nat) : decRepr n ≠ [] := by
  unfold decRepr decReprAux
  by_cases h10 : n < 10
  · simp [h10]
  · simp [h10]

theorem endsWithCl_append (a suf : List Char) : endsWithCl (a ++ suf) suf = true := by
  unfold endsWithCl
  rw [if_pos (by simp)]
  have : (a ++ suf).length - suf.length = a.length := by simp
  rw [this, List.drop_left]
  exact beq_self_eq_true suf

theorem endsWithCl_getLast {s suf : List Char} (h : endsWithCl s suf = true)
    (hne : suf ≠ []) : s.getLast? = suf.getLast? := by
  unfold endsWithCl at h
  by_cases hl : suf.length ≤ s.length
  · rw [if_pos hl] at h
    have hdrop : s.drop (s.length - suf.length) = suf := by
      exact eq_of_beq h
    conv_lhs => rw [← List.take_append_drop (s.length - suf.length) s]
    rw [hdrop, List.getLast?_append]
    cases hsuf : suf.getLast? with
    | none => exact absurd (List.getLast?_eq_none_iff.mp hsuf) hne
    | some c => rfl
  · rw [if_neg hl] at h
    cases h

theorem endsWithCl_digits_brackets {pre ds : List Char} (hne : ds ≠ [])
    (hd : ∀ c ∈ ds, 48 ≤ c.toNat ∧ c.toNat ≤ 57) :
    endsWithCl (pre ++ ds) ("[]".data) = false := by
  by_contra hcon
  rw [Bool.not_eq_false] at hcon
  have hl := endsWithCl_getLast hcon (by decide)
  rw [List.getLast?_append] at hl
  cases hds : ds.getLast? with
  | none => exact absurd (List.getLast?_eq_none_iff.mp hds) hne
  | some c =>
      rw [hds] at hl
      simp only [Option.or_some, Option.some.injEq] at hl
      have hc : c ∈ ds := by
        rcases List.mem_getLast?_eq_getLast (l := ds) (x := c) (by rw [hds]; rfl)
          with ⟨hne2, heq⟩
        rw [heq]
        exact List.getLast_mem hne2
      have := hd c hc
      rw [show ("[]".data.getLast?) = some ']' from rfl] at hl
      cases hl
      simp at this

theorem beq_false_of_head_ne {a b : Char} {as bs : List Char} (h : a ≠ b) :
    ((a :: as : List Char) == (b :: bs)) = false := by
  rw [beq_eq_false_iff_ne]
  intro hcon
  exact h (List.head_eq_of_cons_eq hcon)

theorem beq_false_of_length_ne {as bs : List Char} (h : as.length ≠ bs.length) :
    (as == bs) = false := by
  rw [beq_eq_false_iff_ne]
  intro hcon
  exact h (by rw [hcon])

/-- Routing facts for single-word scalar type tokens: they do not end in
`[]` and are not the `string`/`bytes`/`tuple` tokens. -/
theorem singleWord_routing {t : TypeNode} (h : isSingleWordT t = true) :
    endsWithCl (typeString t) ("[]".data) = false ∧
      (typeString t == ("string".data)) = false ∧
      (typeString t == ("bytes".data)) = false := by
  cases t with
  | uintT bits =>
      refine ⟨endsWithCl_digits_brackets (decRepr_ne_nil bits) (decRepr_digits bits), ?_, ?_⟩
      · exact beq_false_of_head_ne (by decide)
      · exact beq_false_of_head_ne (by decide)
  | intT bits =>
      refine ⟨endsWithCl_digits_brackets (decRepr_ne_nil bits) (decRepr_digits bits), ?_, ?_⟩
      · exact beq_false_of_head_ne (by decide)
      · exact beq_false_of_head_ne (by decide)
  | boolT => exact ⟨by decide, by decide, by decide⟩
  | addressT => exact ⟨by decide, by decide, by decide⟩
  | fixedBytesT n =>
      refine ⟨endsWithCl_digits_brackets (decRepr_ne_nil n) (decRepr_digits n), ?_, ?_⟩
      · exact beq_false_of_head_ne (by decide)
      · refine beq_false_of_length_ne ?_
        have := decRepr_ne_nil n
        simp only [typeString, List.length_append]
        intro hcon
        have hz : (decRepr n).length = 0 := by omega
        exact this (List.length_eq_zero.mp hz)
  | dynBytesT => simp [isSingleWordT] at h
  | textT => simp [isSingleWordT] at h
  | arrayT e => simp [isSingleWordT] at h
  | recordT fs => simp [isSingleWordT] at h

theorem isSingleWordT_not_dynamic {t : TypeNode} (h : isSingleWordT t = true) :
    isDynamicT t = false := by
  cases t <;> first | rfl | simp [isSingleWordT] at h

theorem isDynamicP_singleWord {t : TypeNode} (h : isSingleWordT t = true)
    (nm : Option (List Char)) :
    isDynamicP (AbiParam.mk (typeString t) nm (componentsOf t)) = isDynamicT t := by
  have hr := singleWord_routing h
  have hcomp : componentsOf t = none := by
    cases t <;> first | rfl | simp [isSingleWordT] at h
  have hdyn : isDynamicT t = false := isSingleWordT_not_dynamic h
  rw [hcomp, hdyn]
  simp [isDynamicP, hr.1, hr.2.1, hr.2.2]

theorem sizeOf_typeNode_pos (t : TypeNode) : 0 < sizeOf t := by
  cases t <;> simp

theorem isDynamicP_eq (t : List Char) (nm : Option (List Char))
    (c : Option (List AbiParam)) :
    isDynamicP (AbiParam.mk t nm c) =
      (if endsWithCl t ("[]".data) || t == ("string".data) || t == ("bytes".data) then true
       else
         match c with
         | some cs => anyDynamicP cs
         | none => false) := by
  rw [isDynamicP.eq_def]

theorem dyn_matches_aux : ∀ k : Nat,
    (∀ t : TypeNode, sizeOf t ≤ k → ∀ nm : Option (List Char),
      isDynamicP (AbiParam.mk (typeString t) nm (componentsOf t)) = isDynamicT t) ∧
    (∀ fs : List (List Char × TypeNode), sizeOf fs ≤ k →
      anyDynamicP (fieldsToParams fs) = anyDynField fs) := by
  intro k
  induction k with
  | zero =>
      constructor
      · intro t ht
        exact absurd ht (by have := sizeOf_typeNode_pos t; omega)
      · intro fs hfs
        cases fs with
        | nil => simp at hfs
        | cons f rest =>
            simp only [List.cons.sizeOf_spec] at hfs
            have hp : 0 < sizeOf f := by
              obtain ⟨a, b⟩ := f
              simp
            omega
  | succ k ih =>
      constructor
      · intro t ht nm
        cases t with
        | uintT bits => exact isDynamicP_singleWord (t := .uintT bits) rfl nm
        | intT bits => exact isDynamicP_singleWord (t := .intT bits) rfl nm
        | boolT => exact isDynamicP_singleWord (t := .boolT) rfl nm
        | addressT => exact isDynamicP_singleWord (t := .addressT) rfl nm
        | fixedBytesT n => exact isDynamicP_singleWord (t := .fixedBytesT n) rfl nm
        | dynBytesT => rfl
        | textT => rfl
        | arrayT e =>
            have hend : endsWithCl (typeString (TypeNode.arrayT e)) ("[]".data) = true :=
              endsWithCl_append (typeString e) ("[]".data)
            rw [isDynamicP_eq, hend]
            simp only [Bool.true_or, if_true]
            rfl
        | recordT fs =>
            have hfs := ih.2 fs (by simp at ht; omega)
            simp only [isDynamicP, isDynamicT, typeString, componentsOf]
            rw [if_neg (by decide)]
            exact hfs
      · intro fs hfs
        cases fs with
        | nil => rfl
        | cons f rest =>
            obtain ⟨n, t⟩ := f
            have h1 := ih.1 t (by simp at hfs; omega) (some n)
            have h2 := ih.2 rest (by simp at hfs; omega)
            rw [fieldsToParams, anyDynamicP, anyDynField, h1, h2]

theorem isDynamicP_matches (t : TypeNode) (nm : Option (List Char)) :
    isDynamicP (AbiParam.mk (typeString t) nm (componentsOf t)) = isDynamicT t :=
  (dyn_matches_aux (sizeOf t)).1 t (le_refl _) nm

theorem anyDynamicP_matches (fs : List (List Char × TypeNode)) :
    anyDynamicP (fieldsToParams fs) = anyDynField fs :=
  (dyn_matches_aux (sizeOf fs)).2 fs (le_refl _)

theorem fieldsToParams_length (fs : List (List Char × TypeNode)) :
    (fieldsToParams fs).length = fs.length := by
  induction fs with
  | nil => rfl
  | cons f rest ih =>
      obtain ⟨n, t⟩ := f
      rw [fieldsToParams]
      simp [ih]

theorem fieldsToParams_matches (fs : List (List Char × TypeNode)) :
    List.Forall₂ paramMatches (fieldsToParams fs) (fs.map Prod.snd) := by
  induction fs with
  | nil => exact List.Forall₂.nil
  | cons f rest ih =>
      obtain ⟨n, t⟩ := f
      rw [fieldsToParams]
      exact List.Forall₂.cons ⟨rfl, rfl⟩ ih

theorem scalarWord_length : ∀ {t : TypeNode} {v : ValueNode} {w : List Char},
    scalarWord t v = some w → w.length = 64 := by
  intro t v w h
  cases t <;> cases v <;> simp only [scalarWord] at h
  case uintT.numV bits x =>
      split at h
      · rw [← Option.some.inj h, natToHex_length]
      · cases h
  case intT.numV bits x =>
      split at h
      · rw [← Option.some.inj h, natToHex_length]
      · cases h
  case boolT.boolV b =>
      rw [← Option.some.inj h, natToHex_length]
  case addressT.numV x =>
      split at h
      · rw [← Option.some.inj h, natToHex_length]
      · cases h
  case fixedBytesT.bytesV n bs =>
      split at h
      · rename_i hc
        rw [← Option.some.inj h]
        simp only [List.length_append, List.length_replicate, bytesToHex_length]
        obtain ⟨h1, h2, h3, _⟩ := hc
        omega
      · cases h
  all_goals cases h

theorem padEndToWord_length (s : List Char) :
    (padEndToWord s).length = (s.length + 63) / 64 * 64 := by
  unfold padEndToWord
  simp only [List.length_append, List.length_replicate]
  have h1 : s.length ≤ (s.length + 63) / 64 * 64 := by
    have := Nat.div_add_mod (s.length + 63) 64
    have := Nat.mod_lt (s.length + 63) (show 0 < 64 by norm_num)
    omega
  omega

theorem padEndToWord_mod (s : List Char) : (padEndToWord s).length % 64 = 0 := by
  rw [padEndToWord_length]
  exact Nat.mul_mod_left _ _

theorem padEndToWord_ge (s : List Char) : s.length ≤ (padEndToWord s).length := by
  rw [padEndToWord_length]
  have := Nat.div_add_mod (s.length + 63) 64
  have := Nat.mod_lt (s.length + 63) (show 0 < 64 by norm_num)
  omega

theorem assembleGo_fst : ∀ (items : List (Bool × List Char)) (off : Nat),
    (assembleGo items off).1 = (headWordsList items off).flatten := by
  intro items
  induction items with
  | nil => intro off; rfl
  | cons it rest ih =>
      intro off
      obtain ⟨flag, hx⟩ := it
      cases flag
      · rw [assembleGo, headWordsList]
        simp [ih]
      · rw [assembleGo, headWordsList]
        simp [ih]

theorem assembleGo_snd : ∀ (items : List (Bool × List Char)) (off : Nat),
    (assembleGo items off).2 = (blocksOf items).flatten := by
  intro items
  induction items with
  | nil => intro off; rfl
  | cons it rest ih =>
      intro off
      obtain ⟨flag, hx⟩ := it
      cases flag
      · rw [assembleGo, blocksOf]
        simp [ih]
      · rw [assembleGo, blocksOf]
        simp [ih]

theorem assemble_eq (items : List (Bool × List Char)) :
    assemble items = (headWordsList items (headBytesOf items)).flatten
      ++ (blocksOf items).flatten := by
  show (assembleGo items (headBytesOf items)).1 ++ (assembleGo items (headBytesOf items)).2
      = _
  rw [assembleGo_fst, assembleGo_snd]

theorem blocksOf_eq_dynPairs : ∀ (items : List (Bool × List Char)) (off : Nat),
    (dynPairsOf items off).map Prod.snd = blocksOf items := by
  intro items
  induction items with
  | nil => intro off; rfl
  | cons it rest ih =>
      intro off
      obtain ⟨flag, hx⟩ := it
      cases flag
      · rw [dynPairsOf, blocksOf]
        exact ih off
      · rw [dynPairsOf, blocksOf]
        simp [ih]

theorem mem_flatten_length_le {l : List Char} {L : List (List Char)} (h : l ∈ L) :
    l.length ≤ L.flatten.length := by
  induction L with
  | nil => simp at h
  | cons a rest ih =>
      rcases List.mem_cons.mp h with rfl | h
      · rw [List.flatten_cons, List.length_append]
        omega
      · have := ih h
        rw [List.flatten_cons, List.length_append]
        omega

theorem assemble_all_static {items : List (Bool × List Char)}
    (h : ∀ it ∈ items, it.1 = false) :
    assemble items = (items.map Prod.snd).flatten := by
  rw [assemble_eq]
  have hb : blocksOf items = [] := by
    induction items with
    | nil => rfl
    | cons it rest ih =>
        obtain ⟨flag, hx⟩ := it
        have hflag := h (flag, hx) (List.mem_cons_self _ _)
        simp only at hflag
        subst hflag
        rw [blocksOf]
        exact ih (fun x hx2 => h x (List.mem_cons_of_mem _ hx2))
  have hw : ∀ off, headWordsList items off = items.map Prod.snd := by
    clear hb
    induction items with
    | nil => intro off; rfl
    | cons it rest ih =>
        intro off
        obtain ⟨flag, hx⟩ := it
        have hflag := h (flag, hx) (List.mem_cons_self _ _)
        simp only at hflag
        subst hflag
        rw [headWordsList]
        simp only [List.map_cons]
        rw [ih (fun x hx2 => h x (List.mem_cons_of_mem _ hx2)) off]
  rw [hb, hw]
  simp

theorem isSingleWordT_staticSize {t : TypeNode} (h : isSingleWordT t = true) :
    staticSizeT t = 64 := by
  cases t <;> first | rfl | simp [isSingleWordT] at h

theorem isSingleWordT_goodT {t : TypeNode} (h : isSingleWordT t = true) :
    goodT t = true := by
  cases t with
  | uintT bits => rw [goodT.eq_def]
  | intT bits => rw [goodT.eq_def]
  | boolT => rw [goodT.eq_def]
  | addressT => rw [goodT.eq_def]
  | fixedBytesT n => rw [goodT.eq_def]
  | dynBytesT => rw [goodT.eq_def]
  | textT => rw [goodT.eq_def]
  | arrayT e => simp [isSingleWordT] at h
  | recordT fs => simp [isSingleWordT] at h

theorem allSingleWordFields_anyDyn : ∀ {fs : List (List Char × TypeNode)},
    allSingleWordFields fs = true → anyDynField fs = false := by
  intro fs
  induction fs with
  | nil => intro _; rfl
  | cons f rest ih =>
      intro h
      obtain ⟨n, t⟩ := f
      simp only [allSingleWordFields, List.all_cons, Bool.and_eq_true] at h
      rw [anyDynField, isSingleWordT_not_dynamic h.1, ih h.2]
      rfl

theorem encodeStaticF_singleWord {t : TypeNode} (h : isSingleWordT t = true)
    (f : Nat) (v : ValueNode) : encodeStaticF (f + 1) t v = scalarWord t v := by
  cases t with
  | uintT bits => cases v <;> rw [encodeStaticF.eq_def]
  | intT bits => cases v <;> rw [encodeStaticF.eq_def]
  | boolT => cases v <;> rw [encodeStaticF.eq_def]
  | addressT => cases v <;> rw [encodeStaticF.eq_def]
  | fixedBytesT n => cases v <;> rw [encodeStaticF.eq_def]
  | dynBytesT => simp [isSingleWordT] at h
  | textT => simp [isSingleWordT] at h
  | arrayT e => simp [isSingleWordT] at h
  | recordT fs => simp [isSingleWordT] at h

theorem goodTVs_cons (tv : TypeNode × ValueNode) (tvs : List (TypeNode × ValueNode)) :
    goodTVs (tv :: tvs) = (goodT tv.1 && goodTVs tvs) := by
  simp [goodTVs]

theorem goodFields_zip : ∀ {fs : List (List Char × TypeNode)} (vs : List ValueNode),
    goodFields fs = true → goodTVs (List.zip (fs.map Prod.snd) vs) = true := by
  intro fs
  induction fs with
  | nil => intro vs _; cases vs <;> rfl
  | cons f rest ih =>
      intro vs h
      obtain ⟨n, t⟩ := f
      rw [goodFields, Bool.and_eq_true] at h
      cases vs with
      | nil => rfl
      | cons v vrest =>
          simp only [List.map_cons, List.zip_cons_cons, goodTVs_cons, Bool.and_eq_true]
          exact ⟨h.1, ih vrest h.2⟩

theorem padStart64_len64 {s : List Char} (h : s.length = 64) : padStart64 s = s := by
  unfold padStart64
  rw [h]
  simp

theorem padEnd64_len64 {s : List Char} (h : s.length = 64) : padEnd64 s = s := by
  unfold padEnd64
  rw [h]
  simp

theorem padTo32Bytes_len64 {s : List Char} (h : s.length = 64) (ty : List Char) :
    padTo32Bytes s ty = s := by
  unfold padTo32Bytes
  split
  · exact padStart64_len64 h
  · split
    · exact padEnd64_len64 h
    · rfl

theorem forall2_mem_left {α β : Type} {R : α → β → Prop} :
    ∀ {as : List α} {bs : List β}, List.Forall₂ R as bs → ∀ {a}, a ∈ as →
      ∃ b ∈ bs, R a b := by
  intro as bs h
  induction h with
  | nil => intro a ha; cases ha
  | cons hr _ ih =>
      intro a ha
      rcases List.mem_cons.mp ha with rfl | ha
      · exact ⟨_, List.mem_cons_self _ _, hr⟩
      · obtain ⟨b, hb, hrb⟩ := ih ha
        exact ⟨b, List.mem_cons_of_mem _ hb, hrb⟩

theorem forall2_mem_right {α β : Type} {R : α → β → Prop} :
    ∀ {as : List α} {bs : List β}, List.Forall₂ R as bs → ∀ {b}, b ∈ bs →
      ∃ a ∈ as, R a b := by
  intro as bs h
  induction h with
  | nil => intro b hb; cases hb
  | cons hr _ ih =>
      intro b hb
      rcases List.mem_cons.mp hb with rfl | hb
      · exact ⟨_, List.mem_cons_self _ _, hr⟩
      · obtain ⟨a, ha, hra⟩ := ih hb
        exact ⟨a, List.mem_cons_of_mem _ ha, hra⟩

theorem mem_zip_of_mem_left {α β : Type} :
    ∀ {as : List α} {bs : List β} {a : α}, as.length = bs.length → a ∈ as →
      ∃ b, (a, b) ∈ List.zip as bs := by
  intro as
  induction as with
  | nil => intro bs a _ ha; cases ha
  | cons x xs ih =>
      intro bs a hlen ha
      cases bs with
      | nil => simp at hlen
      | cons y ys =>
          rcases List.mem_cons.mp ha with rfl | ha
          · refine ⟨y, ?_⟩
            rw [List.zip_cons_cons]
            exact List.mem_cons_self _ _
          · simp only [List.length_cons] at hlen
            obtain ⟨b, hb⟩ := ih (by omega : xs.length = ys.length) ha
            refine ⟨b, ?_⟩
            rw [List.zip_cons_cons]
            exact List.mem_cons_of_mem _ hb

theorem anyDynField_exists : ∀ {fs : List (List Char × TypeNode)},
    anyDynField fs = true → ∃ f ∈ fs, isDynamicT f.2 = true := by
  intro fs
  induction fs with
  | nil =>
      intro h
      rw [anyDynField] at h
      cases h
  | cons f rest ih =>
      intro h
      rw [anyDynField, Bool.or_eq_true] at h
      rcases h with h1 | h2
      · exact ⟨f, List.mem_cons_self _ _, h1⟩
      · obtain ⟨g, hg, hd⟩ := ih h2
        exact ⟨g, List.mem_cons_of_mem _ hg, hd⟩

theorem jsSubstring_drop_prefix {hex w rest : List Char} {c : Nat}
    (h : hex.drop c = w ++ rest) :
    jsSubstring hex c (c + w.length) = w := by
  by_cases hc : c ≤ hex.length
  · have hlen : hex.length - c = w.length + rest.length := by
      have := congrArg List.length h
      simpa using this
    have hb : c + w.length ≤ hex.length := by omega
    rw [jsSubstring_eq_drop_take (Nat.le_add_right _ _) hb, h]
    have h2 : c + w.length - c = w.length := by omega
    rw [h2, List.take_left]
  · push_neg at hc
    rw [List.drop_eq_nil_of_le (Nat.le_of_lt hc)] at h
    have hw : w = [] := (List.append_eq_nil.mp h.symm).1
    subst hw
    simp [jsSubstring]

theorem drop_after {hex w rest : List Char} {c : Nat} (h : hex.drop c = w ++ rest) :
    hex.drop (c + w.length) = rest := by
  rw [← List.drop_drop, h, List.drop_left]

theorem jsSubstring_shift {w F : List Char} (hw : w.length = 64) (a b : Nat) :
    jsSubstring (w ++ F) (64 + a) (64 + b) = jsSubstring F a b := by
  simp only [jsSubstring, List.length_append, hw]
  have h1 : min (min (64 + a) (64 + F.length)) (min (64 + b) (64 + F.length))
      = 64 + min (min a F.length) (min b F.length) := by omega
  have h2 : max (min (64 + a) (64 + F.length)) (min (64 + b) (64 + F.length))
      - min (min (64 + a) (64 + F.length)) (min (64 + b) (64 + F.length))
      = max (min a F.length) (min b F.length) - min (min a F.length) (min b F.length) := by
    omega
  rw [h2, h1]
  congr 1
  rw [show (64 : Nat) + min (min a F.length) (min b F.length)
      = w.length + min (min a F.length) (min b F.length) by rw [hw],
    ← List.drop_drop, List.drop_left]

theorem flatten_length_64 : ∀ {ws : List (List Char)}, (∀ w ∈ ws, w.length = 64) →
    ws.flatten.length = 64 * ws.length := by
  intro ws
  induction ws with
  | nil => intro _; rfl
  | cons w rest ih =>
      intro h
      rw [List.flatten_cons, List.length_append, h _ (List.mem_cons_self _ _),
        ih (fun q hq => h q (List.mem_cons_of_mem _ hq)), List.length_cons]
      ring

theorem partsHexF_leaves : ∀ (parts : List CalldataPart),
    (∀ p ∈ parts, p.components = none) →
    partsHexF (parts.length + 1) parts = some ((parts.map CalldataPart.value).flatten) := by
  intro parts
  induction parts with
  | nil => intro _; rfl
  | cons p ps ih =>
      intro h
      obtain ⟨n, t, v, d, c⟩ := p
      have hc : c = none := h _ (List.mem_cons_self _ _)
      subst hc
      have hrec := ih (fun q hq => h q (List.mem_cons_of_mem _ hq))
      show partsHexF (ps.length + 1 + 1) _ = _
      rw [partsHexF]
      simp only [CalldataPart.value, List.map_cons, List.flatten_cons]
      rw [hrec]
      rfl

theorem range_windows_eq : ∀ (ws : List (List Char)) (ety : List Char),
    (∀ w ∈ ws, w.length = 64) →
    (List.range ws.length).map
      (fun i => padTo32Bytes (jsSubstring ws.flatten (64 * i) (64 * i + 64)) ety) = ws := by
  intro ws
  induction ws with
  | nil => intro _ _; rfl
  | cons w rest ih =>
      intro ety h
      have hw : w.length = 64 := h _ (List.mem_cons_self _ _)
      have hws : ∀ q ∈ rest, q.length = 64 := fun q hq => h q (List.mem_cons_of_mem _ hq)
      rw [List.length_cons, List.range_succ_eq_map, List.map_cons, List.map_map]
      congr 1
      · rw [List.flatten_cons]
        have h0 : (w ++ rest.flatten).drop 0 = w ++ rest.flatten := rfl
        have hsub := jsSubstring_drop_prefix (c := 0) h0
        rw [hw] at hsub
        rw [show (64 : Nat) * 0 = 0 from rfl, hsub]
        exact padTo32Bytes_len64 hw ety
      · refine Eq.trans (List.map_congr_left ?_) (ih ety hws)
        intro i hi
        simp only [Function.comp, Nat.succ_eq_add_one]
        rw [List.flatten_cons]
        have h1 : 64 * (i + 1) = 64 + 64 * i := by ring
        have h2 : 64 * (i + 1) + 64 = 64 + (64 * i + 64) := by ring
        rw [h2, h1, jsSubstring_shift hw]

theorem headBytesOf_cons_true (hx : List Char) (rest : List (Bool × List Char)) :
    headBytesOf ((true, hx) :: rest) = 32 + headBytesOf rest := by
  simp [headBytesOf]

theorem headBytesOf_cons_false (hx : List Char) (rest : List (Bool × List Char)) :
    headBytesOf ((false, hx) :: rest) = hx.length / 2 + headBytesOf rest := by
  simp [headBytesOf]

theorem headWordsList_flatten_length : ∀ (items : List (Bool × List Char)) (off : Nat),
    (∀ it ∈ items, it.1 = false → it.2.length % 2 = 0) →
    (headWordsList items off).flatten.length = 2 * headBytesOf items := by
  intro items
  induction items with
  | nil => intro off _; rfl
  | cons it rest ih =>
      intro off h
      obtain ⟨flag, hx⟩ := it
      have hrest : ∀ q ∈ rest, q.1 = false → q.2.length % 2 = 0 :=
        fun q hq => h q (List.mem_cons_of_mem _ hq)
      cases flag
      · rw [headWordsList, List.flatten_cons, List.length_append, ih off hrest,
          headBytesOf_cons_false]
        have he := h (false, hx) (List.mem_cons_self _ _) rfl
        simp only at he
        omega
      · rw [headWordsList, List.flatten_cons, List.length_append, natToHex_length,
          ih _ hrest, headBytesOf_cons_true]
        omega

theorem headWords_mod : ∀ (items : List (Bool × List Char)) (off : Nat),
    (∀ it ∈ items, it.1 = false → it.2.length % 64 = 0) →
    (headWordsList items off).flatten.length % 64 = 0 := by
  intro items
  induction items with
  | nil => intro off _; rfl
  | cons it rest ih =>
      intro off h
      obtain ⟨flag, hx⟩ := it
      have hrest : ∀ q ∈ rest, q.1 = false → q.2.length % 64 = 0 :=
        fun q hq => h q (List.mem_cons_of_mem _ hq)
      cases flag
      · rw [headWordsList, List.flatten_cons, List.length_append]
        have he := h (false, hx) (List.mem_cons_self _ _) rfl
        simp only at he
        have := ih off hrest
        omega
      · rw [headWordsList, List.flatten_cons, List.length_append, natToHex_length]
        have := ih (off + hx.length / 2) hrest
        omega

theorem blocks_mod : ∀ (items : List (Bool × List Char)),
    (∀ it ∈ items, it.1 = true → it.2.length % 64 = 0) →
    (blocksOf items).flatten.length % 64 = 0 := by
  intro items
  induction items with
  | nil => intro _; rfl
  | cons it rest ih =>
      intro h
      obtain ⟨flag, hx⟩ := it
      have hrest : ∀ q ∈ rest, q.1 = true → q.2.length % 64 = 0 :=
        fun q hq => h q (List.mem_cons_of_mem _ hq)
      cases flag
      · rw [blocksOf]
        exact ih hrest
      · rw [blocksOf, List.flatten_cons, List.length_append]
        have he := h (true, hx) (List.mem_cons_self _ _) rfl
        simp only at he
        have := ih hrest
        omega

theorem headWords_ge_64 : ∀ (items : List (Bool × List Char)) (off : Nat),
    (∃ it ∈ items, it.1 = true) → 64 ≤ (headWordsList items off).flatten.length := by
  intro items
  induction items with
  | nil => intro off h; obtain ⟨it, hit, _⟩ := h; cases hit
  | cons it rest ih =>
      intro off h
      obtain ⟨flag, hx⟩ := it
      cases flag
      · obtain ⟨q, hq, hq1⟩ := h
        rcases List.mem_cons.mp hq with rfl | hq
        · cases hq1
        · have := ih off ⟨q, hq, hq1⟩
          rw [headWordsList, List.flatten_cons, List.length_append]
          omega
      · rw [headWordsList, List.flatten_cons, List.length_append, natToHex_length]
        omega

theorem dynPairsOf_contiguous : ∀ (items : List (Bool × List Char)) (off : Nat),
    (∀ it ∈ items, it.1 = true → it.2.length % 2 = 0) →
    contiguousPairs (dynPairsOf items off) (2 * off) := by
  intro items
  induction items with
  | nil => intro off _; exact trivial
  | cons it rest ih =>
      intro off h
      obtain ⟨flag, hx⟩ := it
      have hrest : ∀ q ∈ rest, q.1 = true → q.2.length % 2 = 0 :=
        fun q hq => h q (List.mem_cons_of_mem _ hq)
      cases flag
      · rw [dynPairsOf]
        exact ih off hrest
      · rw [dynPairsOf, contiguousPairs]
        refine ⟨by ring, ?_⟩
        have he := h (true, hx) (List.mem_cons_self _ _) rfl
        simp only at he
        have := ih (off + hx.length / 2) hrest
        have h2 : 2 * (off + hx.length / 2) = 2 * off + hx.length := by omega
        rw [h2] at this
        exact this

theorem contiguousPairs_ge : ∀ {pairs : List (Nat × List Char)} {pos : Nat},
    contiguousPairs pairs pos → ∀ p ∈ pairs, pos ≤ p.1 * 2 := by
  intro pairs
  induction pairs with
  | nil => intro pos _ p hp; cases hp
  | cons q rest ih =>
      intro pos h p hp
      obtain ⟨o, b⟩ := q
      rw [contiguousPairs] at h
      obtain ⟨h1, h2⟩ := h
      rcases List.mem_cons.mp hp with rfl | hp
      · omega
      · have := ih h2 p hp
        omega

theorem contiguousPairs_pairwise : ∀ {pairs : List (Nat × List Char)} {pos : Nat},
    contiguousPairs pairs pos → (∀ p ∈ pairs, 0 < p.2.length) →
    List.Pairwise (fun a b : Nat × List Char => a.1 < b.1) pairs := by
  intro pairs
  induction pairs with
  | nil => intro pos _ _; exact List.Pairwise.nil
  | cons q rest ih =>
      intro pos h hlen
      obtain ⟨o, b⟩ := q
      rw [contiguousPairs] at h
      obtain ⟨h1, h2⟩ := h
      refine List.pairwise_cons.mpr ⟨?_, ih h2 (fun p hp => hlen p (List.mem_cons_of_mem _ hp))⟩
      intro p hp
      have hge := contiguousPairs_ge h2 p hp
      have hb := hlen (o, b) (List.mem_cons_self _ _)
      simp only at hb
      omega

theorem insertByOffset_le_head {x : DynItem} : ∀ {l : List DynItem},
    (∀ y ∈ l, ¬ y.offset < x.offset) → insertByOffset x l = x :: l := by
  intro l h
  cases l with
  | nil => rfl
  | cons y ys => rw [insertByOffset, if_neg (h y (List.mem_cons_self _ _))]

theorem sortByOffset_sorted_id : ∀ {l : List DynItem},
    List.Pairwise (fun a b => a.offset ≤ b.offset) l → sortByOffset l = l := by
  intro l
  induction l with
  | nil => intro _; rfl
  | cons x xs ih =>
      intro h
      have hp := List.pairwise_cons.mp h
      rw [sortByOffset, ih hp.2]
      apply insertByOffset_le_head
      intro y hy
      have := hp.1 y hy
      omega

/-- Per-item encoder guarantees, with the fuel of the recorded encoding run
bounded by `g` (so the round-trip induction can descend into it). -/
def itemOkB (g : Nat) : TypeNode × ValueNode → Bool × List Char → Prop := fun tv it =>
  it.1 = isDynamicT tv.1 ∧
    (if isDynamicT tv.1 then
      (∃ g' ≤ g, encodeTailF g' tv.1 tv.2 = some it.2) ∧
        it.2.length % 64 = 0 ∧ 64 ≤ it.2.length
    else
      (∃ g' ≤ g, encodeStaticF g' tv.1 tv.2 = some it.2) ∧
        it.2.length = staticSizeT tv.1)

/-- What tail parsing needs about one recorded dynamic item and its
offset/block pair, with fuel-bounded encoder evidence. -/
def dynReadyB (g : Nat) (d : DynItem) (ob : Nat × List Char) : Prop :=
  d.offset = ob.1 ∧ ob.2.length % 64 = 0 ∧ 64 ≤ ob.2.length ∧
    ∃ t v, paramMatches d.param t ∧ goodT t = true ∧ isDynamicT t = true ∧
      ∃ g' ≤ g, encodeTailF g' t v = some ob.2

theorem itemOkB_mono {g g₂ : Nat} (hle : g ≤ g₂) {tv : TypeNode × ValueNode}
    {it : Bool × List Char} (h : itemOkB g tv it) : itemOkB g₂ tv it := by
  obtain ⟨h1, h2⟩ := h
  refine ⟨h1, ?_⟩
  by_cases hd : isDynamicT tv.1 = true
  · rw [if_pos hd] at h2 ⊢
    obtain ⟨⟨g', hg', he⟩, hm, hl⟩ := h2
    exact ⟨⟨g', le_trans hg' hle, he⟩, hm, hl⟩
  · rw [if_neg hd] at h2 ⊢
    obtain ⟨⟨g', hg', he⟩, hl⟩ := h2
    exact ⟨⟨g', le_trans hg' hle, he⟩, hl⟩

theorem forall2_dynReady_pairwise {g : Nat} :
    ∀ {L : List DynItem} {pairs : List (Nat × List Char)},
    List.Forall₂ (dynReadyB g) L pairs →
    List.Pairwise (fun a b : Nat × List Char => a.1 < b.1) pairs →
    List.Pairwise (fun a b : DynItem => a.offset ≤ b.offset) L := by
  intro L pairs hf
  induction hf with
  | nil => intro _; exact List.Pairwise.nil
  | cons hr hrest ih =>
      intro hp
      have hp' := List.pairwise_cons.mp hp
      refine List.pairwise_cons.mpr ⟨?_, ih hp'.2⟩
      intro y hy
      obtain ⟨b, hb, hrb⟩ := forall2_mem_left hrest hy
      have h1 := hr.1
      have h2 := hrb.1
      have := hp'.1 b hb
      omega

theorem partsHexF_nil_eq (f : Nat) : partsHexF (f + 1) [] = some [] := rfl

theorem partsHexF_cons_none_eq (f : Nat) (n t v : List Char) (d : Option (List Char))
    (ps : List CalldataPart) :
    partsHexF (f + 1) (CalldataPart.mk n t v d none :: ps)
      = (partsHexF f ps).bind (fun rest => some (v ++ rest)) := rfl

theorem partsHexF_cons_some_eq (f : Nat) (n t v : List Char) (d : Option (List Char))
    (cs ps : List CalldataPart) :
    partsHexF (f + 1) (CalldataPart.mk n t v d (some cs) :: ps)
      = (partsHexF f cs).bind
          (fun hv => (partsHexF f ps).bind (fun rest => some (hv ++ rest))) := rfl

theorem partsHexF_mono : ∀ (f : Nat) (ps : List CalldataPart) (r : List Char),
    partsHexF f ps = some r → partsHexF (f + 1) ps = some r := by
  intro f
  induction f with
  | zero => intro ps r h; rw [partsHexF] at h; cases h
  | succ f ih =>
      intro ps r h
      cases ps with
      | nil => rw [partsHexF_nil_eq] at h ⊢; exact h
      | cons p rest =>
          obtain ⟨n, t, v, d, c⟩ := p
          cases c with
          | none =>
              rw [partsHexF_cons_none_eq] at h ⊢
              cases hrest : partsHexF f rest with
              | none => rw [hrest] at h; cases h
              | some rs =>
                  rw [hrest] at h
                  rw [ih _ _ hrest]
                  exact h
          | some cs =>
              rw [partsHexF_cons_some_eq] at h ⊢
              cases hcs : partsHexF f cs with
              | none => rw [hcs] at h; cases h
              | some hv =>
                  rw [hcs] at h
                  cases hrest : partsHexF f rest with
                  | none => rw [hrest] at h; cases h
                  | some rs =>
                      rw [hrest] at h
                      rw [ih _ _ hcs, ih _ _ hrest]
                      exact h

theorem partsHexF_le {f f' : Nat} (hle : f ≤ f') {ps : List CalldataPart} {r : List Char}
    (h : partsHexF f ps = some r) : partsHexF f' ps = some r := by
  induction hle with
  | refl => exact h
  | step _ ih2 => exact partsHexF_mono _ _ _ ih2

theorem parseDynamicDataF_none_eq (f : Nat) (ty : List Char) (nm : Option (List Char))
    (d : List Char) :
    parseDynamicDataF (f + 1) (AbiParam.mk ty nm none) d
      = if endsWithCl ty ("[]".data) then
          some (CalldataPart.mk ("length".data) ("uint256".data) (jsSubstring d 0 64)
              (some (decRepr (parseIntHex (jsSubstring d 0 64)))) none ::
            (List.range (parseIntHex (jsSubstring d 0 64))).map (fun i =>
              CalldataPart.mk ('[' :: (decRepr i ++ [']'])) (ty.take (ty.length - 2))
                (padTo32Bytes (jsSubstring (d.drop 64) (64 * i) (64 * i + 64))
                  (ty.take (ty.length - 2))) none none))
        else if ty == ("string".data) || ty == ("bytes".data) then
          some [CalldataPart.mk ("length".data) ("uint256".data) (jsSubstring d 0 64)
                  (some (decRepr (parseIntHex (jsSubstring d 0 64)))) none,
                CalldataPart.mk ("value".data)
                  (if ty == ("string".data) then "utf8".data else "hex".data)
                  (padEndToWord (jsSubstring d 64 (64 + parseIntHex (jsSubstring d 0 64) * 2)))
                  (some (("Original data: 0x".data)
                    ++ jsSubstring d 64 (64 + parseIntHex (jsSubstring d 0 64) * 2))) none]
        else
          some [CalldataPart.mk ("data".data) ("bytes".data) d
                  (some ("Raw dynamic data".data)) none] := rfl

theorem parseDynamicDataF_some_eq (f : Nat) (ty : List Char) (nm : Option (List Char))
    (cs : List AbiParam) (d : List Char) :
    parseDynamicDataF (f + 1) (AbiParam.mk ty nm (some cs)) d
      = if endsWithCl ty ("[]".data) then
          some (CalldataPart.mk ("length".data) ("uint256".data) (jsSubstring d 0 64)
              (some (decRepr (parseIntHex (jsSubstring d 0 64)))) none ::
            (List.range (parseIntHex (jsSubstring d 0 64))).map (fun i =>
              CalldataPart.mk ('[' :: (decRepr i ++ [']'])) (ty.take (ty.length - 2))
                (padTo32Bytes (jsSubstring (d.drop 64) (64 * i) (64 * i + 64))
                  (ty.take (ty.length - 2))) none none))
        else if ty == ("string".data) || ty == ("bytes".data) then
          some [CalldataPart.mk ("length".data) ("uint256".data) (jsSubstring d 0 64)
                  (some (decRepr (parseIntHex (jsSubstring d 0 64)))) none,
                CalldataPart.mk ("value".data)
                  (if ty == ("string".data) then "utf8".data else "hex".data)
                  (padEndToWord (jsSubstring d 64 (64 + parseIntHex (jsSubstring d 0 64) * 2)))
                  (some (("Original data: 0x".data)
                    ++ jsSubstring d 64 (64 + parseIntHex (jsSubstring d 0 64) * 2))) none]
        else
          (buildFlatBreakdownF f cs d).bind
            (fun nested => some (nested.1 ++ nested.2)) := rfl

theorem headPassF_nil_eq (f : Nat) (hex : List Char) (c i : Nat) :
    headPassF (f + 1) [] hex c i = some [] := rfl

theorem headPassF_cons_none_eq (f : Nat) (ty : List Char) (nm : Option (List Char))
    (ps : List AbiParam) (hex : List Char) (c i : Nat) :
    headPassF (f + 1) (AbiParam.mk ty nm none :: ps) hex c i
      = if isDynamicP (AbiParam.mk ty nm none) then
          (headPassF f ps hex (c + 64) (i + 1)).bind (fun rest =>
            some (CalldataPart.mk
                (paramNameOf (AbiParam.mk ty nm none) i ++ (" (".data) ++ (ty ++ [')']))
                ("bytes32".data) (jsSubstring hex c (c + 64))
                (some (("Offset to data at byte ".data)
                  ++ decRepr (parseIntHex (jsSubstring hex c (c + 64))))) none :: rest))
        else
          (headPassF f ps hex (c + 64) (i + 1)).bind (fun rest =>
            some (simpleStaticPart (paramNameOf (AbiParam.mk ty nm none) i) ty
              (jsSubstring hex c (c + 64)) :: rest)) := rfl

theorem headPassF_cons_some_eq (f : Nat) (ty : List Char) (nm : Option (List Char))
    (cs : List AbiParam) (ps : List AbiParam) (hex : List Char) (c i : Nat) :
    headPassF (f + 1) (AbiParam.mk ty nm (some cs) :: ps) hex c i
      = if isDynamicP (AbiParam.mk ty nm (some cs)) then
          (headPassF f ps hex (c + 64) (i + 1)).bind (fun rest =>
            some (CalldataPart.mk
                (paramNameOf (AbiParam.mk ty nm (some cs)) i ++ (" (".data) ++ (ty ++ [')']))
                ("bytes32".data) (jsSubstring hex c (c + 64))
                (some (("Offset to data at byte ".data)
                  ++ decRepr (parseIntHex (jsSubstring hex c (c + 64))))) none :: rest))
        else if ty == ("tuple".data) then
          (buildFlatBreakdownF f cs (jsSubstring hex c (c + cs.length * 64))).bind
            (fun nested => (headPassF f ps hex (c + cs.length * 64) (i + 1)).bind (fun rest =>
              some (CalldataPart.mk
                  (paramNameOf (AbiParam.mk ty nm (some cs)) i ++ (" (".data) ++ (ty ++ [')']))
                  ("tuple".data) (jsSubstring hex c (c + cs.length * 64)) none
                  (some (nested.1 ++ nested.2)) :: rest)))
        else
          (headPassF f ps hex (c + 64) (i + 1)).bind (fun rest =>
            some (simpleStaticPart (paramNameOf (AbiParam.mk ty nm (some cs)) i) ty
              (jsSubstring hex c (c + 64)) :: rest)) := rfl

theorem tailPassF_nil_eq (f : Nat) (hex : List Char) :
    tailPassF (f + 1) [] hex = some [] := rfl

theorem tailPassF_cons_eq (f : Nat) (it : DynItem) (s e : Nat)
    (rest : List (DynItem × Nat × Nat)) (hex : List Char) :
    tailPassF (f + 1) ((it, s, e) :: rest) hex
      = (parseDynamicDataF f it.param (jsSubstring hex s e)).bind (fun comps =>
          (tailPassF f rest hex).bind (fun restParts =>
            some (CalldataPart.mk (("Tail for ".data) ++ it.dname) it.param.ty
              ("(see components)".data)
              (some (("Data located at byte ".data) ++ decRepr it.offset))
              (some comps) :: restParts))) := rfl

theorem buildFlatBreakdownF_succ_eq (f : Nat) (ps : List AbiParam) (hex : List Char) :
    buildFlatBreakdownF (f + 1) ps hex
      = (headPassF f ps hex 0 0).bind (fun headParts =>
          (tailPassF f (windowBounds (sortByOffset (collectDynItems ps hex 0 0)) hex.length)
              hex).bind (fun tailParts =>
            some (headParts, tailParts))) := rfl

theorem decomposer_mono : ∀ F : Nat,
    (∀ p d r, parseDynamicDataF F p d = some r → parseDynamicDataF (F + 1) p d = some r) ∧
    (∀ ps hex c i r, headPassF F ps hex c i = some r → headPassF (F + 1) ps hex c i = some r) ∧
    (∀ bs hex r, tailPassF F bs hex = some r → tailPassF (F + 1) bs hex = some r) ∧
    (∀ ps hex r, buildFlatBreakdownF F ps hex = some r →
      buildFlatBreakdownF (F + 1) ps hex = some r) := by
  intro F
  induction F with
  | zero =>
      refine ⟨?_, ?_, ?_, ?_⟩
      · intro p d r h; rw [parseDynamicDataF] at h; cases h
      · intro ps hex c i r h; rw [headPassF] at h; cases h
      · intro bs hex r h; rw [tailPassF] at h; cases h
      · intro ps hex r h; rw [buildFlatBreakdownF] at h; cases h
  | succ F ih =>
      obtain ⟨ihp, ihh, iht, ihb⟩ := ih
      refine ⟨?_, ?_, ?_, ?_⟩
      · intro p d r h
        obtain ⟨ty, nm, comps⟩ := p
        cases comps with
        | none => rw [parseDynamicDataF_none_eq] at h ⊢; exact h
        | some cs =>
            rw [parseDynamicDataF_some_eq] at h ⊢
            by_cases h1 : endsWithCl ty ("[]".data) = true
            · rw [if_pos h1] at h ⊢; exact h
            · rw [if_neg h1] at h ⊢
              by_cases h2 : (ty == ("string".data) || ty == ("bytes".data)) = true
              · rw [if_pos h2] at h ⊢; exact h
              · rw [if_neg h2] at h ⊢
                cases hb : buildFlatBreakdownF F cs d with
                | none => rw [hb] at h; cases h
                | some nested =>
                    rw [hb] at h
                    rw [ihb _ _ _ hb]
                    exact h
      · intro ps hex c i r h
        cases ps with
        | nil => rw [headPassF_nil_eq] at h ⊢; exact h
        | cons p rest =>
            obtain ⟨ty, nm, comps⟩ := p
            cases comps with
            | none =>
                rw [headPassF_cons_none_eq] at h ⊢
                by_cases h1 : isDynamicP (AbiParam.mk ty nm none) = true
                · rw [if_pos h1] at h ⊢
                  cases hr : headPassF F rest hex (c + 64) (i + 1) with
                  | none => rw [hr] at h; cases h
                  | some rs => rw [hr] at h; rw [ihh _ _ _ _ _ hr]; exact h
                · rw [if_neg h1] at h ⊢
                  cases hr : headPassF F rest hex (c + 64) (i + 1) with
                  | none => rw [hr] at h; cases h
                  | some rs => rw [hr] at h; rw [ihh _ _ _ _ _ hr]; exact h
            | some cs =>
                rw [headPassF_cons_some_eq] at h ⊢
                by_cases h1 : isDynamicP (AbiParam.mk ty nm (some cs)) = true
                · rw [if_pos h1] at h ⊢
                  cases hr : headPassF F rest hex (c + 64) (i + 1) with
                  | none => rw [hr] at h; cases h
                  | some rs => rw [hr] at h; rw [ihh _ _ _ _ _ hr]; exact h
                · rw [if_neg h1] at h ⊢
                  by_cases h2 : (ty == ("tuple".data)) = true
                  · rw [if_pos h2] at h ⊢
                    cases hb : buildFlatBreakdownF F cs
                        (jsSubstring hex c (c + cs.length * 64)) with
                    | none => rw [hb] at h; cases h
                    | some nested =>
                        rw [hb] at h
                        rw [ihb _ _ _ hb]
                        cases hr : headPassF F rest hex (c + cs.length * 64) (i + 1) with
                        | none => rw [hr] at h; cases h
                        | some rs => rw [hr] at h; rw [ihh _ _ _ _ _ hr]; exact h
                  · rw [if_neg h2] at h ⊢
                    cases hr : headPassF F rest hex (c + 64) (i + 1) with
                    | none => rw [hr] at h; cases h
                    | some rs => rw [hr] at h; rw [ihh _ _ _ _ _ hr]; exact h
      · intro bs hex r h
        cases bs with
        | nil => rw [tailPassF_nil_eq] at h ⊢; exact h
        | cons w rest =>
            obtain ⟨it, s, e⟩ := w
            rw [tailPassF_cons_eq] at h ⊢
            cases hp : parseDynamicDataF F it.param (jsSubstring hex s e) with
            | none => rw [hp] at h; cases h
            | some comps =>
                rw [hp] at h
                rw [ihp _ _ _ hp]
                cases hr : tailPassF F rest hex with
                | none => rw [hr] at h; cases h
                | some rs => rw [hr] at h; rw [iht _ _ _ hr]; exact h
      · intro ps hex r h
        rw [buildFlatBreakdownF_succ_eq] at h ⊢
        cases hh : headPassF F ps hex 0 0 with
        | none => rw [hh] at h; cases h
        | some hp =>
            rw [hh] at h
            rw [ihh _ _ _ _ _ hh]
            cases ht : tailPassF F
                (windowBounds (sortByOffset (collectDynItems ps hex 0 0)) hex.length) hex with
            | none => rw [ht] at h; cases h
            | some tp =>
                rw [ht] at h
                rw [iht _ _ _ ht]
                exact h

theorem parseDynamicDataF_le {f f' : Nat} (hle : f ≤ f') {p : AbiParam} {d : List Char}
    {r : List CalldataPart} (h : parseDynamicDataF f p d = some r) :
    parseDynamicDataF f' p d = some r := by
  induction hle with
  | refl => exact h
  | step _ ih => exact (decomposer_mono _).1 _ _ _ ih

theorem headPassF_le {f f' : Nat} (hle : f ≤ f') {ps : List AbiParam} {hex : List Char}
    {c i : Nat} {r : List CalldataPart} (h : headPassF f ps hex c i = some r) :
    headPassF f' ps hex c i = some r := by
  induction hle with
  | refl => exact h
  | step _ ih => exact (decomposer_mono _).2.1 _ _ _ _ _ ih

theorem tailPassF_le {f f' : Nat} (hle : f ≤ f') {bs : List (DynItem × Nat × Nat)}
    {hex : List Char} {r : List CalldataPart} (h : tailPassF f bs hex = some r) :
    tailPassF f' bs hex = some r := by
  induction hle with
  | refl => exact h
  | step _ ih => exact (decomposer_mono _).2.2.1 _ _ _ ih

theorem buildFlatBreakdownF_le {f f' : Nat} (hle : f ≤ f') {ps : List AbiParam}
    {hex : List Char} {r : List CalldataPart × List CalldataPart}
    (h : buildFlatBreakdownF f ps hex = some r) : buildFlatBreakdownF f' ps hex = some r := by
  induction hle with
  | refl => exact h
  | step _ ih => exact (decomposer_mono _).2.2.2 _ _ _ ih

theorem partsHexF_append : ∀ {xs : List CalldataPart} {f : Nat} {a : List Char}
    {ys : List CalldataPart} {fy : Nat} {b : List Char},
    partsHexF f xs = some a → partsHexF fy ys = some b →
    ∃ f', partsHexF f' (xs ++ ys) = some (a ++ b) := by
  intro xs
  induction xs with
  | nil =>
      intro f a ys fy b ha hb
      cases f with
      | zero => rw [partsHexF] at ha; cases ha
      | succ f =>
          rw [partsHexF] at ha
          have haa : a = [] := (Option.some.inj ha).symm
          subst haa
          exact ⟨fy, by simpa using hb⟩
  | cons p rest ih =>
      intro f a ys fy b ha hb
      cases f with
      | zero => rw [partsHexF] at ha; cases ha
      | succ f =>
          obtain ⟨n, t, v, d, c⟩ := p
          cases c with
          | none =>
              rw [partsHexF_cons_none_eq] at ha
              cases hr : partsHexF f rest with
              | none => rw [hr] at ha; cases ha
              | some ra =>
                  rw [hr] at ha
                  have haa : a = v ++ ra := (Option.some.inj ha).symm
                  subst haa
                  obtain ⟨f', hf'⟩ := ih hr hb
                  refine ⟨f' + 1, ?_⟩
                  rw [List.cons_append, partsHexF_cons_none_eq, hf']
                  simp [List.append_assoc]
          | some cs =>
              rw [partsHexF_cons_some_eq] at ha
              cases hcs : partsHexF f cs with
              | none => rw [hcs] at ha; cases ha
              | some hv =>
                  rw [hcs] at ha
                  cases hr : partsHexF f rest with
                  | none => rw [hr] at ha; cases ha
                  | some ra =>
                      rw [hr] at ha
                      have haa : a = hv ++ ra := (Option.some.inj ha).symm
                      subst haa
                      obtain ⟨f', hf'⟩ := ih hr hb
                      refine ⟨max f f' + 1, ?_⟩
                      rw [List.cons_append, partsHexF_cons_some_eq,
                        partsHexF_le (le_max_left f f') hcs,
                        partsHexF_le (le_max_right f f') hf']
                      simp [List.append_assoc]

theorem encodeStaticF_record_eq (f : Nat) (fs : List (List Char × TypeNode))
    (vs : List ValueNode) :
    encodeStaticF (f + 1) (TypeNode.recordT fs) (ValueNode.listV vs)
      = if fs.length = vs.length then
          encodeParamsF f (List.zip (fs.map Prod.snd) vs)
        else none := rfl

theorem encodeTailF_text_eq (f : Nat) (bs : List Nat) :
    encodeTailF (f + 1) TypeNode.textT (ValueNode.bytesV bs)
      = if bs.all (· < 256) then
          some (natToHex bs.length 64 ++ padEndToWord (bytesToHex bs))
        else none := rfl

theorem encodeTailF_bytes_eq (f : Nat) (bs : List Nat) :
    encodeTailF (f + 1) TypeNode.dynBytesT (ValueNode.bytesV bs)
      = if bs.all (· < 256) then
          some (natToHex bs.length 64 ++ padEndToWord (bytesToHex bs))
        else none := rfl

theorem encodeTailF_array_eq (f : Nat) (e : TypeNode) (vs : List ValueNode) :
    encodeTailF (f + 1) (TypeNode.arrayT e) (ValueNode.listV vs)
      = (encodeParamsF f (vs.map (fun v => (e, v)))).bind
          (fun body => some (natToHex vs.length 64 ++ body)) := rfl

theorem encodeTailF_record_eq (f : Nat) (fs : List (List Char × TypeNode))
    (vs : List ValueNode) :
    encodeTailF (f + 1) (TypeNode.recordT fs) (ValueNode.listV vs)
      = if fs.length = vs.length then
          encodeParamsF f (List.zip (fs.map Prod.snd) vs)
        else none := rfl

theorem encodeItemsF_nil_eq (f : Nat) : encodeItemsF (f + 1) [] = some [] := rfl

theorem encodeItemsF_cons_eq (f : Nat) (t : TypeNode) (v : ValueNode)
    (rest : List (TypeNode × ValueNode)) :
    encodeItemsF (f + 1) ((t, v) :: rest)
      = (if isDynamicT t then (encodeTailF f t v).map (fun b => (true, b))
         else (encodeStaticF f t v).map (fun hx => (false, hx))).bind
          (fun item => (encodeItemsF f rest).bind
            (fun restItems => some (item :: restItems))) := by
  simp only [encodeItemsF]
  split <;> rfl

theorem encodeParamsF_succ_eq (f : Nat) (tvs : List (TypeNode × ValueNode)) :
    encodeParamsF (f + 1) tvs = (encodeItemsF f tvs).map assemble := rfl

theorem allSingle_zip {fs : List (List Char × TypeNode)} (h : allSingleWordFields fs = true) :
    ∀ (vs : List ValueNode), ∀ tv ∈ List.zip (fs.map Prod.snd) vs,
      isSingleWordT tv.1 = true := by
  induction fs with
  | nil => intro vs tv htv; simp at htv
  | cons f rest ih =>
      intro vs tv htv
      obtain ⟨n, t⟩ := f
      simp only [allSingleWordFields, List.all_cons, Bool.and_eq_true] at h
      cases vs with
      | nil => simp at htv
      | cons v vrest =>
          simp only [List.map_cons, List.zip_cons_cons] at htv
          rcases List.mem_cons.mp htv with rfl | htv
          · exact h.1
          · exact ih h.2 vrest tv htv

theorem goodTVs_map_const {e : TypeNode} (h : goodT e = true) (vs : List ValueNode) :
    goodTVs (vs.map (fun v => (e, v))) = true := by
  simp [goodTVs, List.all_map, h]

theorem staticSizeT_mod (t : TypeNode) : staticSizeT t % 64 = 0 := by
  cases t <;> simp [staticSizeT]

theorem staticSizeT_record (fs : List (List Char × TypeNode)) :
    staticSizeT (TypeNode.recordT fs) = 64 * fs.length := rfl

theorem zip_length_eq {α β : Type} {as : List α} {bs : List β} (h : as.length = bs.length) :
    (List.zip as bs).length = as.length := by
  rw [List.length_zip, h, min_self]

theorem enc_facts : ∀ F : Nat,
    (∀ t v out, goodT t = true → isDynamicT t = false → encodeStaticF F t v = some out →
      out.length = staticSizeT t) ∧
    (∀ t v out, goodT t = true → isDynamicT t = true → encodeTailF F t v = some out →
      out.length % 64 = 0 ∧ 64 ≤ out.length) ∧
    (∀ tvs items, goodTVs tvs = true → encodeItemsF F tvs = some items →
      List.Forall₂ (itemOkB F) tvs items) := by
  intro F
  induction F using Nat.strong_induction_on with
  | _ F ih =>
  cases F with
  | zero =>
      refine ⟨?_, ?_, ?_⟩
      · intro t v out _ _ h; rw [encodeStaticF] at h; cases h
      · intro t v out _ _ h; rw [encodeTailF] at h; cases h
      · intro tvs items _ h; rw [encodeItemsF] at h; cases h
  | succ F =>
      refine ⟨?_, ?_, ?_⟩
      · intro t v out hg hd h
        cases t with
        | uintT bits =>
            rw [encodeStaticF_singleWord (t := .uintT bits) rfl] at h
            rw [scalarWord_length h]
            rfl
        | intT bits =>
            rw [encodeStaticF_singleWord (t := .intT bits) rfl] at h
            rw [scalarWord_length h]
            rfl
        | boolT =>
            rw [encodeStaticF_singleWord (t := .boolT) rfl] at h
            rw [scalarWord_length h]
            rfl
        | addressT =>
            rw [encodeStaticF_singleWord (t := .addressT) rfl] at h
            rw [scalarWord_length h]
            rfl
        | fixedBytesT n =>
            rw [encodeStaticF_singleWord (t := .fixedBytesT n) rfl] at h
            rw [scalarWord_length h]
            rfl
        | dynBytesT =>
            rw [show isDynamicT TypeNode.dynBytesT = true from rfl] at hd
            cases hd
        | textT =>
            rw [show isDynamicT TypeNode.textT = true from rfl] at hd
            cases hd
        | arrayT e =>
            rw [show isDynamicT (TypeNode.arrayT e) = true from rfl] at hd
            cases hd
        | recordT fs =>
            rw [isDynamicT] at hd
            rw [goodT, Bool.and_eq_true] at hg
            obtain ⟨hgf, hor⟩ := hg
            have hsw : allSingleWordFields fs = true := by
              rw [Bool.or_eq_true] at hor
              rcases hor with h1 | h2
              · rw [hd] at h1; cases h1
              · exact h2
            cases v with
            | numV x =>
                rw [show encodeStaticF (F + 1) (TypeNode.recordT fs) (ValueNode.numV x)
                    = none from rfl] at h
                cases h
            | boolV b =>
                rw [show encodeStaticF (F + 1) (TypeNode.recordT fs) (ValueNode.boolV b)
                    = none from rfl] at h
                cases h
            | bytesV bs =>
                rw [show encodeStaticF (F + 1) (TypeNode.recordT fs) (ValueNode.bytesV bs)
                    = none from rfl] at h
                cases h
            | listV vs =>
                rw [encodeStaticF_record_eq] at h
                by_cases hlen : fs.length = vs.length
                · rw [if_pos hlen] at h
                  cases F with
                  | zero => rw [encodeParamsF] at h; cases h
                  | succ F2 =>
                      rw [encodeParamsF_succ_eq] at h
                      cases hi : encodeItemsF F2 (List.zip (fs.map Prod.snd) vs) with
                      | none => rw [hi] at h; cases h
                      | some items =>
                          rw [hi] at h
                          have hout : out = assemble items := by
                            have := Option.some.inj h
                            exact this.symm
                          have hzg : goodTVs (List.zip (fs.map Prod.snd) vs) = true :=
                            goodFields_zip vs hgf
                          have hfa := (ih F2 (by omega)).2.2 _ _ hzg hi
                          have hsingle : ∀ tv ∈ List.zip (fs.map Prod.snd) vs,
                              isSingleWordT tv.1 = true := allSingle_zip hsw vs
                          have hstat : ∀ it ∈ items, it.1 = false := by
                            intro it hit
                            obtain ⟨tv, htv, hok⟩ := forall2_mem_right hfa hit
                            have hnd := isSingleWordT_not_dynamic (hsingle tv htv)
                            rw [hok.1, hnd]
                          have hw64 : ∀ w ∈ items.map Prod.snd, w.length = 64 := by
                            intro w hw
                            obtain ⟨it, hit, rfl⟩ := List.mem_map.mp hw
                            obtain ⟨tv, htv, hok⟩ := forall2_mem_right hfa hit
                            have hnd := isSingleWordT_not_dynamic (hsingle tv htv)
                            have h2 := hok.2
                            rw [if_neg (by simp [hnd])] at h2
                            exact h2.2.trans (isSingleWordT_staticSize (hsingle tv htv))
                          rw [hout, assemble_all_static hstat, flatten_length_64 hw64,
                            List.length_map, ← List.Forall₂.length_eq hfa,
                            zip_length_eq (by rw [List.length_map]; exact hlen),
                            List.length_map, staticSizeT_record]
                · rw [if_neg hlen] at h; cases h
      · intro t v out hg hd h
        cases t with
        | uintT bits =>
            rw [show isDynamicT (TypeNode.uintT bits) = false from rfl] at hd
            cases hd
        | intT bits =>
            rw [show isDynamicT (TypeNode.intT bits) = false from rfl] at hd
            cases hd
        | boolT =>
            rw [show isDynamicT TypeNode.boolT = false from rfl] at hd
            cases hd
        | addressT =>
            rw [show isDynamicT TypeNode.addressT = false from rfl] at hd
            cases hd
        | fixedBytesT n =>
            rw [show isDynamicT (TypeNode.fixedBytesT n) = false from rfl] at hd
            cases hd
        | textT =>
            cases v with
            | numV x =>
                rw [show encodeTailF (F + 1) TypeNode.textT (ValueNode.numV x)
                    = none from rfl] at h
                cases h
            | boolV b =>
                rw [show encodeTailF (F + 1) TypeNode.textT (ValueNode.boolV b)
                    = none from rfl] at h
                cases h
            | listV vs =>
                rw [show encodeTailF (F + 1) TypeNode.textT (ValueNode.listV vs)
                    = none from rfl] at h
                cases h
            | bytesV bs =>
                rw [encodeTailF_text_eq] at h
                split at h
                · have hout : out = natToHex bs.length 64 ++ padEndToWord (bytesToHex bs) :=
                    (Option.some.inj h).symm
                  have hlen : out.length = 64 + (padEndToWord (bytesToHex bs)).length := by
                    rw [hout]
                    simp [natToHex_length]
                  have hm := padEndToWord_mod (bytesToHex bs)
                  exact ⟨by omega, by omega⟩
                · cases h
        | dynBytesT =>
            cases v with
            | numV x =>
                rw [show encodeTailF (F + 1) TypeNode.dynBytesT (ValueNode.numV x)
                    = none from rfl] at h
                cases h
            | boolV b =>
                rw [show encodeTailF (F + 1) TypeNode.dynBytesT (ValueNode.boolV b)
                    = none from rfl] at h
                cases h
            | listV vs =>
                rw [show encodeTailF (F + 1) TypeNode.dynBytesT (ValueNode.listV vs)
                    = none from rfl] at h
                cases h
            | bytesV bs =>
                rw [encodeTailF_bytes_eq] at h
                split at h
                · have hout : out = natToHex bs.length 64 ++ padEndToWord (bytesToHex bs) :=
                    (Option.some.inj h).symm
                  have hlen : out.length = 64 + (padEndToWord (bytesToHex bs)).length := by
                    rw [hout]
                    simp [natToHex_length]
                  have hm := padEndToWord_mod (bytesToHex bs)
                  exact ⟨by omega, by omega⟩
                · cases h
        | arrayT e =>
            rw [goodT] at hg
            cases v with
            | numV x =>
                rw [show encodeTailF (F + 1) (TypeNode.arrayT e) (ValueNode.numV x)
                    = none from rfl] at h
                cases h
            | boolV b =>
                rw [show encodeTailF (F + 1) (TypeNode.arrayT e) (ValueNode.boolV b)
                    = none from rfl] at h
                cases h
            | bytesV bs =>
                rw [show encodeTailF (F + 1) (TypeNode.arrayT e) (ValueNode.bytesV bs)
                    = none from rfl] at h
                cases h
            | listV vs =>
                rw [encodeTailF_array_eq] at h
                cases hb : encodeParamsF F (vs.map (fun v => (e, v))) with
                | none => rw [hb] at h; cases h
                | some body =>
                    rw [hb] at h
                    have hout : out = natToHex vs.length 64 ++ body := (Option.some.inj h).symm
                    cases F with
                    | zero => rw [encodeParamsF] at hb; cases hb
                    | succ F2 =>
                        rw [encodeParamsF_succ_eq] at hb
                        cases hi : encodeItemsF F2 (vs.map (fun v => (e, v))) with
                        | none => rw [hi] at hb; cases hb
                        | some items =>
                            rw [hi] at hb
                            have hbody : body = assemble items := (Option.some.inj hb).symm
                            have hzg := goodTVs_map_const (isSingleWordT_goodT hg) vs
                            have hfa := (ih F2 (by omega)).2.2 _ _ hzg hi
                            have hsingle : ∀ tv ∈ vs.map (fun v => (e, v)),
                                isSingleWordT tv.1 = true := by
                              intro tv htv
                              obtain ⟨v0, hv0, rfl⟩ := List.mem_map.mp htv
                              exact hg
                            have hstat : ∀ it ∈ items, it.1 = false := by
                              intro it hit
                              obtain ⟨tv, htv, hok⟩ := forall2_mem_right hfa hit
                              have hnd := isSingleWordT_not_dynamic (hsingle tv htv)
                              rw [hok.1, hnd]
                            have hw64 : ∀ w ∈ items.map Prod.snd, w.length = 64 := by
                              intro w hw
                              obtain ⟨it, hit, rfl⟩ := List.mem_map.mp hw
                              obtain ⟨tv, htv, hok⟩ := forall2_mem_right hfa hit
                              have hnd := isSingleWordT_not_dynamic (hsingle tv htv)
                              have h2 := hok.2
                              rw [if_neg (by simp [hnd])] at h2
                              exact h2.2.trans (isSingleWordT_staticSize (hsingle tv htv))
                            have hbl : body.length = 64 * items.length := by
                              rw [hbody, assemble_all_static hstat, flatten_length_64 hw64,
                                List.length_map]
                            have hol : out.length = 64 + body.length := by
                              rw [hout]
                              simp [natToHex_length]
                            exact ⟨by omega, by omega⟩
        | recordT fs =>
            rw [isDynamicT] at hd
            rw [goodT, Bool.and_eq_true] at hg
            obtain ⟨hgf, _⟩ := hg
            cases v with
            | numV x =>
                rw [show encodeTailF (F + 1) (TypeNode.recordT fs) (ValueNode.numV x)
                    = none from rfl] at h
                cases h
            | boolV b =>
                rw [show encodeTailF (F + 1) (TypeNode.recordT fs) (ValueNode.boolV b)
                    = none from rfl] at h
                cases h
            | bytesV bs =>
                rw [show encodeTailF (F + 1) (TypeNode.recordT fs) (ValueNode.bytesV bs)
                    = none from rfl] at h
                cases h
            | listV vs =>
                rw [encodeTailF_record_eq] at h
                by_cases hlen : fs.length = vs.length
                · rw [if_pos hlen] at h
                  cases F with
                  | zero => rw [encodeParamsF] at h; cases h
                  | succ F2 =>
                      rw [encodeParamsF_succ_eq] at h
                      cases hi : encodeItemsF F2 (List.zip (fs.map Prod.snd) vs) with
                      | none => rw [hi] at h; cases h
                      | some items =>
                          rw [hi] at h
                          have hout : out = assemble items := (Option.some.inj h).symm
                          have hzg : goodTVs (List.zip (fs.map Prod.snd) vs) = true :=
                            goodFields_zip vs hgf
                          have hfa := (ih F2 (by omega)).2.2 _ _ hzg hi
                          have hstat_mod : ∀ it ∈ items, it.1 = false →
                              it.2.length % 64 = 0 := by
                            intro it hit h1
                            obtain ⟨tv, htv, hok⟩ := forall2_mem_right hfa hit
                            have hd2 : isDynamicT tv.1 = false := by rw [← hok.1]; exact h1
                            have h2 := hok.2
                            rw [if_neg (by simp [hd2])] at h2
                            rw [h2.2]
                            exact staticSizeT_mod tv.1
                          have hdyn_mod : ∀ it ∈ items, it.1 = true →
                              it.2.length % 64 = 0 := by
                            intro it hit h1
                            obtain ⟨tv, htv, hok⟩ := forall2_mem_right hfa hit
                            have hd2 : isDynamicT tv.1 = true := by rw [← hok.1]; exact h1
                            have h2 := hok.2
                            rw [if_pos hd2] at h2
                            exact h2.2.1
                          have hhw := headWords_mod items (headBytesOf items) hstat_mod
                          have hbm := blocks_mod items hdyn_mod
                          obtain ⟨f0, hf0, hf0d⟩ := anyDynField_exists hd
                          have ht0 : f0.2 ∈ fs.map Prod.snd :=
                            List.mem_map_of_mem Prod.snd hf0
                          obtain ⟨v0, hv0⟩ := mem_zip_of_mem_left
                            (show (fs.map Prod.snd).length = vs.length from
                              by rw [List.length_map]; exact hlen) ht0
                          obtain ⟨it0, hit0, hok0⟩ := forall2_mem_left hfa hv0
                          have hit0d : it0.1 = true := by rw [hok0.1]; exact hf0d
                          have hge := headWords_ge_64 items (headBytesOf items)
                            ⟨it0, hit0, hit0d⟩
                          have hlen2 : out.length =
                              (headWordsList items (headBytesOf items)).flatten.length
                                + (blocksOf items).flatten.length := by
                            rw [hout, assemble_eq, List.length_append]
                          exact ⟨by omega, by omega⟩
                · rw [if_neg hlen] at h; cases h
      · intro tvs items hg h
        cases tvs with
        | nil =>
            rw [encodeItemsF_nil_eq] at h
            have hit : items = [] := (Option.some.inj h).symm
            subst hit
            exact List.Forall₂.nil
        | cons tv rest =>
            obtain ⟨t, v⟩ := tv
            rw [encodeItemsF_cons_eq] at h
            rw [goodTVs_cons, Bool.and_eq_true] at hg
            by_cases hd : isDynamicT t = true
            · rw [if_pos hd] at h
              cases he : encodeTailF F t v with
              | none => rw [he] at h; cases h
              | some b =>
                  rw [he] at h
                  cases hr : encodeItemsF F rest with
                  | none => rw [hr] at h; cases h
                  | some ritems =>
                      rw [hr] at h
                      have hit : items = (true, b) :: ritems := (Option.some.inj h).symm
                      subst hit
                      have hS2 := (ih F (by omega)).2.1 t v b hg.1 hd he
                      refine List.Forall₂.cons ⟨?_, ?_⟩ ?_
                      · exact hd.symm
                      · rw [if_pos hd]
                        exact ⟨⟨F, Nat.le_succ F, he⟩, hS2.1, hS2.2⟩
                      · have hrf := (ih F (by omega)).2.2 rest ritems hg.2 hr
                        exact List.Forall₂.imp
                          (fun a b hab => itemOkB_mono (Nat.le_succ F) hab) hrf
            · rw [if_neg hd] at h
              cases he : encodeStaticF F t v with
              | none => rw [he] at h; cases h
              | some w =>
                  rw [he] at h
                  cases hr : encodeItemsF F rest with
                  | none => rw [hr] at h; cases h
                  | some ritems =>
                      rw [hr] at h
                      have hit : items = (false, w) :: ritems := (Option.some.inj h).symm
                      subst hit
                      have hdf : isDynamicT t = false := Bool.eq_false_iff.mpr hd
                      have hS1 := (ih F (by omega)).1 t v w hg.1 hdf he
                      refine List.Forall₂.cons ⟨?_, ?_⟩ ?_
                      · exact hdf.symm
                      · rw [if_neg hd]
                        exact ⟨⟨F, Nat.le_succ F, he⟩, hS1⟩
                      · have hrf := (ih F (by omega)).2.2 rest ritems hg.2 hr
                        exact List.Forall₂.imp
                          (fun a b hab => itemOkB_mono (Nat.le_succ F) hab) hrf

theorem isSingleWordT_components {t : TypeNode} (h : isSingleWordT t = true) :
    componentsOf t = none := by
  cases t <;> first | rfl | simp [isSingleWordT] at h

theorem headPassF_cons_dyn (f : Nat) (ty : List Char) (nm : Option (List Char))
    (comps : Option (List AbiParam)) (ps : List AbiParam) (hex : List Char) (c i : Nat)
    (hdyn : isDynamicP (AbiParam.mk ty nm comps) = true) :
    headPassF (f + 1) (AbiParam.mk ty nm comps :: ps) hex c i
      = (headPassF f ps hex (c + 64) (i + 1)).bind (fun rest =>
          some (CalldataPart.mk
              (paramNameOf (AbiParam.mk ty nm comps) i ++ (" (".data) ++ (ty ++ [')']))
              ("bytes32".data) (jsSubstring hex c (c + 64))
              (some (("Offset to data at byte ".data)
                ++ decRepr (parseIntHex (jsSubstring hex c (c + 64))))) none :: rest)) := by
  cases comps with
  | none => rw [headPassF_cons_none_eq, if_pos hdyn]
  | some cs => rw [headPassF_cons_some_eq, if_pos hdyn]

theorem headPassF_cons_static_none (f : Nat) (ty : List Char) (nm : Option (List Char))
    (ps : List AbiParam) (hex : List Char) (c i : Nat)
    (hdyn : ¬ isDynamicP (AbiParam.mk ty nm none) = true) :
    headPassF (f + 1) (AbiParam.mk ty nm none :: ps) hex c i
      = (headPassF f ps hex (c + 64) (i + 1)).bind (fun rest =>
          some (simpleStaticPart (paramNameOf (AbiParam.mk ty nm none) i) ty
            (jsSubstring hex c (c + 64)) :: rest)) := by
  rw [headPassF_cons_none_eq, if_neg hdyn]

theorem headPassF_cons_tuple (f : Nat) (ty : List Char) (nm : Option (List Char))
    (cs : List AbiParam) (ps : List AbiParam) (hex : List Char) (c i : Nat)
    (hdyn : ¬ isDynamicP (AbiParam.mk ty nm (some cs)) = true)
    (htu : (ty == ("tuple".data)) = true) :
    headPassF (f + 1) (AbiParam.mk ty nm (some cs) :: ps) hex c i
      = (buildFlatBreakdownF f cs (jsSubstring hex c (c + cs.length * 64))).bind
          (fun nested => (headPassF f ps hex (c + cs.length * 64) (i + 1)).bind (fun rest =>
            some (CalldataPart.mk
                (paramNameOf (AbiParam.mk ty nm (some cs)) i ++ (" (".data) ++ (ty ++ [')']))
                ("tuple".data) (jsSubstring hex c (c + cs.length * 64)) none
                (some (nested.1 ++ nested.2)) :: rest))) := by
  rw [headPassF_cons_some_eq, if_neg hdyn, if_pos htu]

/-- Level round-trip invariant (indexed by the encoder fuel): a successful
good encoding of a parameter level decomposes under the source's breakdown
and its leaves reassemble to the encoded hex. -/
def RTlevelP (F : Nat) : Prop :=
  ∀ (tvs : List (TypeNode × ValueNode)) (params : List AbiParam) (hex : List Char),
    goodTVs tvs = true →
    List.Forall₂ paramMatches params (tvs.map Prod.fst) →
    encodeParamsF F tvs = some hex →
    hex.length < 2 ^ 256 →
    ∃ fd hp tp fh, buildFlatBreakdownF fd params hex = some (hp, tp) ∧
      partsHexF fh (hp ++ tp) = some hex

/-- Block round-trip invariant: the tail-window breakdown of one dynamic
item reassembles to its encoded block. -/
def RTblockP (F : Nat) : Prop :=
  ∀ (t : TypeNode) (v : ValueNode) (p : AbiParam) (block : List Char),
    goodT t = true → isDynamicT t = true → paramMatches p t →
    encodeTailF F t v = some block →
    block.length < 2 ^ 256 →
    ∃ fd parts fh, parseDynamicDataF fd p block = some parts ∧
      partsHexF fh parts = some block

theorem headLemma (N : Nat) (ihA : ∀ m, m ≤ N → RTlevelP m) :
    ∀ (g : Nat), g ≤ N →
    ∀ (tvs : List (TypeNode × ValueNode)) (params : List AbiParam)
      (items : List (Bool × List Char)) (hex suffix : List Char) (off cursor i : Nat),
      goodTVs tvs = true →
      List.Forall₂ paramMatches params (tvs.map Prod.fst) →
      List.Forall₂ (itemOkB g) tvs items →
      hex.length < 2 ^ 256 →
      hex.drop cursor = (headWordsList items off).flatten ++ suffix →
      ∃ fd parts, headPassF fd params hex cursor i = some parts ∧
        ∃ fh, partsHexF fh parts = some ((headWordsList items off).flatten) := by
  intro g hgN tvs
  induction tvs with
  | nil =>
      intro params items hex suffix off cursor i hg hm hi hlen hdrop
      cases hm
      cases hi
      exact ⟨1, [], rfl, 1, rfl⟩
  | cons tv tvs' ih =>
      intro params items hex suffix off cursor i hg hm hi hlen hdrop
      obtain ⟨t, v⟩ := tv
      rw [List.map_cons] at hm
      cases hm with
      | @cons p _ params' _ hpm hm' =>
      cases hi with
      | @cons _ it _ items' hok hi' =>
      obtain ⟨flag, hx⟩ := it
      obtain ⟨a, b, c⟩ := p
      have hty : a = typeString t := hpm.1
      have hcm : c = componentsOf t := hpm.2
      subst hty
      subst hcm
      rw [goodTVs_cons, Bool.and_eq_true] at hg
      have hok1 : flag = isDynamicT t := hok.1
      by_cases hd : isDynamicT t = true
      · have hflag : flag = true := by rw [hok1, hd]
        subst hflag
        have hok2 := hok.2
        rw [if_pos hd] at hok2
        obtain ⟨henc, hmod, hge⟩ := hok2
        rw [headWordsList, List.flatten_cons, List.append_assoc] at hdrop
        have hslot : jsSubstring hex cursor (cursor + 64) = natToHex off 64 := by
          have hh := jsSubstring_drop_prefix hdrop
          rwa [natToHex_length] at hh
        have hdrop2 := drop_after hdrop
        rw [natToHex_length] at hdrop2
        obtain ⟨fd', parts', hps', fh', hph'⟩ := ih params' items' hex suffix
          (off + hx.length / 2) (cursor + 64) (i + 1) hg.2 hm' hi' hlen hdrop2
        have hdynp : isDynamicP (AbiParam.mk (typeString t) b (componentsOf t)) = true := by
          rw [isDynamicP_matches]
          exact hd
        refine ⟨fd' + 1,
          CalldataPart.mk
              (paramNameOf (AbiParam.mk (typeString t) b (componentsOf t)) i
                ++ (" (".data) ++ (typeString t ++ [')']))
              ("bytes32".data) (jsSubstring hex cursor (cursor + 64))
              (some (("Offset to data at byte ".data)
                ++ decRepr (parseIntHex (jsSubstring hex cursor (cursor + 64))))) none
            :: parts', ?_, fh' + 1, ?_⟩
        · rw [headPassF_cons_dyn _ _ _ _ _ _ _ _ hdynp, hps']
          rfl
        · rw [partsHexF_cons_none_eq, hph', hslot, headWordsList, List.flatten_cons]
          rfl
      · have hd' : isDynamicT t = false := Bool.eq_false_iff.mpr hd
        have hflag : flag = false := by rw [hok1, hd']
        subst hflag
        have hok2 := hok.2
        rw [if_neg hd] at hok2
        obtain ⟨hencS, hxlen⟩ := hok2
        rw [headWordsList, List.flatten_cons, List.append_assoc] at hdrop
        have hdrop2 := drop_after hdrop
        have hndp : ¬ isDynamicP (AbiParam.mk (typeString t) b (componentsOf t)) = true := by
          rw [isDynamicP_matches, hd']
          simp
        by_cases hsw : isSingleWordT t = true
        · have hcnone : componentsOf t = none := isSingleWordT_components hsw
          have hx64 : hx.length = 64 := hxlen.trans (isSingleWordT_staticSize hsw)
          have hslot : jsSubstring hex cursor (cursor + 64) = hx := by
            have hh := jsSubstring_drop_prefix hdrop
            rwa [hx64] at hh
          obtain ⟨fd', parts', hps', fh', hph'⟩ := ih params' items' hex suffix off
            (cursor + 64) (i + 1) hg.2 hm' hi' hlen (by rwa [hx64] at hdrop2)
          rw [hcnone] at hndp ⊢
          refine ⟨fd' + 1,
            simpleStaticPart (paramNameOf (AbiParam.mk (typeString t) b none) i)
              (typeString t) (jsSubstring hex cursor (cursor + 64)) :: parts',
            ?_, fh' + 1, ?_⟩
          · rw [headPassF_cons_static_none _ _ _ _ _ _ _ hndp, hps']
            rfl
          · simp only [simpleStaticPart]
            rw [partsHexF_cons_none_eq, hph', hslot, padTo32Bytes_len64 hx64,
              headWordsList, List.flatten_cons]
            rfl
        · cases t with
          | uintT bits => exact absurd rfl hsw
          | intT bits => exact absurd rfl hsw
          | boolT => exact absurd rfl hsw
          | addressT => exact absurd rfl hsw
          | fixedBytesT n => exact absurd rfl hsw
          | dynBytesT =>
              rw [show isDynamicT TypeNode.dynBytesT = true from rfl] at hd'
              cases hd'
          | textT =>
              rw [show isDynamicT TypeNode.textT = true from rfl] at hd'
              cases hd'
          | arrayT e =>
              rw [show isDynamicT (TypeNode.arrayT e) = true from rfl] at hd'
              cases hd'
          | recordT fs =>
              have hcomp : componentsOf (TypeNode.recordT fs) = some (fieldsToParams fs) := rfl
              rw [isDynamicT] at hd'
              have hgt := hg.1
              rw [goodT, Bool.and_eq_true] at hgt
              obtain ⟨hgf, hor⟩ := hgt
              have hxlen' : hx.length = 64 * fs.length := hxlen
              have htuple : ((typeString (TypeNode.recordT fs)) == ("tuple".data)) = true := rfl
              obtain ⟨g', hg', hS⟩ := hencS
              cases g' with
              | zero => rw [encodeStaticF] at hS; cases hS
              | succ g2 =>
                  cases v with
                  | numV x =>
                      rw [show encodeStaticF (g2 + 1) (TypeNode.recordT fs)
                          (ValueNode.numV x) = none from rfl] at hS
                      cases hS
                  | boolV b2 =>
                      rw [show encodeStaticF (g2 + 1) (TypeNode.recordT fs)
                          (ValueNode.boolV b2) = none from rfl] at hS
                      cases hS
                  | bytesV bs =>
                      rw [show encodeStaticF (g2 + 1) (TypeNode.recordT fs)
                          (ValueNode.bytesV bs) = none from rfl] at hS
                      cases hS
                  | listV vs =>
                      rw [encodeStaticF_record_eq] at hS
                      by_cases hlen2 : fs.length = vs.length
                      · rw [if_pos hlen2] at hS
                        have hxsmall : hx.length < 2 ^ 256 := by
                          have hc := congrArg List.length hdrop
                          simp only [List.length_drop, List.length_append] at hc
                          omega
                        have hmzip : List.Forall₂ paramMatches (fieldsToParams fs)
                            ((List.zip (fs.map Prod.snd) vs).map Prod.fst) := by
                          rw [List.map_fst_zip _ _ (by rw [List.length_map, hlen2])]
                          exact fieldsToParams_matches fs
                        obtain ⟨fd2, nhp, ntp, fh2, hbuild2, hph2⟩ :=
                          ihA g2 (by omega) _ _ _ (goodFields_zip vs hgf) hmzip hS hxsmall
                        have hcount : (fieldsToParams fs).length * 64 = hx.length := by
                          rw [fieldsToParams_length, hxlen']
                          ring
                        have hwin : jsSubstring hex cursor
                            (cursor + (fieldsToParams fs).length * 64) = hx := by
                          have hh := jsSubstring_drop_prefix hdrop
                          rwa [← hcount] at hh
                        obtain ⟨fd', parts', hps', fh', hph'⟩ := ih params' items' hex suffix
                          off (cursor + (fieldsToParams fs).length * 64) (i + 1)
                          hg.2 hm' hi' hlen (by rwa [← hcount] at hdrop2)
                        rw [hcomp] at hndp ⊢
                        refine ⟨max fd2 fd' + 1,
                          CalldataPart.mk
                              (paramNameOf (AbiParam.mk (typeString (TypeNode.recordT fs)) b
                                  (some (fieldsToParams fs))) i
                                ++ (" (".data) ++ (typeString (TypeNode.recordT fs) ++ [')']))
                              ("tuple".data)
                              (jsSubstring hex cursor
                                (cursor + (fieldsToParams fs).length * 64)) none
                              (some (nhp ++ ntp)) :: parts',
                          ?_, max fh2 fh' + 1, ?_⟩
                        · have hbuild2' : buildFlatBreakdownF fd2 (fieldsToParams fs) hx
                              = some (nhp, ntp) := hbuild2
                          rw [headPassF_cons_tuple _ _ _ _ _ _ _ _ hndp htuple, hwin,
                            buildFlatBreakdownF_le (le_max_left fd2 fd') hbuild2',
                            headPassF_le (le_max_right fd2 fd') hps']
                          rfl
                        · have hph2' : partsHexF fh2 (nhp ++ ntp) = some hx := hph2
                          rw [partsHexF_cons_some_eq,
                            partsHexF_le (le_max_left fh2 fh') hph2',
                            partsHexF_le (le_max_right fh2 fh') hph',
                            show headWordsList ((false, hx) :: items') off
                              = hx :: headWordsList items' off from rfl,
                            List.flatten_cons]
                          rfl
                      · rw [if_neg hlen2] at hS
                        cases hS

theorem contiguousPairs_bound : ∀ {pairs : List (Nat × List Char)} {pos : Nat},
    contiguousPairs pairs pos → ∀ pr ∈ pairs,
      pr.1 * 2 + pr.2.length ≤ pos + (pairs.map Prod.snd).flatten.length := by
  intro pairs
  induction pairs with
  | nil => intro pos _ pr hpr; cases hpr
  | cons q rest ih =>
      intro pos h pr hpr
      obtain ⟨o, bl⟩ := q
      rw [contiguousPairs] at h
      obtain ⟨h1, h2⟩ := h
      rw [List.map_cons, List.flatten_cons, List.length_append]
      rcases List.mem_cons.mp hpr with rfl | hpr
      · show o * 2 + bl.length ≤ pos + (bl.length + (rest.map Prod.snd).flatten.length)
        omega
      · have := ih h2 pr hpr
        show pr.1 * 2 + pr.2.length ≤ pos + (bl.length + (rest.map Prod.snd).flatten.length)
        omega

theorem collectLemma :
    ∀ (g : Nat) (tvs : List (TypeNode × ValueNode)) (params : List AbiParam)
      (items : List (Bool × List Char)) (hex suffix : List Char) (off cursor i : Nat),
      goodTVs tvs = true →
      List.Forall₂ paramMatches params (tvs.map Prod.fst) →
      List.Forall₂ (itemOkB g) tvs items →
      hex.drop cursor = (headWordsList items off).flatten ++ suffix →
      (∀ pr ∈ dynPairsOf items off, pr.1 < 2 ^ 256) →
      List.Forall₂ (dynReadyB g) (collectDynItems params hex cursor i)
        (dynPairsOf items off) := by
  intro g tvs
  induction tvs with
  | nil =>
      intro params items hex suffix off cursor i hg hm hi hdrop hb
      cases hm
      cases hi
      exact List.Forall₂.nil
  | cons tv tvs' ih =>
      intro params items hex suffix off cursor i hg hm hi hdrop hb
      obtain ⟨t, v⟩ := tv
      rw [List.map_cons] at hm
      cases hm with
      | @cons p _ params' _ hpm hm' =>
      cases hi with
      | @cons _ it _ items' hok hi' =>
      obtain ⟨flag, hx⟩ := it
      obtain ⟨a, b, c⟩ := p
      have hty : a = typeString t := hpm.1
      have hcm : c = componentsOf t := hpm.2
      subst hty
      subst hcm
      rw [goodTVs_cons, Bool.and_eq_true] at hg
      have hok1 : flag = isDynamicT t := hok.1
      by_cases hd : isDynamicT t = true
      · have hflag : flag = true := by rw [hok1, hd]
        subst hflag
        have hok2 := hok.2
        rw [if_pos hd] at hok2
        obtain ⟨⟨g', hg', henc⟩, hmod, hge⟩ := hok2
        rw [headWordsList, List.flatten_cons, List.append_assoc] at hdrop
        have hslot : jsSubstring hex cursor (cursor + 64) = natToHex off 64 := by
          have hh := jsSubstring_drop_prefix hdrop
          rwa [natToHex_length] at hh
        have hdrop2 := drop_after hdrop
        rw [natToHex_length] at hdrop2
        have hoffb : off < 2 ^ 256 :=
          hb (off, hx) (by rw [dynPairsOf]; exact List.mem_cons_self _ _)
        have hdynp : isDynamicP (AbiParam.mk (typeString t) b (componentsOf t)) = true := by
          rw [isDynamicP_matches]
          exact hd
        rw [collectDynItems, if_pos hdynp, dynPairsOf]
        refine List.Forall₂.cons ?_ ?_
        · refine ⟨?_, hmod, hge, t, v, ⟨rfl, rfl⟩, hg.1, hd, g', hg', henc⟩
          show parseIntHex (jsSubstring hex cursor (cursor + 64)) = off
          rw [hslot]
          refine parseIntHex_natToHex ?_
          have h16 : (16 : Nat) ^ 64 = 2 ^ 256 := by norm_num
          rw [h16]
          exact hoffb
        · exact ih params' items' hex suffix (off + hx.length / 2) (cursor + 64) (i + 1)
            hg.2 hm' hi' hdrop2
            (fun pr hpr => hb pr (by rw [dynPairsOf]; exact List.mem_cons_of_mem _ hpr))
      · have hd' : isDynamicT t = false := Bool.eq_false_iff.mpr hd
        have hflag : flag = false := by rw [hok1, hd']
        subst hflag
        have hok2 := hok.2
        rw [if_neg hd] at hok2
        obtain ⟨hencS, hxlen⟩ := hok2
        rw [headWordsList, List.flatten_cons, List.append_assoc] at hdrop
        have hdrop2 := drop_after hdrop
        have hndp : isDynamicP (AbiParam.mk (typeString t) b (componentsOf t)) = false := by
          rw [isDynamicP_matches]
          exact hd'
        have hadv : headAdvance (AbiParam.mk (typeString t) b (componentsOf t))
            = hx.length := by
          by_cases hsw : isSingleWordT t = true
          · rw [headAdvance.eq_def, if_neg (by rw [hndp]; simp), isSingleWordT_components hsw]
            show (64 : Nat) = hx.length
            have hx64 : hx.length = 64 := hxlen.trans (isSingleWordT_staticSize hsw)
            omega
          · cases t with
            | uintT bits => exact absurd rfl hsw
            | intT bits => exact absurd rfl hsw
            | boolT => exact absurd rfl hsw
            | addressT => exact absurd rfl hsw
            | fixedBytesT n => exact absurd rfl hsw
            | dynBytesT =>
                rw [show isDynamicT TypeNode.dynBytesT = true from rfl] at hd'
                cases hd'
            | textT =>
                rw [show isDynamicT TypeNode.textT = true from rfl] at hd'
                cases hd'
            | arrayT e =>
                rw [show isDynamicT (TypeNode.arrayT e) = true from rfl] at hd'
                cases hd'
            | recordT fs =>
                rw [headAdvance.eq_def, if_neg (by rw [hndp]; simp)]
                show (if (typeString (TypeNode.recordT fs)) == ("tuple".data) then
                    (fieldsToParams fs).length * 64 else 64) = hx.length
                rw [if_pos (show ((typeString (TypeNode.recordT fs)) == ("tuple".data))
                    = true from rfl), fieldsToParams_length]
                have hxlen' : hx.length = 64 * fs.length := hxlen
                omega
        rw [collectDynItems, if_neg (by rw [hndp]; simp), hadv, dynPairsOf]
        exact ih params' items' hex suffix off (cursor + hx.length) (i + 1) hg.2 hm' hi'
          hdrop2 (fun pr hpr => hb pr (by rw [dynPairsOf]; exact hpr))

theorem tailLemma (N : Nat) (ihB : ∀ m, m ≤ N → RTblockP m) :
    ∀ (g : Nat), g ≤ N →
    ∀ (L : List DynItem) (pairs : List (Nat × List Char)) (hex : List Char) (pos : Nat),
      List.Forall₂ (dynReadyB g) L pairs →
      hex.length < 2 ^ 256 →
      hex.drop pos = (pairs.map Prod.snd).flatten →
      contiguousPairs pairs pos →
      ∃ fd parts, tailPassF fd (windowBounds L hex.length) hex = some parts ∧
        ∃ fh, partsHexF fh parts = some ((pairs.map Prod.snd).flatten) := by
  intro g hgN L
  induction L with
  | nil =>
      intro pairs hex pos hfa hlen hdrop hcont
      cases hfa
      exact ⟨1, [], rfl, 1, rfl⟩
  | cons d L' ih =>
      intro pairs hex pos hfa hlen hdrop hcont
      cases hfa with
      | @cons _ pr _ pairs' hdr hres =>
      obtain ⟨o, bl⟩ := pr
      have hd1 : d.offset = o := hdr.1
      have hmod : bl.length % 64 = 0 := hdr.2.1
      have hge : 64 ≤ bl.length := hdr.2.2.1
      obtain ⟨t, v, hpm, hgt, hdyn, g', hg', henc⟩ := hdr.2.2.2
      rw [contiguousPairs] at hcont
      obtain ⟨h1, h2⟩ := hcont
      rw [List.map_cons, List.flatten_cons] at hdrop
      have hblen : bl.length < 2 ^ 256 := by
        have hc := congrArg List.length hdrop
        simp only [List.length_drop, List.length_append] at hc
        omega
      obtain ⟨fdp, bparts, fhp, hparse, hph⟩ :=
        ihB g' (le_trans hg' hgN) t v d.param bl hgt hdyn hpm henc hblen
      cases L' with
      | nil =>
          cases hres
          have hpos : pos ≤ hex.length := by
            have hc := congrArg List.length hdrop
            simp only [List.length_drop, List.length_append] at hc
            omega
          have hsub : jsSubstring hex (d.offset * 2) hex.length = bl := by
            have hc := congrArg List.length hdrop
            simp only [List.length_drop, List.length_append] at hc
            have hc2 : hex.length - pos = bl.length + 0 := hc
            rw [hd1, h1, jsSubstring_eq_drop_take hpos (le_refl _), hdrop]
            simp
            omega
          refine ⟨fdp + 1 + 1,
            [CalldataPart.mk (("Tail for ".data) ++ d.dname) d.param.ty
              ("(see components)".data)
              (some (("Data located at byte ".data) ++ decRepr d.offset))
              (some bparts)], ?_, fhp + 1 + 1, ?_⟩
          · rw [windowBounds, tailPassF_cons_eq, hsub,
              parseDynamicDataF_le (Nat.le_succ fdp) hparse, tailPassF_nil_eq]
            rfl
          · rw [partsHexF_cons_some_eq, partsHexF_le (Nat.le_succ fhp) hph,
              partsHexF_nil_eq]
            simp
      | cons d2 L'' =>
          cases hres with
          | @cons _ pr2 _ pairs'' hdr2 hres2 =>
          obtain ⟨o2, bl2⟩ := pr2
          have hd2o : d2.offset = o2 := hdr2.1
          have h2' := h2
          rw [contiguousPairs] at h2'
          have ho2 : o2 * 2 = pos + bl.length := h2'.1
          have hsub : jsSubstring hex (d.offset * 2) (d2.offset * 2) = bl := by
            rw [hd1, h1, hd2o, ho2]
            have hx : pos + bl.length = pos + bl.length := rfl
            exact jsSubstring_drop_prefix hdrop
          have hdrop2 := drop_after hdrop
          obtain ⟨fd', parts', hps', fh', hph'⟩ := ih ((o2, bl2) :: pairs'') hex
            (pos + bl.length) (List.Forall₂.cons hdr2 hres2) hlen hdrop2 h2
          refine ⟨max (fdp + 1) fd' + 1,
            CalldataPart.mk (("Tail for ".data) ++ d.dname) d.param.ty
              ("(see components)".data)
              (some (("Data located at byte ".data) ++ decRepr d.offset))
              (some bparts) :: parts', ?_, max (fhp + 1) fh' + 1, ?_⟩
          · rw [windowBounds, tailPassF_cons_eq, hsub,
              parseDynamicDataF_le (le_trans (Nat.le_succ fdp)
                (le_max_left (fdp + 1) fd')) hparse,
              tailPassF_le (le_max_right (fdp + 1) fd') hps']
            rfl
          · rw [partsHexF_cons_some_eq,
              partsHexF_le (le_trans (Nat.le_succ fhp) (le_max_left (fhp + 1) fh')) hph,
              partsHexF_le (le_max_right (fhp + 1) fh') hph']
            rfl

theorem itemOkB_mem_facts {g : Nat} {tvs : List (TypeNode × ValueNode)}
    {items : List (Bool × List Char)} (hfa : List.Forall₂ (itemOkB g) tvs items) :
    (∀ it ∈ items, it.1 = false → it.2.length % 64 = 0) ∧
    (∀ it ∈ items, it.1 = true → it.2.length % 64 = 0 ∧ 64 ≤ it.2.length) := by
  constructor
  · intro it hit h1
    obtain ⟨tv, htv, hok⟩ := forall2_mem_right hfa hit
    have hd2 : isDynamicT tv.1 = false := by rw [← hok.1]; exact h1
    have h2 := hok.2
    rw [if_neg (by simp [hd2])] at h2
    rw [h2.2]
    exact staticSizeT_mod tv.1
  · intro it hit h1
    obtain ⟨tv, htv, hok⟩ := forall2_mem_right hfa hit
    have hd2 : isDynamicT tv.1 = true := by rw [← hok.1]; exact h1
    have h2 := hok.2
    rw [if_pos hd2] at h2
    exact ⟨h2.2.1, h2.2.2⟩

set_option maxHeartbeats 12800000 in
theorem rt_all : ∀ F : Nat, RTlevelP F ∧ RTblockP F := by
  intro F
  induction F using Nat.strong_induction_on with
  | _ F ihF =>
  constructor
  · intro tvs params hex hg hm henc hlen
    cases F with
    | zero => rw [encodeParamsF] at henc; cases henc
    | succ F' =>
        rw [encodeParamsF_succ_eq] at henc
        cases hi : encodeItemsF F' tvs with
        | none => rw [hi] at henc; cases henc
        | some items =>
            rw [hi] at henc
            have hhex : hex = assemble items := (Option.some.inj henc).symm
            have hfa := (enc_facts F').2.2 _ _ hg hi
            obtain ⟨hsm, hdm⟩ := itemOkB_mem_facts hfa
            have hdrop0 : hex.drop 0 = (headWordsList items (headBytesOf items)).flatten
                ++ (blocksOf items).flatten := by
              rw [List.drop_zero, hhex, assemble_eq]
            have ihA : ∀ m, m ≤ F' → RTlevelP m := fun m hm2 => (ihF m (by omega)).1
            have ihB : ∀ m, m ≤ F' → RTblockP m := fun m hm2 => (ihF m (by omega)).2
            obtain ⟨fdh, hparts, hheadp, fhh, hphh⟩ := headLemma F' ihA F' (le_refl F')
              tvs params items hex ((blocksOf items).flatten) (headBytesOf items) 0 0
              hg hm hfa hlen hdrop0
            have hwlen : (headWordsList items (headBytesOf items)).flatten.length
                = 2 * headBytesOf items := headWordsList_flatten_length items _
                (fun it hit h1 => by have := hsm it hit h1; omega)
            have hcont : contiguousPairs (dynPairsOf items (headBytesOf items))
                (2 * headBytesOf items) := dynPairsOf_contiguous items _
                (fun it hit h1 => by have := (hdm it hit h1).1; omega)
            have hmapsnd : (dynPairsOf items (headBytesOf items)).map Prod.snd
                = blocksOf items := blocksOf_eq_dynPairs items _
            have hbound : ∀ pr ∈ dynPairsOf items (headBytesOf items), pr.1 < 2 ^ 256 := by
              intro pr hpr
              have hb := contiguousPairs_bound hcont pr hpr
              rw [hmapsnd] at hb
              have htot : 2 * headBytesOf items + (blocksOf items).flatten.length
                  = hex.length := by
                rw [hhex, assemble_eq, List.length_append, hwlen]
              omega
            have hcoll := collectLemma F' tvs params items hex ((blocksOf items).flatten)
              (headBytesOf items) 0 0 hg hm hfa hdrop0 hbound
            have hposblocks : ∀ pr ∈ dynPairsOf items (headBytesOf items),
                0 < pr.2.length := by
              intro pr hpr
              obtain ⟨d0, hd0, hdr0⟩ := forall2_mem_right hcoll hpr
              have := hdr0.2.2.1
              omega
            have hpw := contiguousPairs_pairwise hcont hposblocks
            have hLpw := forall2_dynReady_pairwise hcoll hpw
            have hsorted : sortByOffset (collectDynItems params hex 0 0)
                = collectDynItems params hex 0 0 := sortByOffset_sorted_id hLpw
            have hdropB : hex.drop (2 * headBytesOf items) = (blocksOf items).flatten := by
              rw [← hwlen, hhex, assemble_eq, List.drop_left]
            obtain ⟨fdt, tparts, htailp, fht, hpht⟩ := tailLemma F' ihB F' (le_refl F')
              (collectDynItems params hex 0 0) (dynPairsOf items (headBytesOf items))
              hex (2 * headBytesOf items) hcoll hlen (by rw [hdropB, hmapsnd]) hcont
            rw [hmapsnd] at hpht
            obtain ⟨fhx, hphx⟩ := partsHexF_append hphh hpht
            refine ⟨max fdh fdt + 1, hparts, tparts, fhx, ?_, ?_⟩
            · rw [buildFlatBreakdownF_succ_eq, headPassF_le (le_max_left fdh fdt) hheadp,
                hsorted, tailPassF_le (le_max_right fdh fdt) htailp]
              rfl
            · rw [hphx, hhex, assemble_eq]
  · intro t v p block hgt hdyn hpm henc hblen
    cases F with
    | zero => rw [encodeTailF] at henc; cases henc
    | succ F' =>
    obtain ⟨a, b, c⟩ := p
    have hty : a = typeString t := hpm.1
    have hcm : c = componentsOf t := hpm.2
    subst hty
    subst hcm
    cases t with
    | uintT bits =>
        rw [show isDynamicT (TypeNode.uintT bits) = false from rfl] at hdyn
        cases hdyn
    | intT bits =>
        rw [show isDynamicT (TypeNode.intT bits) = false from rfl] at hdyn
        cases hdyn
    | boolT =>
        rw [show isDynamicT TypeNode.boolT = false from rfl] at hdyn
        cases hdyn
    | addressT =>
        rw [show isDynamicT TypeNode.addressT = false from rfl] at hdyn
        cases hdyn
    | fixedBytesT n =>
        rw [show isDynamicT (TypeNode.fixedBytesT n) = false from rfl] at hdyn
        cases hdyn
    | textT =>
        cases v with
        | numV x =>
            rw [show encodeTailF (F' + 1) TypeNode.textT (ValueNode.numV x)
                = none from rfl] at henc
            cases henc
        | boolV b2 =>
            rw [show encodeTailF (F' + 1) TypeNode.textT (ValueNode.boolV b2)
                = none from rfl] at henc
            cases henc
        | listV vs =>
            rw [show encodeTailF (F' + 1) TypeNode.textT (ValueNode.listV vs)
                = none from rfl] at henc
            cases henc
        | bytesV bs =>
            rw [encodeTailF_text_eq] at henc
            split at henc
            · have hblock : block = natToHex bs.length 64 ++ padEndToWord (bytesToHex bs) :=
                (Option.some.inj henc).symm
              rw [hblock] at hblen ⊢
              have hBlen : (natToHex bs.length 64).length = 64 := natToHex_length _ _
              have hw : jsSubstring (natToHex bs.length 64 ++ padEndToWord (bytesToHex bs))
                  0 64 = natToHex bs.length 64 := by
                have hh := jsSubstring_drop_prefix (c := 0)
                  (show (natToHex bs.length 64 ++ padEndToWord (bytesToHex bs)).drop 0
                    = natToHex bs.length 64 ++ padEndToWord (bytesToHex bs)
                    from List.drop_zero _)
                rwa [hBlen, Nat.zero_add] at hh
              have hbound : bs.length < 16 ^ 64 := by
                have h1 := padEndToWord_ge (bytesToHex bs)
                rw [bytesToHex_length] at h1
                have h2 : (natToHex bs.length 64 ++ padEndToWord (bytesToHex bs)).length
                    = 64 + (padEndToWord (bytesToHex bs)).length := by
                  rw [List.length_append, hBlen]
                have h16 : (16 : Nat) ^ 64 = 2 ^ 256 := by norm_num
                rw [h16]
                omega
              have hparse64 : parseIntHex (natToHex bs.length 64) = bs.length :=
                parseIntHex_natToHex hbound
              have hdataw : jsSubstring
                  (natToHex bs.length 64 ++ padEndToWord (bytesToHex bs))
                  64 (64 + bs.length * 2) = bytesToHex bs := by
                have hd64 : (natToHex bs.length 64 ++ padEndToWord (bytesToHex bs)).drop 64
                    = bytesToHex bs ++ List.replicate
                        (((bytesToHex bs).length + 63) / 64 * 64
                          - (bytesToHex bs).length) '0' := by
                  have hh := drop_after (show (natToHex bs.length 64
                      ++ padEndToWord (bytesToHex bs)).drop 0
                    = natToHex bs.length 64 ++ padEndToWord (bytesToHex bs)
                    from List.drop_zero _)
                  rw [hBlen, Nat.zero_add] at hh
                  rw [hh, padEndToWord]
                have hh := jsSubstring_drop_prefix hd64
                rw [bytesToHex_length] at hh
                rw [show bs.length * 2 = 2 * bs.length by ring]
                exact hh
              refine ⟨0 + 1,
                [CalldataPart.mk ("length".data) ("uint256".data) (natToHex bs.length 64)
                   (some (decRepr bs.length)) none,
                 CalldataPart.mk ("value".data) ("utf8".data)
                   (padEndToWord (bytesToHex bs))
                   (some (("Original data: 0x".data) ++ bytesToHex bs)) none],
                ((0 + 1) + 1) + 1, ?_, ?_⟩
              · rw [show componentsOf TypeNode.textT = none from rfl,
                  parseDynamicDataF_none_eq, if_neg (by decide), if_pos (by decide),
                  hw, hparse64, hdataw]
                rfl
              · rw [partsHexF_cons_none_eq, partsHexF_cons_none_eq, partsHexF_nil_eq]
                simp
            · cases henc
    | dynBytesT =>
        cases v with
        | numV x =>
            rw [show encodeTailF (F' + 1) TypeNode.dynBytesT (ValueNode.numV x)
                = none from rfl] at henc
            cases henc
        | boolV b2 =>
            rw [show encodeTailF (F' + 1) TypeNode.dynBytesT (ValueNode.boolV b2)
                = none from rfl] at henc
            cases henc
        | listV vs =>
            rw [show encodeTailF (F' + 1) TypeNode.dynBytesT (ValueNode.listV vs)
                = none from rfl] at henc
            cases henc
        | bytesV bs =>
            rw [encodeTailF_bytes_eq] at henc
            split at henc
            · have hblock : block = natToHex bs.length 64 ++ padEndToWord (bytesToHex bs) :=
                (Option.some.inj henc).symm
              rw [hblock] at hblen ⊢
              have hBlen : (natToHex bs.length 64).length = 64 := natToHex_length _ _
              have hw : jsSubstring (natToHex bs.length 64 ++ padEndToWord (bytesToHex bs))
                  0 64 = natToHex bs.length 64 := by
                have hh := jsSubstring_drop_prefix (c := 0)
                  (show (natToHex bs.length 64 ++ padEndToWord (bytesToHex bs)).drop 0
                    = natToHex bs.length 64 ++ padEndToWord (bytesToHex bs)
                    from List.drop_zero _)
                rwa [hBlen, Nat.zero_add] at hh
              have hbound : bs.length < 16 ^ 64 := by
                have h1 := padEndToWord_ge (bytesToHex bs)
                rw [bytesToHex_length] at h1
                have h2 : (natToHex bs.length 64 ++ padEndToWord (bytesToHex bs)).length
                    = 64 + (padEndToWord (bytesToHex bs)).length := by
                  rw [List.length_append, hBlen]
                have h16 : (16 : Nat) ^ 64 = 2 ^ 256 := by norm_num
                rw [h16]
                omega
              have hparse64 : parseIntHex (natToHex bs.length 64) = bs.length :=
                parseIntHex_natToHex hbound
              have hdataw : jsSubstring
                  (natToHex bs.length 64 ++ padEndToWord (bytesToHex bs))
                  64 (64 + bs.length * 2) = bytesToHex bs := by
                have hd64 : (natToHex bs.length 64 ++ padEndToWord (bytesToHex bs)).drop 64
                    = bytesToHex bs ++ List.replicate
                        (((bytesToHex bs).length + 63) / 64 * 64
                          - (bytesToHex bs).length) '0' := by
                  have hh := drop_after (show (natToHex bs.length 64
                      ++ padEndToWord (bytesToHex bs)).drop 0
                    = natToHex bs.length 64 ++ padEndToWord (bytesToHex bs)
                    from List.drop_zero _)
                  rw [hBlen, Nat.zero_add] at hh
                  rw [hh, padEndToWord]
                have hh := jsSubstring_drop_prefix hd64
                rw [bytesToHex_length] at hh
                rw [show bs.length * 2 = 2 * bs.length by ring]
                exact hh
              refine ⟨0 + 1,
                [CalldataPart.mk ("length".data) ("uint256".data) (natToHex bs.length 64)
                   (some (decRepr bs.length)) none,
                 CalldataPart.mk ("value".data) ("hex".data)
                   (padEndToWord (bytesToHex bs))
                   (some (("Original data: 0x".data) ++ bytesToHex bs)) none],
                ((0 + 1) + 1) + 1, ?_, ?_⟩
              · rw [show componentsOf TypeNode.dynBytesT = none from rfl,
                  parseDynamicDataF_none_eq, if_neg (by decide), if_pos (by decide),
                  hw, hparse64, hdataw]
                rfl
              · rw [partsHexF_cons_none_eq, partsHexF_cons_none_eq, partsHexF_nil_eq]
                simp
            · cases henc
    | arrayT e =>
        rw [goodT] at hgt
        have hcn : componentsOf (TypeNode.arrayT e) = none := by
          rw [show componentsOf (TypeNode.arrayT e) = componentsOf e from rfl]
          exact isSingleWordT_components hgt
        rw [hcn]
        cases v with
        | numV x =>
            rw [show encodeTailF (F' + 1) (TypeNode.arrayT e) (ValueNode.numV x)
                = none from rfl] at henc
            cases henc
        | boolV b2 =>
            rw [show encodeTailF (F' + 1) (TypeNode.arrayT e) (ValueNode.boolV b2)
                = none from rfl] at henc
            cases henc
        | bytesV bs =>
            rw [show encodeTailF (F' + 1) (TypeNode.arrayT e) (ValueNode.bytesV bs)
                = none from rfl] at henc
            cases henc
        | listV vs =>
            rw [encodeTailF_array_eq] at henc
            cases hb : encodeParamsF F' (vs.map (fun v => (e, v))) with
            | none => rw [hb] at henc; cases henc
            | some body =>
                rw [hb] at henc
                have hblock : block = natToHex vs.length 64 ++ body :=
                  (Option.some.inj henc).symm
                rw [hblock] at hblen ⊢
                cases F' with
                | zero => rw [encodeParamsF] at hb; cases hb
                | succ F2 =>
                    rw [encodeParamsF_succ_eq] at hb
                    cases hi : encodeItemsF F2 (vs.map (fun v => (e, v))) with
                    | none => rw [hi] at hb; cases hb
                    | some items =>
                        rw [hi] at hb
                        have hbody : body = assemble items := (Option.some.inj hb).symm
                        have hzg := goodTVs_map_const (isSingleWordT_goodT hgt) vs
                        have hfa := (enc_facts F2).2.2 _ _ hzg hi
                        have hsingle : ∀ tv ∈ vs.map (fun v => (e, v)),
                            isSingleWordT tv.1 = true := by
                          intro tv htv
                          obtain ⟨v0, hv0, rfl⟩ := List.mem_map.mp htv
                          exact hgt
                        have hstat : ∀ it ∈ items, it.1 = false := by
                          intro it hit
                          obtain ⟨tv, htv, hok⟩ := forall2_mem_right hfa hit
                          have hnd := isSingleWordT_not_dynamic (hsingle tv htv)
                          rw [hok.1, hnd]
                        have hw64 : ∀ w ∈ items.map Prod.snd, w.length = 64 := by
                          intro w hw2
                          obtain ⟨it, hit, rfl⟩ := List.mem_map.mp hw2
                          obtain ⟨tv, htv, hok⟩ := forall2_mem_right hfa hit
                          have hnd := isSingleWordT_not_dynamic (hsingle tv htv)
                          have h2 := hok.2
                          rw [if_neg (by simp [hnd])] at h2
                          exact h2.2.trans (isSingleWordT_staticSize (hsingle tv htv))
                        have hbody2 : body = (items.map Prod.snd).flatten := by
                          rw [hbody, assemble_all_static hstat]
                        have hcount : items.length = vs.length := by
                          have hl := List.Forall₂.length_eq hfa
                          rw [List.length_map] at hl
                          exact hl.symm
                        have hvbound : vs.length < 16 ^ 64 := by
                          have hfl : body.length = 64 * items.length := by
                            rw [hbody2, flatten_length_64 hw64, List.length_map]
                          have h16 : (16 : Nat) ^ 64 = 2 ^ 256 := by norm_num
                          rw [h16]
                          have hbl : (natToHex vs.length 64 ++ body).length
                              = 64 + body.length := by
                            rw [List.length_append, natToHex_length]
                          omega
                        have hparse64 : parseIntHex (natToHex vs.length 64) = vs.length :=
                          parseIntHex_natToHex hvbound
                        have hw : jsSubstring (natToHex vs.length 64 ++ body) 0 64
                            = natToHex vs.length 64 := by
                          have hh := jsSubstring_drop_prefix (c := 0)
                            (show (natToHex vs.length 64 ++ body).drop 0
                              = natToHex vs.length 64 ++ body from List.drop_zero _)
                          rwa [natToHex_length, Nat.zero_add] at hh
                        have hdrop64 : (natToHex vs.length 64 ++ body).drop 64 = body := by
                          have hh := drop_after (show (natToHex vs.length 64 ++ body).drop 0
                            = natToHex vs.length 64 ++ body from List.drop_zero _)
                          rwa [natToHex_length, Nat.zero_add] at hh
                        have hety : (typeString (TypeNode.arrayT e)).take
                            ((typeString (TypeNode.arrayT e)).length - 2)
                            = typeString e := by
                          show (typeString e ++ ("[]".data)).take
                            ((typeString e ++ ("[]".data)).length - 2) = typeString e
                          rw [List.length_append,
                            show ((("[]".data) : List Char)).length = 2 from rfl,
                            Nat.add_sub_cancel]
                          exact List.take_left _ _
                        have hwin : (List.range vs.length).map (fun i =>
                            padTo32Bytes (jsSubstring body (64 * i) (64 * i + 64))
                              (typeString e)) = items.map Prod.snd := by
                          rw [show vs.length = (items.map Prod.snd).length by
                              rw [List.length_map, hcount],
                            hbody2]
                          exact range_windows_eq _ _ hw64
                        refine ⟨0 + 1,
                          CalldataPart.mk ("length".data) ("uint256".data)
                              (natToHex vs.length 64) (some (decRepr vs.length)) none ::
                            (List.range vs.length).map (fun i =>
                              CalldataPart.mk ('[' :: (decRepr i ++ [']'])) (typeString e)
                                (padTo32Bytes (jsSubstring body (64 * i) (64 * i + 64))
                                  (typeString e)) none none),
                          (CalldataPart.mk ("length".data) ("uint256".data)
                              (natToHex vs.length 64) (some (decRepr vs.length)) none ::
                            (List.range vs.length).map (fun i =>
                              CalldataPart.mk ('[' :: (decRepr i ++ [']'])) (typeString e)
                                (padTo32Bytes (jsSubstring body (64 * i) (64 * i + 64))
                                  (typeString e)) none none)).length + 1, ?_, ?_⟩
                        · rw [parseDynamicDataF_none_eq,
                            if_pos (show endsWithCl (typeString (TypeNode.arrayT e))
                                (("[]".data)) = true by
                              rw [show typeString (TypeNode.arrayT e)
                                = typeString e ++ ("[]".data) from rfl]
                              exact endsWithCl_append _ _),
                            hw, hparse64, hety, hdrop64]
                        · have hcompnone : ∀ q ∈ (CalldataPart.mk ("length".data)
                              ("uint256".data) (natToHex vs.length 64)
                              (some (decRepr vs.length)) none ::
                            (List.range vs.length).map (fun i =>
                              CalldataPart.mk ('[' :: (decRepr i ++ [']'])) (typeString e)
                                (padTo32Bytes (jsSubstring body (64 * i) (64 * i + 64))
                                  (typeString e)) none none)),
                              q.components = none := by
                            intro q hq
                            rcases List.mem_cons.mp hq with rfl | hq
                            · rfl
                            · obtain ⟨i0, hi0, rfl⟩ := List.mem_map.mp hq
                              rfl
                          refine (partsHexF_leaves _ hcompnone).trans (congrArg some ?_)
                          rw [List.map_cons, List.flatten_cons, List.map_map]
                          rw [show (List.range vs.length).map (CalldataPart.value ∘ fun i =>
                              CalldataPart.mk ('[' :: (decRepr i ++ [']'])) (typeString e)
                                (padTo32Bytes (jsSubstring body (64 * i) (64 * i + 64))
                                  (typeString e)) none none)
                            = (List.range vs.length).map (fun i =>
                              padTo32Bytes (jsSubstring body (64 * i) (64 * i + 64))
                                (typeString e)) from List.map_congr_left
                                  (fun i _ => rfl), hwin]
                          rw [← hbody2]
                          rfl
    | recordT fs =>
        rw [goodT, Bool.and_eq_true] at hgt
        obtain ⟨hgf, hgo⟩ := hgt
        cases v with
        | numV x =>
            rw [show encodeTailF (F' + 1) (TypeNode.recordT fs) (ValueNode.numV x)
                = none from rfl] at henc
            cases henc
        | boolV b2 =>
            rw [show encodeTailF (F' + 1) (TypeNode.recordT fs) (ValueNode.boolV b2)
                = none from rfl] at henc
            cases henc
        | bytesV bs =>
            rw [show encodeTailF (F' + 1) (TypeNode.recordT fs) (ValueNode.bytesV bs)
                = none from rfl] at henc
            cases henc
        | listV vs =>
            rw [encodeTailF_record_eq] at henc
            by_cases hlen2 : fs.length = vs.length
            · rw [if_pos hlen2] at henc
              have hmzip : List.Forall₂ paramMatches (fieldsToParams fs)
                  ((List.zip (fs.map Prod.snd) vs).map Prod.fst) := by
                rw [List.map_fst_zip _ _ (by rw [List.length_map, hlen2])]
                exact fieldsToParams_matches fs
              obtain ⟨fd2, nhp, ntp, fh2, hbuild, hph⟩ := (ihF F' (by omega)).1 _ _ _
                (goodFields_zip vs hgf) hmzip henc hblen
              refine ⟨fd2 + 1, nhp ++ ntp, fh2, ?_, hph⟩
              rw [show componentsOf (TypeNode.recordT fs)
                = some (fieldsToParams fs) from rfl,
                show typeString (TypeNode.recordT fs) = ("tuple".data) from rfl]
              rw [parseDynamicDataF_some_eq, if_neg (by decide), if_neg (by decide),
                hbuild]
              rfl
            · rw [if_neg hlen2] at henc
              cases henc


/-
Claim layer for C1 and C4: a shared decompose-then-reassemble checker, the
counterexamples, and the amended statements built on `rt_all`.
-/

/-- Decompose an encoded hex string with the source breakdown and compare
the in-order concatenation of its leaf hex values against the input:
`some true` means the byte string is reconstructed exactly. -/
def decomposeRoundTrip (fuel : Nat) (params : List AbiParam) (hex : List Char) :
    Option Bool :=
  match buildFlatBreakdownF fuel params hex with
  | none => none
  | some (hp, tp) =>
      match partsHexF fuel (hp ++ tp) with
      | none => none
      | some out2 => some (out2 == hex)

/-- Pointwise strengthening of a `Forall₂` using membership, mapping the
right-hand list. -/
theorem forall2_map_right_imp {α β γ : Type} {R : α → β → Prop} {S : α → γ → Prop}
    {f : β → γ} : ∀ {as : List α} {bs : List β}, List.Forall₂ R as bs →
    (∀ a ∈ as, ∀ b ∈ bs, R a b → S a (f b)) → List.Forall₂ S as (bs.map f) := by
  intro as bs h
  induction h with
  | nil => intro _; exact List.Forall₂.nil
  | cons hr hrest ih =>
      intro himp
      rw [List.map_cons]
      exact List.Forall₂.cons
        (himp _ (List.mem_cons_self _ _) _ (List.mem_cons_self _ _) hr)
        (ih (fun a ha b hb hab =>
          himp a (List.mem_cons_of_mem _ ha) b (List.mem_cons_of_mem _ hb) hab))

/-- Every field type of an all-single-word record is a single-word scalar. -/
theorem allSingleWordFields_mem {fs : List (List Char × TypeNode)}
    (h : allSingleWordFields fs = true) :
    ∀ t ∈ fs.map Prod.snd, isSingleWordT t = true := by
  intro t ht
  obtain ⟨f, hf, rfl⟩ := List.mem_map.mp ht
  simp only [allSingleWordFields, List.all_eq_true] at h
  exact h f hf

/-- With no dynamic parameter the decomposer's first pass records no
dynamic items. -/
theorem collectDynItems_all_static : ∀ (params : List AbiParam) (hex : List Char)
    (cursor i : Nat), (∀ p ∈ params, isDynamicP p = false) →
    collectDynItems params hex cursor i = [] := by
  intro params
  induction params with
  | nil => intro hex cursor i _; rfl
  | cons p ps ih =>
      intro hex cursor i h
      rw [collectDynItems, if_neg (by rw [h p (List.mem_cons_self _ _)]; decide)]
      exact ih _ _ _ (fun q hq => h q (List.mem_cons_of_mem _ hq))

/-- The viem-shaped parameters of all-single-word record fields are all
static. -/
theorem fieldsToParams_all_static {fs : List (List Char × TypeNode)}
    (hsw : allSingleWordFields fs = true) :
    ∀ p ∈ fieldsToParams fs, isDynamicP p = false := by
  intro p hp
  obtain ⟨t, ht, hpm⟩ := forall2_mem_left (fieldsToParams_matches fs) hp
  have hsingle : isSingleWordT t = true := allSingleWordFields_mem hsw t ht
  obtain ⟨pt, pn, pc⟩ := p
  have h1 : pt = typeString t := hpm.1
  have h2 : pc = componentsOf t := hpm.2
  subst h1
  subst h2
  exact (isDynamicP_matches t pn).trans (isSingleWordT_not_dynamic hsingle)

/-- The rendered Function Selector head part of the source
`encodeFunctionCall`, with the fixed hash abstracted. -/
def selectorPart (hash : List Char → List Nat) (sig : List Char) : CalldataPart :=
  CalldataPart.mk ("Function Selector".data) ("bytes4".data) (selectorOf hash sig)
    (some (("keccak256(\"".data) ++ (sig ++ ("\")".data)))) none

/-- Counterexample to C1 as stated: encoding the single parameter
`string[]` with value `["hi"]` succeeds, but running the source decomposer
on the encoded byte string and re-assembling the leaf hex values of the
resulting breakdown does not reconstruct that byte string — the array
branch of `parseDynamicData` reads the element's offset word as if it were
flat element data and drops the element's length word and padded bytes, so
the reassembled string differs. -/
theorem c1_counterexample :
    (encodeParamsF 6 [(TypeNode.arrayT TypeNode.textT,
        ValueNode.listV [ValueNode.bytesV [104, 105]])]).bind
      (fun hex => decomposeRoundTrip 8 [AbiParam.mk ("string[]".data) none none] hex)
      = some false := by decide

/-- C1 (settled as corrected): the unrestricted round-trip claim is false —
see `c1_counterexample`, where the breakdown of an encoded `string[]` drops
the per-element tail data from its leaves. Amended round-trip: for every
good Type/Value list (arrays only of single-word scalar elements, static
records only with single-word scalar fields) whose encoding succeeds, the
source decomposer succeeds on the encoded byte string and the in-order
concatenation of the breakdown's leaf hex values reconstructs that byte
string exactly; prepending the Function Selector head part extends this to
the full calldata, selector included. -/
theorem c1_round_trip_good (F : Nat) (tvs : List (TypeNode × ValueNode))
    (params : List AbiParam) (hex : List Char)
    (hg : goodTVs tvs = true)
    (hm : List.Forall₂ paramMatches params (tvs.map Prod.fst))
    (henc : encodeParamsF F tvs = some hex)
    (hlen : hex.length < 2 ^ 256) :
    ∃ fd hp tp fh, buildFlatBreakdownF fd params hex = some (hp, tp) ∧
      partsHexF fh (hp ++ tp) = some hex ∧
      ∀ (hash : List Char → List Nat) (sig : List Char),
        partsHexF (fh + 1) (selectorPart hash sig :: (hp ++ tp))
          = some (selectorOf hash sig ++ hex) := by
  obtain ⟨fd, hp, tp, fh, h1, h2⟩ := (rt_all F).1 tvs params hex hg hm henc hlen
  refine ⟨fd, hp, tp, fh, h1, h2, ?_⟩
  intro hash sig
  rw [selectorPart, partsHexF_cons_none_eq, h2]
  rfl

/-- C1 witness: the amended round trip at the concrete good input
`(string, "hi")` — the encoding is the offset word, the length word and the
right-padded UTF-8 bytes of `"hi"`. -/
theorem c1_round_trip_good_witness :
    goodTVs [(TypeNode.textT, ValueNode.bytesV [104, 105])] = true ∧
    List.Forall₂ paramMatches [AbiParam.mk ("string".data) none none]
      ([(TypeNode.textT, ValueNode.bytesV [104, 105])].map Prod.fst) ∧
    encodeParamsF 4 [(TypeNode.textT, ValueNode.bytesV [104, 105])]
      = some (natToHex 32 64
          ++ (natToHex 2 64 ++ ('6' :: '8' :: '6' :: '9' :: List.replicate 60 '0'))) ∧
    (natToHex 32 64
        ++ (natToHex 2 64 ++ ('6' :: '8' :: '6' :: '9' :: List.replicate 60 '0'))).length
      < 2 ^ 256 ∧
    ∃ fd hp tp fh,
      buildFlatBreakdownF fd [AbiParam.mk ("string".data) none none]
          (natToHex 32 64
            ++ (natToHex 2 64 ++ ('6' :: '8' :: '6' :: '9' :: List.replicate 60 '0')))
        = some (hp, tp) ∧
      partsHexF fh (hp ++ tp)
        = some (natToHex 32 64
            ++ (natToHex 2 64 ++ ('6' :: '8' :: '6' :: '9' :: List.replicate 60 '0'))) := by
  refine ⟨by decide, List.Forall₂.cons ⟨rfl, rfl⟩ List.Forall₂.nil, by decide, by decide, ?_⟩
  obtain ⟨fd, hp, tp, fh, h1, h2, _⟩ :=
    c1_round_trip_good 4 [(TypeNode.textT, ValueNode.bytesV [104, 105])]
      [AbiParam.mk ("string".data) none none]
      (natToHex 32 64
        ++ (natToHex 2 64 ++ ('6' :: '8' :: '6' :: '9' :: List.replicate 60 '0')))
      (by decide) (List.Forall₂.cons ⟨rfl, rfl⟩ List.Forall₂.nil) (by decide) (by decide)
  exact ⟨fd, hp, tp, fh, h1, h2⟩

/-- Counterexample to C4 as stated: the static record
`((uint256 x, uint256 y) a, uint256 b)` with value `((1, 2), 3)` encodes
inline to 3 head words (the sum of its fields' static word-counts), but the
decomposer's head pass consumes only `components.length × 64 = 128` hex
characters for it — one slot per field, not per word — so the nested
sub-window is truncated and the reassembled leaves replace the third word
with zeros. -/
theorem c4_counterexample :
    (encodeStaticF 10
        (TypeNode.recordT [("a".data,
            TypeNode.recordT [("x".data, TypeNode.uintT 256),
              ("y".data, TypeNode.uintT 256)]),
          ("b".data, TypeNode.uintT 256)])
        (ValueNode.listV [ValueNode.listV [ValueNode.numV 1, ValueNode.numV 2],
          ValueNode.numV 3])
      = some (natToHex 1 64 ++ (natToHex 2 64 ++ natToHex 3 64))) ∧
    (natToHex 1 64 ++ (natToHex 2 64 ++ natToHex 3 64)).length = 192 ∧
    headAdvance (toAbiParam (TypeNode.recordT [("a".data,
        TypeNode.recordT [("x".data, TypeNode.uintT 256),
          ("y".data, TypeNode.uintT 256)]),
      ("b".data, TypeNode.uintT 256)])) = 128 ∧
    decomposeRoundTrip 10
        [toAbiParam (TypeNode.recordT [("a".data,
            TypeNode.recordT [("x".data, TypeNode.uintT 256),
              ("y".data, TypeNode.uintT 256)]),
          ("b".data, TypeNode.uintT 256)])]
        (natToHex 1 64 ++ (natToHex 2 64 ++ natToHex 3 64))
      = some false :=
  ⟨by decide, by decide, by decide, by decide⟩

/-- C4 (settled as corrected): the claim's head-slot count — the sum of the
fields' static word-counts — is wrong for nested static records: the
decomposer consumes `components.length` slots, one per field, so a static
record with a multi-word static-record field is truncated (see
`c4_counterexample`). Amended: for a static record all of whose fields are
single-word scalars (where field count and word count coincide), the
encoder lays the record out inline as the concatenation of its fields'
32-byte scalar words with no offset word, the decomposer's head pass
consumes exactly `components.length × 64` hex characters for it
(`headAdvance`), which equals the record's full inline size, and the
breakdown of that sub-window has no tail parts and reassembles the record's
bytes exactly. -/
theorem c4_static_record_inline (g : Nat) (fs : List (List Char × TypeNode))
    (vs : List ValueNode) (out : List Char) (nm : Option (List Char))
    (hsw : allSingleWordFields fs = true)
    (hgf : goodFields fs = true)
    (henc : encodeStaticF g (TypeNode.recordT fs) (ValueNode.listV vs) = some out)
    (hlen : out.length < 2 ^ 256) :
    out.length = 64 * fs.length ∧
    (∃ ws : List (List Char), out = ws.flatten ∧
       List.Forall₂ (fun (tv : TypeNode × ValueNode) w => scalarWord tv.1 tv.2 = some w)
         (List.zip (fs.map Prod.snd) vs) ws) ∧
    headAdvance (AbiParam.mk ("tuple".data) nm (some (fieldsToParams fs)))
      = 64 * fs.length ∧
    ∃ fd hp fh, buildFlatBreakdownF fd (fieldsToParams fs) out = some (hp, []) ∧
      partsHexF fh (hp ++ []) = some out := by
  have hgood : goodT (TypeNode.recordT fs) = true := by
    rw [goodT, hgf, allSingleWordFields_anyDyn hsw, hsw]
    rfl
  have hdyn : isDynamicT (TypeNode.recordT fs) = false := by
    rw [isDynamicT, allSingleWordFields_anyDyn hsw]
  have hL : out.length = 64 * fs.length := by
    have h := (enc_facts g).1 _ _ _ hgood hdyn henc
    rwa [staticSizeT_record] at h
  cases g with
  | zero => rw [encodeStaticF] at henc; cases henc
  | succ g1 =>
  rw [encodeStaticF_record_eq] at henc
  by_cases hlen2 : fs.length = vs.length
  · rw [if_pos hlen2] at henc
    refine ⟨hL, ?_, ?_, ?_⟩
    · cases g1 with
      | zero => rw [encodeParamsF] at henc; cases henc
      | succ g2 =>
          rw [encodeParamsF_succ_eq] at henc
          cases hi : encodeItemsF g2 (List.zip (fs.map Prod.snd) vs) with
          | none => rw [hi] at henc; cases henc
          | some items =>
              rw [hi] at henc
              have hout : assemble items = out := Option.some.inj henc
              have hforall := (enc_facts g2).2.2 _ _ (goodFields_zip vs hgf) hi
              have hstatic : ∀ it ∈ items, it.1 = false := by
                intro it hit
                obtain ⟨tv, htv, hok⟩ := forall2_mem_right hforall hit
                have hnd := isSingleWordT_not_dynamic (allSingle_zip hsw vs tv htv)
                rw [hok.1, hnd]
              refine ⟨items.map Prod.snd, ?_, ?_⟩
              · rw [← hout, assemble_all_static hstatic]
              · refine forall2_map_right_imp hforall ?_
                intro tv htv it hit hok
                have hsingle := allSingle_zip hsw vs tv htv
                have hd : ¬ (isDynamicT tv.1 = true) := by
                  rw [isSingleWordT_not_dynamic hsingle]
                  decide
                have h2 := hok.2
                rw [if_neg hd] at h2
                obtain ⟨⟨g3, hg3, hs⟩, _⟩ := h2
                cases g3 with
                | zero => rw [encodeStaticF] at hs; cases hs
                | succ g4 =>
                    rw [encodeStaticF_singleWord hsingle] at hs
                    exact hs
    · have hndp : isDynamicP (AbiParam.mk ("tuple".data) nm
          (some (fieldsToParams fs))) = false := by
        rw [isDynamicP_eq, if_neg (by decide)]
        exact (anyDynamicP_matches fs).trans (allSingleWordFields_anyDyn hsw)
      have hcond : ¬ (isDynamicP (AbiParam.mk ("tuple".data) nm
          (some (fieldsToParams fs))) = true) := by
        rw [hndp]
        decide
      rw [headAdvance, if_neg hcond]
      show (if (("tuple".data) == ("tuple".data)) then (fieldsToParams fs).length * 64
        else 64) = 64 * fs.length
      rw [if_pos (show (("tuple".data) == ("tuple".data)) = true from by decide),
        fieldsToParams_length, Nat.mul_comm]
    · have hmzip : List.Forall₂ paramMatches (fieldsToParams fs)
          ((List.zip (fs.map Prod.snd) vs).map Prod.fst) := by
        rw [List.map_fst_zip _ _ (by rw [List.length_map, hlen2])]
        exact fieldsToParams_matches fs
      obtain ⟨fd, hp, tp, fh, hbuild, hph⟩ := (rt_all g1).1 _ _ _
        (goodFields_zip vs hgf) hmzip henc hlen
      have htp : tp = [] := by
        cases fd with
        | zero => rw [buildFlatBreakdownF] at hbuild; cases hbuild
        | succ k =>
            rw [buildFlatBreakdownF_succ_eq,
              collectDynItems_all_static _ _ _ _ (fieldsToParams_all_static hsw),
              show sortByOffset [] = ([] : List DynItem) from rfl,
              show windowBounds ([] : List DynItem) out.length = [] from rfl] at hbuild
            cases hhp : headPassF k (fieldsToParams fs) out 0 0 with
            | none =>
                rw [hhp] at hbuild
                simp only [Option.none_bind] at hbuild
                cases hbuild
            | some hp2 =>
                rw [hhp] at hbuild
                cases k with
                | zero => rw [headPassF] at hhp; cases hhp
                | succ k2 =>
                    simp only [Option.some_bind, tailPassF_nil_eq] at hbuild
                    exact (congrArg Prod.snd (Option.some.inj hbuild)).symm
      subst htp
      exact ⟨fd, hp, fh, hbuild, hph⟩
  · rw [if_neg hlen2] at henc
    cases henc

/-- C4 witness: the amended statement at the concrete record
`(uint256 x, uint256 y)` with value `(1, 2)` — two inline head words, a
128-hex-character head advance and an empty-tail breakdown. -/
theorem c4_static_record_inline_witness :
    allSingleWordFields
        [("x".data, TypeNode.uintT 256), ("y".data, TypeNode.uintT 256)] = true ∧
    goodFields [("x".data, TypeNode.uintT 256), ("y".data, TypeNode.uintT 256)] = true ∧
    encodeStaticF 6
        (TypeNode.recordT [("x".data, TypeNode.uintT 256), ("y".data, TypeNode.uintT 256)])
        (ValueNode.listV [ValueNode.numV 1, ValueNode.numV 2])
      = some (natToHex 1 64 ++ natToHex 2 64) ∧
    (natToHex 1 64 ++ natToHex 2 64).length < 2 ^ 256 ∧
    ((natToHex 1 64 ++ natToHex 2 64).length
        = 64 * [("x".data, TypeNode.uintT 256), ("y".data, TypeNode.uintT 256)].length ∧
      (∃ ws : List (List Char), natToHex 1 64 ++ natToHex 2 64 = ws.flatten ∧
         List.Forall₂ (fun (tv : TypeNode × ValueNode) w => scalarWord tv.1 tv.2 = some w)
           (List.zip ([("x".data, TypeNode.uintT 256),
               ("y".data, TypeNode.uintT 256)].map Prod.snd)
             [ValueNode.numV 1, ValueNode.numV 2]) ws) ∧
      headAdvance (AbiParam.mk ("tuple".data) none (some (fieldsToParams
          [("x".data, TypeNode.uintT 256), ("y".data, TypeNode.uintT 256)])))
        = 64 * [("x".data, TypeNode.uintT 256), ("y".data, TypeNode.uintT 256)].length ∧
      ∃ fd hp fh,
        buildFlatBreakdownF fd
            (fieldsToParams [("x".data, TypeNode.uintT 256),
              ("y".data, TypeNode.uintT 256)])
            (natToHex 1 64 ++ natToHex 2 64) = some (hp, []) ∧
        partsHexF fh (hp ++ []) = some (natToHex 1 64 ++ natToHex 2 64)) :=
  ⟨by decide, by decide, by decide, by decide,
   c4_static_record_inline 6
     [("x".data, TypeNode.uintT 256), ("y".data, TypeNode.uintT 256)]
     [ValueNode.numV 1, ValueNode.numV 2] (natToHex 1 64 ++ natToHex 2 64) none
     (by decide) (by decide) (by decide) (by decide)⟩

end CalldataViz
